import Mathlib

/-!
Verification development for the `chords` repository (package `chords`).

The definitions below are a shallow embedding of the Go sources:
`notes.go` (pitch algebra), `chords.go` (chord data model, `Validate`,
`Canonicalize`, `String`, `Spell`), `chordparse.y` and the generated
LR parser (lexer, parse tables, semantic actions).

Modelling conventions:
  * Go `int8`/`byte`/`int` values are modelled as `Int` (all values that
    occur stay far away from the overflow boundaries).
  * Go maps are modelled as association lists in first-insertion order;
    map lookups of missing keys yield the zero value (empty list), as in Go.
  * A Go runtime panic (index out of range on a nil slice or a
    negative index) is modelled by returning `none` from an
    `Option`-valued function.
-/

namespace Chords

/-- Go `posMod` (notes.go): modulo that always returns a non-negative result. -/
def posMod (x n : Int) : Int := (x % n + n) % n

/-- `NoteName` is the byte value of a letter `'A'`..`'G'` (Go `type NoteName byte`). -/
abbrev NoteName := Int

/-- The note named A (byte value of `'A'`). -/
def nA : NoteName := 65

/-- The note named B. -/
def nB : NoteName := 66

/-- The note named C. -/
def nC : NoteName := 67

/-- The note named D. -/
def nD : NoteName := 68

/-- The note named E. -/
def nE : NoteName := 69

/-- The note named F. -/
def nF : NoteName := 70

/-- The note named G. -/
def nG : NoteName := 71

/-- `NoteName.Cardinal` (notes.go): half-step position of a letter, from A.
The Go code indexes the `noteCardinals` array; an out-of-range letter would
panic, which never happens behind the `IsValid` guards; we return 0 there. -/
def NoteName.Cardinal (n : NoteName) : Int :=
  if n = 65 then 0
  else if n = 66 then 2
  else if n = 67 then 3
  else if n = 68 then 5
  else if n = 69 then 7
  else if n = 70 then 8
  else if n = 71 then 10
  else 0

/-- `NoteName.IsValid` (notes.go). -/
def NoteName.IsValid (n : NoteName) : Prop := 65 ≤ n ∧ n ≤ 71

instance (n : NoteName) : Decidable n.IsValid := by unfold NoteName.IsValid; infer_instance

/-- `Accidental` (notes.go): signed half-step modifier, `-2`..`2`. -/
abbrev Accidental := Int

/-- The natural accidental. -/
def Natural : Accidental := 0

/-- The flat accidental. -/
def Flat : Accidental := -1

/-- The sharp accidental. -/
def Sharp : Accidental := 1

/-- The double-flat accidental. -/
def DblFlat : Accidental := -2

/-- The double-sharp accidental. -/
def DblSharp : Accidental := 2

/-- `Accidental.Offset` (notes.go): the accidental is its own offset. -/
def Accidental.Offset (a : Accidental) : Int := a

/-- `Accidental.IsValid` (notes.go). -/
def Accidental.IsValid (a : Accidental) : Prop := -2 ≤ a ∧ a ≤ 2

instance (a : Accidental) : Decidable a.IsValid := by unfold Accidental.IsValid; infer_instance

/-- `Accidental.String` (notes.go). -/
def Accidental.str (a : Accidental) : String :=
  if a = 0 then "♮"
  else if a = 1 then "♯"
  else if a = -1 then "♭"
  else if a = 2 then "𝄪"
  else if a = -2 then "𝄫"
  else "?"

/-- `Note` (notes.go): a note name with an accidental. -/
structure Note where
  N : NoteName
  Acc : Accidental
deriving DecidableEq, Repr

/-- `Note.IsValid` (notes.go). -/
def Note.IsValid (n : Note) : Prop := n.N.IsValid ∧ n.Acc.IsValid

instance (n : Note) : Decidable n.IsValid := by unfold Note.IsValid; infer_instance

/-- `Note.Cardinal` (notes.go): half-step position in `[0, 11]`. -/
def Note.Cardinal (n : Note) : Int := posMod (n.N.Cardinal + n.Acc.Offset) 12

/-- `Note.String` (notes.go). -/
def Note.str (n : Note) : String :=
  let s := String.mk [Char.ofNat n.N.toNat]
  if n.Acc ≠ 0 then s ++ n.Acc.str else s

/-- `parseAccidental` (notes.go); `none` models the error return. -/
def parseAccidental (s : String) : Option Accidental :=
  if s = "n" ∨ s = "♮" then some 0
  else if s = "#" ∨ s = "♯" then some 1
  else if s = "b" ∨ s = "♭" then some (-1)
  else if s = "x" ∨ s = "𝄪" then some 2
  else if s = "bb" ∨ s = "𝄫" then some (-2)
  else none

/-- `ParseNote` (notes.go); `none` models the error return. -/
def parseNote (s : String) : Option Note :=
  match s.toList with
  | [] => none
  | c :: rest =>
    let n : NoteName := (c.toNat : Int)
    if n.IsValid then
      if rest = [] then some ⟨n, 0⟩
      else (parseAccidental (String.mk rest)).map (fun a => ⟨n, a⟩)
    else none

/-- `MustParseNote` (notes.go); only applied to the valid literals of the
hard-coded tables, where it never panics (the default is unreachable). -/
def mustParseNote (s : String) : Note := (parseNote s).getD ⟨0, 0⟩

/-- `Interval` (notes.go): scale-step distance with a half-step offset. -/
structure Interval where
  Val : Int
  Offset : Int
deriving DecidableEq, Repr

/-- `stepsByInterval` (notes.go). -/
def stepsByInterval : List Int := [0, 2, 4, 5, 7, 9, 11]

/-- `Interval.NumHalfSteps` (notes.go): `posMod(stepsByInterval[Val-1]+Offset, 12)`.
An index outside `[0, 6]` panics in Go; modelled as `none`. -/
def Interval.NumHalfSteps? (i : Interval) : Option Int :=
  if 1 ≤ i.Val ∧ i.Val ≤ 7 then
    some (posMod (stepsByInterval.getD (i.Val - 1).toNat 0 + i.Offset) 12)
  else none

/-- `Interval.IsValid` (notes.go). -/
def Interval.IsValid (i : Interval) : Prop :=
  1 ≤ i.Val ∧ i.Val ≤ 7 ∧ -2 ≤ i.Offset ∧ i.Offset ≤ 2

instance (i : Interval) : Decidable i.IsValid := by unfold Interval.IsValid; infer_instance

/-- `offsetsByNote_strings` (notes.go): for each of the 35 spellings, the
preferred spellings at offsets `-4`..`4` half-steps. -/
def offsetsByNote_strings : List (String × List String) :=
  [ ("Ax",  ["Abb", "Ab", "A", "A#", "Ax", "B#", "Bx", "Cx", "D#"]),
    ("A#",  ["Gb", "Abb", "Ab", "A", "A#", "Ax", "B#", "Bx", "Cx"]),
    ("A",   ["Gbb", "Gb", "Abb", "Ab", "A", "A#", "Ax", "B#", "Bx"]),
    ("Ab",  ["Fb", "Gbb", "Gb", "Abb", "Ab", "A", "A#", "Ax", "B#"]),
    ("Abb", ["Fbb", "Fb", "Gbb", "Gb", "Abb", "Ab", "A", "A#", "Ax"]),
    ("Bx",  ["Bbb", "Bb", "B", "B#", "Bx", "Cx", "D#", "Dx", "E#"]),
    ("B#",  ["Ab", "Bbb", "Bb", "B", "B#", "Bx", "Cx", "D#", "Dx"]),
    ("B",   ["Abb", "Ab", "Bbb", "Bb", "B", "B#", "Bx", "Cx", "D#"]),
    ("Bb",  ["Gb", "Abb", "Ab", "Bbb", "Bb", "B", "B#", "Bx", "Cx"]),
    ("Bbb", ["Gbb", "Gb", "Abb", "Ab", "Bbb", "Bb", "B", "B#", "Bx"]),
    ("Cx",  ["Cbb", "Cb", "C", "C#", "Cx", "D#", "Dx", "E#", "Ex"]),
    ("C#",  ["Bbb", "Cbb", "Cb", "C", "C#", "Cx", "D#", "Dx", "E#"]),
    ("C",   ["Ab", "Bbb", "Cbb", "Cb", "C", "C#", "Cx", "D#", "Dx"]),
    ("Cb",  ["Abb", "Ab", "Bbb", "Cbb", "Cb", "C", "C#", "Cx", "D#"]),
    ("Cbb", ["Gb", "Abb", "Ab", "Bbb", "Cbb", "Cb", "C", "C#", "Cx"]),
    ("Dx",  ["Dbb", "Db", "D", "D#", "Dx", "E#", "Ex", "Fx", "G#"]),
    ("D#",  ["Cb", "Dbb", "Db", "D", "D#", "Dx", "E#", "Ex", "Fx"]),
    ("D",   ["Cbb", "Cb", "Dbb", "Db", "D", "D#", "Dx", "E#", "Ex"]),
    ("Db",  ["Bbb", "Cbb", "Cb", "Dbb", "Db", "D", "D#", "Dx", "E#"]),
    ("Dbb", ["Ab", "Bbb", "Cbb", "Cb", "Dbb", "Db", "D", "D#", "Dx"]),
    ("Ex",  ["Ebb", "Eb", "E", "E#", "Ex", "Fx", "G#", "Gx", "A#"]),
    ("E#",  ["Db", "Ebb", "Eb", "E", "E#", "Ex", "Fx", "G#", "Gx"]),
    ("E",   ["Dbb", "Db", "Ebb", "Eb", "E", "E#", "Ex", "Fx", "G#"]),
    ("Eb",  ["Cb", "Dbb", "Db", "Ebb", "Eb", "E", "E#", "Ex", "Fx"]),
    ("Ebb", ["Cbb", "Cb", "Dbb", "Db", "Ebb", "Eb", "E", "E#", "Ex"]),
    ("Fx",  ["Fbb", "Fb", "F", "F#", "Fx", "G#", "Gx", "A#", "Ax"]),
    ("F#",  ["Ebb", "Fbb", "Fb", "F", "F#", "Fx", "G#", "Gx", "A#"]),
    ("F",   ["Db", "Ebb", "Fbb", "Fb", "F", "F#", "Fx", "G#", "Gx"]),
    ("Fb",  ["Dbb", "Db", "Ebb", "Fbb", "Fb", "F", "F#", "Fx", "G#"]),
    ("Fbb", ["Cb", "Dbb", "Db", "Ebb", "Fbb", "Fb", "F", "F#", "Fx"]),
    ("Gx",  ["Gbb", "Gb", "G", "G#", "Gx", "A#", "Ax", "B#", "Bx"]),
    ("G#",  ["Fb", "Gbb", "Gb", "G", "G#", "Gx", "A#", "Ax", "B#"]),
    ("G",   ["Fbb", "Fb", "Gbb", "Gb", "G", "G#", "Gx", "A#", "Ax"]),
    ("Gb",  ["Ebb", "Fbb", "Fb", "Gbb", "Gb", "G", "G#", "Gx", "A#"]),
    ("Gbb", ["Db", "Ebb", "Fbb", "Fb", "Gbb", "Gb", "G", "G#", "Gx"]) ]

/-- `majorScales_strings` (notes.go): the seven natural major scales. -/
def majorScales_strings : List (String × List String) :=
  [ ("A", ["A", "B", "C#", "D", "E", "F#", "G#"]),
    ("B", ["B", "C#", "D#", "E", "F#", "G#", "A#"]),
    ("C", ["C", "D", "E", "F", "G", "A", "B"]),
    ("D", ["D", "E", "F#", "G", "A", "B", "C#"]),
    ("E", ["E", "F#", "G#", "A", "B", "C#", "D#"]),
    ("F", ["F", "G", "A", "Bb", "C", "D", "E"]),
    ("G", ["G", "A", "B", "C", "D", "E", "F#"]) ]

/-- Lookup in a note-keyed association list (models a Go `map[Note][]Note`
read; a missing key yields the zero value, a nil slice). -/
def lookupNotes (m : List (Note × List Note)) (k : Note) : Option (List Note) :=
  (m.find? (fun e => e.1 = k)).map (fun e => e.2)

/-- `offsetsByNote` (notes.go `init`): the string table parsed into notes. -/
def offsetsByNote : List (Note × List Note) :=
  offsetsByNote_strings.map (fun e => (mustParseNote e.1, e.2.map mustParseNote))

/-- `majorScales` (notes.go `init`).  The Go loop is
`for acc := Natural; acc < DblSharp; acc++`, i.e. over `acc ∈ [0, 1]` only
(`Natural = 0`, `DblSharp = 2` in the current signed `Accidental` encoding),
so only natural- and sharp-rooted scales are constructed. -/
def majorScales : List (Note × List Note) :=
  (majorScales_strings.map (fun e =>
    let n := mustParseNote e.1
    let ns := e.2.map mustParseNote
    ([0, 1] : List Int).map (fun acc =>
      if acc.Offset = 0 then (n, ns)
      else
        ((⟨n.N, acc⟩ : Note),
          ns.map (fun pp =>
            ((lookupNotes offsetsByNote pp).getD []).getD (acc.Offset + 4).toNat ⟨0, 0⟩))))).flatten

/-- The iterated offset-table walk in `Note.Transpose` (notes.go):
`for o != 0 { if -4 ≤ o ≤ 4 {np = offsetsByNote[np][o+4]; break} ... }`.
Fuel decreases `|o|` by 4 each round, so `|o|+1` rounds always suffice;
`none` models the panic on a missing table row. -/
def offsetWalk : Nat → Note → Int → Option Note
  | 0, _, _ => none
  | fuel + 1, np, o =>
    if o = 0 then some np
    else if -4 ≤ o ∧ o ≤ 4 then
      ((lookupNotes offsetsByNote np).getD []).get? (o + 4).toNat
    else if o < 0 then
      match ((lookupNotes offsetsByNote np).getD []).get? 0 with
      | none => none
      | some np' => offsetWalk fuel np' (o + 4)
    else
      match ((lookupNotes offsetsByNote np).getD []).get? 8 with
      | none => none
      | some np' => offsetWalk fuel np' (o - 4)

/-- `Note.Transpose` (notes.go).  `none` models the runtime panic when
`majorScales` has no entry for `n` (a nil slice is indexed). -/
def Note.Transpose? (n : Note) (interval : Interval) : Option Note :=
  match ((lookupNotes majorScales n).getD []).get? (posMod (interval.Val - 1) 7).toNat with
  | none => none
  | some np => offsetWalk (interval.Offset.natAbs + 1) np interval.Offset

/-- First normalization loop of `Note.IntervalTo` (notes.go):
`for offs < -2 { intv.Val--; if intv.Val < 1 {intv.Val += 7}; offs = ... }`. -/
def intervalToDown : Nat → Int → Int → Option Int
  | 0, _, _ => none
  | fuel + 1, val, dHalfSteps =>
    match Interval.NumHalfSteps? ⟨val, 0⟩ with
    | none => none
    | some s =>
      if dHalfSteps - s < -2 then
        let val' := val - 1
        intervalToDown fuel (if val' < 1 then val' + 7 else val') dHalfSteps
      else some val

/-- Second normalization loop of `Note.IntervalTo` (notes.go):
`for offs > 2 { intv.Val++; if intv.Val > 7 {intv.Val -= 7}; offs = ... }`. -/
def intervalToUp : Nat → Int → Int → Option Int
  | 0, _, _ => none
  | fuel + 1, val, dHalfSteps =>
    match Interval.NumHalfSteps? ⟨val, 0⟩ with
    | none => none
    | some s =>
      if dHalfSteps - s > 2 then
        let val' := val + 1
        intervalToUp fuel (if val' > 7 then val' - 7 else val') dHalfSteps
      else some val

/-- `Note.IntervalTo` (notes.go).  Note the initial degree is
`posMod(int8(other.N-'a') - int8(n.N-'a'), 8)` — modulo **eight**, with no
`+1`.  `none` models the panic when `NumHalfSteps` indexes
`stepsByInterval[-1]` (equal letters give `Val = 0`). -/
def Note.IntervalTo? (n other : Note) : Option Interval :=
  let val0 := posMod ((other.N - 97) - (n.N - 97)) 8
  let dHalfSteps := posMod (other.Cardinal - n.Cardinal) 12
  match intervalToDown 16 val0 dHalfSteps with
  | none => none
  | some val1 =>
    match intervalToUp 16 val1 dHalfSteps with
    | none => none
    | some val2 =>
      match Interval.NumHalfSteps? ⟨val2, 0⟩ with
      | none => none
      | some s => some ⟨val2, dHalfSteps - s⟩

/-- Modelled from the spec (§4.1, design note in §9): the intended
`majorScales` table covering **all 35** valid note spellings — the loop over
accidentals runs over the whole range `[-2, 2]` instead of the `[0, 1]` that
the code's stale `for acc := Natural; acc < DblSharp` bound produces. -/
def majorScalesSpec : List (Note × List Note) :=
  (majorScales_strings.map (fun e =>
    let n := mustParseNote e.1
    let ns := e.2.map mustParseNote
    ([-2, -1, 0, 1, 2] : List Int).map (fun acc =>
      if acc.Offset = 0 then (n, ns)
      else
        ((⟨n.N, acc⟩ : Note),
          ns.map (fun pp =>
            ((lookupNotes offsetsByNote pp).getD []).getD (acc.Offset + 4).toNat ⟨0, 0⟩))))).flatten

/-- `Note.Transpose` as it behaves over the spec-modelled full scale table. -/
def Note.TransposeSpec? (n : Note) (interval : Interval) : Option Note :=
  match ((lookupNotes majorScalesSpec n).getD []).get? (posMod (interval.Val - 1) 7).toNat with
  | none => none
  | some np => offsetWalk (interval.Offset.natAbs + 1) np interval.Offset

/-- Modelled from the spec (§4.1): `IntervalTo`'s degree is
`((b.name - a.name) mod 7) + 1`, with the same two normalization loops. -/
def Note.IntervalToSpec? (n other : Note) : Option Interval :=
  let val0 := posMod (other.N - n.N) 7 + 1
  let dHalfSteps := posMod (other.Cardinal - n.Cardinal) 12
  match intervalToDown 16 val0 dHalfSteps with
  | none => none
  | some val1 =>
    match intervalToUp 16 val1 dHalfSteps with
    | none => none
    | some val2 =>
      match Interval.NumHalfSteps? ⟨val2, 0⟩ with
      | none => none
      | some s => some ⟨val2, dHalfSteps - s⟩

/-! ## Chord data model (chords.go) -/

/-- `ChordTone` (chords.go): a chord element, degree `Val` with accidental. -/
structure ChordTone where
  Val : Int
  Acc : Accidental
deriving DecidableEq, Repr

/-- `ChordTone.IsValid` (chords.go): `1 <= Val <= 14` and a valid accidental. -/
def ChordTone.IsValid (t : ChordTone) : Prop :=
  1 ≤ t.Val ∧ t.Val ≤ 14 ∧ t.Acc.IsValid

instance (t : ChordTone) : Decidable t.IsValid := by unfold ChordTone.IsValid; infer_instance

/-- `TriadType` (chords.go): an integer enumeration. -/
abbrev TriadType := Int

/-- The major triad. -/
def Maj3 : TriadType := 0

/-- The augmented triad. -/
def Aug3 : TriadType := 1

/-- The minor triad. -/
def Min3 : TriadType := 2

/-- The diminished triad. -/
def Dim3 : TriadType := 3

/-- The half-diminished triad (implies a minor 7th). -/
def HDim : TriadType := 4

/-- The fully-diminished triad (implies a diminished 7th). -/
def FDim : TriadType := 5

/-- The suspended triad (3rd replaced by a 2nd or 4th). -/
def Sus : TriadType := 6

/-- `TriadType.IsValid` (chords.go). -/
def TriadType.IsValid (t : TriadType) : Prop := 0 ≤ t ∧ t ≤ 6

instance (t : TriadType) : Decidable t.IsValid := by unfold TriadType.IsValid; infer_instance

/-- `TriadType.String` (chords.go). -/
def TriadType.str (t : TriadType) : String :=
  if t = 0 then "maj"
  else if t = 1 then "+"
  else if t = 2 then "-"
  else if t = 3 then "dim"
  else if t = 4 then "ø"
  else if t = 5 then "o"
  else if t = 6 then "sus"
  else "?"

/-- `TriadType.fifthTone` (chords.go). -/
def TriadType.fifthTone (t : TriadType) : ChordTone :=
  if t = HDim ∨ t = Dim3 ∨ t = FDim then ⟨5, -1⟩
  else if t = Aug3 then ⟨5, 1⟩
  else ⟨5, 0⟩

/-- `Chord` (chords.go).  A zero `Bass.N` means "no bass note". -/
structure Chord where
  Root : Note
  Triad : TriadType
  ExtraTones : List ChordTone
  Bass : Note
  canonical : Bool
deriving DecidableEq, Repr

/-- The accumulator map of `Chord.Validate` (`map[int8]Accidental`),
as an association list; lookups are by key, insertions keep the first
binding (the Go code only writes absent keys). -/
def accMapGet (m : List (Int × Accidental)) (k : Int) : Option Accidental :=
  (m.find? (fun e => e.1 = k)).map (fun e => e.2)

/-- The Go pattern `a, ok := t[k]; if ok && a != good` as a proposition. -/
def presentNot (t : List (Int × Accidental)) (k : Int) (good : Accidental) : Prop :=
  match accMapGet t k with
  | some a => a ≠ good
  | none => False

instance (t : List (Int × Accidental)) (k : Int) (good : Accidental) :
    Decidable (presentNot t k good) := by
  unfold presentNot; exact match accMapGet t k with
  | some _ => by infer_instance
  | none => by infer_instance

/-- The degree reduction in `Chord.Validate`'s tone loop (chords.go):
`v := e.Val; if v > 7 { v -= 7 }`. -/
def reducedVal (v : Int) : Int := if v > 7 then v - 7 else v

/-- The extra-tones loop of `Chord.Validate` (chords.go): checks each tone,
folds the per-degree accidental map, and fails on the first invalid or
conflicting tone.  Returns the final map on success. -/
def validateTones : List ChordTone → List (Int × Accidental) →
    Except String (List (Int × Accidental))
  | [], t => .ok t
  | e :: rest, t =>
    if ¬ e.IsValid then .error "tone is invalid"
    else if reducedVal e.Val < 2 ∨ reducedVal e.Val = 3 ∨ reducedVal e.Val > 7 then
      .error "tone is not a valid chord extra"
    else
      match accMapGet t (reducedVal e.Val) with
      | some a => if a ≠ e.Acc then .error "tone has conflicting accidentals"
                  else validateTones rest t
      | none => validateTones rest (t ++ [(reducedVal e.Val, e.Acc)])

/-- `Chord.Validate` (chords.go), with the (unmutated) receiver returned
alongside the result so that the frame property is expressible.  Each Go
`return` site corresponds to a branch here; no branch modifies `ch`. -/
def Chord.validateRun (ch : Chord) : Option String × Chord :=
  if ¬ ch.Root.IsValid then (some "chord root is invalid", ch)
  else if ch.Bass.N ≠ 0 ∧ ¬ ch.Bass.IsValid then (some "chord bass note is invalid", ch)
  else if ¬ ch.Triad.IsValid then (some "chord triad type is invalid", ch)
  else
    match validateTones ch.ExtraTones [] with
    | .error e => (some e, ch)
    | .ok t =>
      if (ch.Triad = FDim ∨ ch.Triad = Dim3) ∧ presentNot t 7 Natural then
        (some "diminished chord should not have modified 7th", ch)
      else if (ch.Triad = FDim ∨ ch.Triad = HDim ∨ ch.Triad = Dim3) ∧ presentNot t 5 Flat then
        (some "diminished chord should not have non-flat 5th", ch)
      else if ch.Triad = Aug3 ∧ presentNot t 5 Sharp then
        (some "augmented chord should not have non-sharp 5th", ch)
      else if ch.Triad = Sus ∧ accMapGet t 2 = none ∧ accMapGet t 4 = none then
        (some "suspended chord must have 2nd or 4th as suspension note", ch)
      else (none, ch)

/-- `Chord.Validate` (chords.go): the error component alone. -/
def Chord.Validate (ch : Chord) : Option String := (ch.validateRun).1

/-! ## Canonicalize (chords.go)

`Chord.Canonicalize` works over a per-degree map `map[int8][]ChordTone`.
We model the map as an association list in first-insertion key order.
Go iterates maps (and the de-duplication sets) in unspecified order and
sorts with an unstable sort; every place where that order can reach the
output is parametrized by a reordering oracle `σ` (an arbitrary
permutation-producing function).  The concrete `Canonicalize` uses `σ = id`. -/

/-- The per-degree tone map. -/
abbrev TMap := List (Int × List ChordTone)

/-- Map read; a missing key yields the zero value (nil slice). -/
def tGet (t : TMap) (k : Int) : List ChordTone :=
  ((t.find? (fun e => e.1 = k)).map (fun e => e.2)).getD []

/-- Map write; an absent key is appended, a present key is updated in place. -/
def tSet : TMap → Int → List ChordTone → TMap
  | [], k, v => [(k, v)]
  | e :: rest, k, v => if e.1 = k then (k, v) :: rest else e :: tSet rest k v

/-- `removeTone` (chords.go). -/
def removeTone (tns : List ChordTone) (toRemove : ChordTone) : List ChordTone :=
  tns.filter (fun tn => tn ≠ toRemove)

/-- `containsTone` (chords.go). -/
def containsTone (tns : List ChordTone) (search : ChordTone) : Bool :=
  tns.contains search

/-- `toneOrder` (chords.go): modified 5s sort last (`math.MaxInt8`). -/
def toneOrder (b : Int) : Int := if b = 5 then 127 else b

/-- `tones.Less` (chords.go) as a boolean total preorder (`¬ Less b a`). -/
def toneLE (a b : ChordTone) : Bool :=
  decide (toneOrder a.Val < toneOrder b.Val) ||
    (decide (toneOrder a.Val = toneOrder b.Val) && decide (a.Acc.Offset ≤ b.Acc.Offset))

/-- Ordered insertion under a boolean preorder. -/
def insertLE (le : α → α → Bool) (x : α) : List α → List α
  | [] => [x]
  | y :: ys => if le x y then x :: y :: ys else y :: insertLE le x ys

/-- Insertion sort under a boolean preorder.  Any comparison sort yields a
`le`-sorted permutation of its input; Go's unstable `sort.Sort` may yield
any of them, all of which arise here from an oracle-permuted input. -/
def sortByLE (le : α → α → Bool) : List α → List α
  | [] => []
  | x :: xs => insertLE le x (sortByLE le xs)

/-- The canonical-tone sort (`sort.Sort(tones(...))` in chords.go). -/
def sortTones (l : List ChordTone) : List ChordTone := sortByLE toneLE l

/-- Accumulator of the first loop of `Chord.Canonicalize`. -/
structure BuildSt where
  t : TMap
  hasSeventh : Bool
  hasNaturalSeventh : Bool
  impliedSeventh : Nat

/-- The first loop of `Chord.Canonicalize` (chords.go): drops tones
enharmonic to the root, counts implied-7th signals, and files the rest
into the per-degree map. -/
def buildTones : List ChordTone → BuildSt → BuildSt
  | [], st => st
  | e :: rest, st =>
    if (e.Val = 7 ∧ e.Acc = DblSharp) ∨ (e.Val = 2 ∧ e.Acc = DblFlat) then
      buildTones rest st
    else if e.Val = 9 ∧ e.Acc = DblFlat then
      buildTones rest { st with impliedSeventh := st.impliedSeventh + 1 }
    else
      let st1 :=
        if e.Val > 7 then { st with impliedSeventh := st.impliedSeventh + 1 }
        else if e.Val = 7 then
          { st with hasSeventh := true,
                    hasNaturalSeventh := st.hasNaturalSeventh || decide (e.Acc = Natural) }
        else st
      buildTones rest { st1 with t := tSet st1.t e.Val (tGet st1.t e.Val ++ [e]) }

/-- The suspended-triad conversion loop of `Chord.Canonicalize` (chords.go):
a single pass with early exits, checking 4ths before 2nds. -/
def susConvert (t : TMap) : TriadType × TMap :=
  let count := (tGet t 4).length + (tGet t 11).length
  let t1 := tSet t 4 (removeTone (tGet t 4) ⟨4, Flat⟩)
  let t1 := tSet t1 11 (removeTone (tGet t1 11) ⟨11, Flat⟩)
  if count > (tGet t1 4).length + (tGet t1 11).length then (Maj3, t1)
  else
    let t2 := tSet t1 4 (removeTone (tGet t1 4) ⟨4, DblFlat⟩)
    let t2 := tSet t2 11 (removeTone (tGet t2 11) ⟨11, DblFlat⟩)
    if count > (tGet t2 4).length + (tGet t2 11).length then (Min3, t2)
    else
      let count2 := (tGet t2 2).length + (tGet t2 9).length
      let t3 := tSet t2 2 (removeTone (tGet t2 2) ⟨2, Sharp⟩)
      let t3 := tSet t3 9 (removeTone (tGet t3 9) ⟨9, Sharp⟩)
      if count2 > (tGet t3 2).length + (tGet t3 9).length then (Min3, t3)
      else
        let t4 := tSet t3 2 (removeTone (tGet t3 2) ⟨2, DblSharp⟩)
        let t4 := tSet t4 9 (removeTone (tGet t4 9) ⟨9, DblSharp⟩)
        if count2 > (tGet t4 2).length + (tGet t4 9).length then (Maj3, t4)
        else (Sus, t4)

/-- The degree-consolidation pass of `Chord.Canonicalize` (chords.go):
with a 7th, degrees `< 7` (except 5) move up by 7 and degrees 12/14 move
down by 7; without a 7th, degrees `> 7` move down by 7.  The Go map
iteration order does not affect the outcome (each target degree has a
single source and targets are never themselves rewritten), so we fold
over the snapshot of entries in stored order. -/
def consolidate (hasSeventh : Bool) (t : TMap) : TMap :=
  if hasSeventh then
    t.foldl (fun acc e =>
      let k := e.1
      if k < 7 ∧ k ≠ 5 then
        let v := tGet acc k
        tSet (tSet acc (k + 7)
          (tGet acc (k + 7) ++ v.map (fun tn => { tn with Val := tn.Val + 7 }))) k []
      else if k = 12 ∨ k = 14 then
        let v := tGet acc k
        tSet (tSet acc (k - 7)
          (tGet acc (k - 7) ++ v.map (fun tn => { tn with Val := tn.Val - 7 }))) k []
      else acc) t
  else
    t.foldl (fun acc e =>
      let k := e.1
      if k > 7 then
        let v := tGet acc k
        tSet (tSet acc (k - 7)
          (tGet acc (k - 7) ++ v.map (fun tn => { tn with Val := tn.Val - 7 }))) k []
      else acc) t

/-- The index chosen by the suspension-demotion loops of
`Chord.Canonicalize` (chords.go): the first natural-accidental entry,
otherwise the entry with the minimal accidental (first such). -/
def pickDemoteGo : List ChordTone → Nat → Option (Nat × Accidental) → Nat
  | [], _, best => (best.map (fun b => b.1)).getD 0
  | tn :: rest, i, best =>
    if tn.Acc = Natural then i
    else
      match best with
      | none => pickDemoteGo rest (i + 1) (some (i, tn.Acc))
      | some (bi, ba) =>
        if tn.Acc < ba then pickDemoteGo rest (i + 1) (some (i, tn.Acc))
        else pickDemoteGo rest (i + 1) (some (bi, ba))

/-- See `pickDemoteGo`. -/
def pickDemote (l : List ChordTone) : Nat := pickDemoteGo l 0 none

/-- Result of the order-independent part of `Chord.Canonicalize`. -/
structure CanonSt where
  triad : TriadType
  t : TMap
  hasSeventh : Bool
deriving Repr

/-- The mid-canonicalization state threaded through the passes of
`Chord.Canonicalize` (chords.go): the working triad, the per-degree tone
map, and the seventh-tracking locals of the first loop. -/
structure MidSt where
  triad : TriadType
  t : TMap
  hasSeventh : Bool
  hasNaturalSeventh : Bool
  impliedSeventh : Nat

/-- `Chord.Canonicalize` (chords.go), first stage: the early loop
(`buildTones`) and the removal of redundant 5th tones. -/
def canonBuild (ch : Chord) : MidSt :=
  let st := buildTones ch.ExtraTones
    ⟨[], false, false, if ch.Triad = FDim ∨ ch.Triad = HDim then 1 else 0⟩
  let t :=
    if ch.Triad = Maj3 ∨ ch.Triad = Min3 ∨ ch.Triad = Sus then
      tSet st.t 5 (removeTone (tGet st.t 5) ⟨5, Natural⟩)
    else if ch.Triad = Aug3 then
      tSet st.t 5 (removeTone (tGet st.t 5) ⟨5, Sharp⟩)
    else if ch.Triad = Dim3 ∨ ch.Triad = HDim ∨ ch.Triad = FDim then
      tSet st.t 5 (removeTone (tGet st.t 5) ⟨5, Flat⟩)
    else st.t
  ⟨ch.Triad, t, st.hasSeventh, st.hasNaturalSeventh, st.impliedSeventh⟩

/-- `Chord.Canonicalize` (chords.go): convert a minor chord with a flat 5
to some kind of diminished chord. -/
def canonConvMin (m : MidSt) : MidSt :=
  let convertMin := m.triad = Min3 ∧ (tGet m.t 5).any (fun tn => decide (tn.Acc = Flat))
  let t := if convertMin then tSet m.t 5 (removeTone (tGet m.t 5) ⟨5, Flat⟩) else m.t
  let triad :=
    if convertMin then (if m.impliedSeventh > 0 ∨ m.hasSeventh then HDim else Dim3)
    else m.triad
  { m with t := t, triad := triad }

/-- `Chord.Canonicalize` (chords.go): convert a major chord with a sharp 5
to augmented. -/
def canonConvMaj (m : MidSt) : MidSt :=
  let convertMaj := m.triad = Maj3 ∧ (tGet m.t 5).any (fun tn => decide (tn.Acc = Sharp))
  let t := if convertMaj then tSet m.t 5 (removeTone (tGet m.t 5) ⟨5, Sharp⟩) else m.t
  let triad := if convertMaj then Aug3 else m.triad
  { m with t := t, triad := triad }

/-- `Chord.Canonicalize` (chords.go): canonicalize `dim7` to `o`. -/
def canonDimPromote (m : MidSt) : MidSt :=
  let dimPromote :=
    m.triad = Dim3 ∧ (m.hasNaturalSeventh ∨ (m.impliedSeventh > 0 ∧ ¬ m.hasSeventh))
  { m with triad := if dimPromote then FDim else m.triad,
           impliedSeventh := if dimPromote then m.impliedSeventh + 1 else m.impliedSeventh }

/-- `Chord.Canonicalize` (chords.go): a half-diminished chord whose stated
7ths are all flat is fully diminished, with those 7ths made natural. -/
def canonHdimPromote (m : MidSt) : MidSt :=
  let hdimPromote :=
    m.triad = HDim ∧ m.hasSeventh ∧ (tGet m.t 7).all (fun s => decide (s.Acc = Flat))
  { m with
      t := if hdimPromote then
             tSet m.t 7 ((tGet m.t 7).map (fun tn => { tn with Acc := Natural }))
           else m.t,
      triad := if hdimPromote then FDim else m.triad }

/-- `Chord.Canonicalize` (chords.go): if a 7th is only implied, make it
explicit. -/
def canonMaterialize (m : MidSt) : MidSt :=
  let materialize := m.impliedSeventh > 0 ∧ ¬ m.hasSeventh
  { m with t := if materialize then tSet m.t 7 (tGet m.t 7 ++ [⟨7, Natural⟩]) else m.t,
           hasSeventh := m.hasSeventh ∨ materialize }

/-- `Chord.Canonicalize` (chords.go): prune enharmonic 3rd-equivalents
according to the triad. -/
def canonEnh3 (m : MidSt) : MidSt :=
  { m with t :=
      if m.triad = Maj3 ∨ m.triad = Aug3 then
        let t := tSet m.t 4 (removeTone (tGet m.t 4) ⟨4, Flat⟩)
        let t := tSet t 11 (removeTone (tGet t 11) ⟨11, Flat⟩)
        let t := tSet t 2 (removeTone (tGet t 2) ⟨2, DblSharp⟩)
        tSet t 9 (removeTone (tGet t 9) ⟨9, DblSharp⟩)
      else if m.triad = Min3 ∨ m.triad = Dim3 ∨ m.triad = HDim ∨ m.triad = FDim then
        let t := tSet m.t 2 (removeTone (tGet m.t 2) ⟨2, Sharp⟩)
        let t := tSet t 9 (removeTone (tGet t 9) ⟨9, Sharp⟩)
        let t := tSet t 4 (removeTone (tGet t 4) ⟨4, DblFlat⟩)
        tSet t 11 (removeTone (tGet t 11) ⟨11, DblFlat⟩)
      else m.t }

/-- `Chord.Canonicalize` (chords.go): sus chords with a sharp 2nd or flat
4th convert to minor or major (`susConvert`). -/
def canonSus (m : MidSt) : MidSt :=
  let conv := if m.triad = Sus then susConvert m.t else (m.triad, m.t)
  { m with triad := conv.1, t := conv.2 }

/-- `Chord.Canonicalize` (chords.go): fully-diminished chords drop the
natural 6th. -/
def canonDrop6 (m : MidSt) : MidSt :=
  { m with t :=
      if m.triad = FDim then
        let t := tSet m.t 6 (removeTone (tGet m.t 6) ⟨6, Natural⟩)
        tSet t 13 (removeTone (tGet t 13) ⟨13, Natural⟩)
      else m.t }

/-- `Chord.Canonicalize` (chords.go): augmented chords (or a stated sharp
5) drop the flat 6th. -/
def canonDropFlat6 (m : MidSt) : MidSt :=
  { m with t :=
      if m.triad = Aug3 ∨ containsTone (tGet m.t 5) ⟨5, Sharp⟩ then
        let t := tSet m.t 6 (removeTone (tGet m.t 6) ⟨6, Flat⟩)
        tSet t 13 (removeTone (tGet t 13) ⟨13, Flat⟩)
      else m.t }

/-- `Chord.Canonicalize` (chords.go): diminished chords (or a stated flat
5 on a non-sus chord) drop the sharp 4th. -/
def canonDropSharp4 (m : MidSt) : MidSt :=
  { m with t :=
      if m.triad = Dim3 ∨ m.triad = HDim ∨ m.triad = FDim ∨
          (m.triad ≠ Sus ∧ containsTone (tGet m.t 5) ⟨5, Flat⟩) then
        let t := tSet m.t 4 (removeTone (tGet m.t 4) ⟨4, Sharp⟩)
        tSet t 11 (removeTone (tGet t 11) ⟨11, Sharp⟩)
      else m.t }

/-- `Chord.Canonicalize` (chords.go): sus chords with a stated flat 5 drop
sharp 4ths unless that would drop the last 2nd/4th-family tone. -/
def canonSusFlat5 (m : MidSt) : MidSt :=
  { m with t :=
      if m.triad = Sus ∧ containsTone (tGet m.t 5) ⟨5, Flat⟩ then
        if (tGet m.t 2).length + (tGet m.t 9).length > 0 then
          let t := tSet m.t 4 (removeTone (tGet m.t 4) ⟨4, Sharp⟩)
          tSet t 11 (removeTone (tGet t 11) ⟨11, Sharp⟩)
        else
          let count := (tGet m.t 4).length + (tGet m.t 11).length
          let t' := tSet m.t 4 (removeTone (tGet m.t 4) ⟨4, Sharp⟩)
          let t' := tSet t' 11 (removeTone (tGet t' 11) ⟨11, Sharp⟩)
          if (tGet t' 4).length + (tGet t' 11).length = 0 ∧ count > 0 then
            tSet t' 4 [⟨4, Sharp⟩]
          else t'
      else m.t }

/-- `Chord.Canonicalize` (chords.go): chords with a perfect fifth drop the
double-sharp 4th. -/
def canonDropDblSharp4 (m : MidSt) : MidSt :=
  { m with t :=
      if (m.triad = Min3 ∨ m.triad = Maj3) ∧
          ((tGet m.t 5).length = 0 ∨ containsTone (tGet m.t 5) ⟨5, Natural⟩) then
        let t := tSet m.t 4 (removeTone (tGet m.t 4) ⟨4, DblSharp⟩)
        tSet t 11 (removeTone (tGet t 11) ⟨11, DblSharp⟩)
      else m.t }

/-- Everything in `Chord.Canonicalize` (chords.go) up to and including the
degree consolidation, as the composition of the passes above.  No
map-iteration order reaches this result. -/
def canonPre (ch : Chord) : CanonSt :=
  let m := canonDropDblSharp4 (canonSusFlat5 (canonDropSharp4 (canonDropFlat6 (canonDrop6
    (canonSus (canonEnh3 (canonMaterialize (canonHdimPromote (canonDimPromote
      (canonConvMaj (canonConvMin (canonBuild ch))))))))))))
  ⟨m.triad, consolidate m.hasSeventh m.t, m.hasSeventh⟩

/-- The order-sensitive tail of `Chord.Canonicalize` (chords.go):
set-based de-duplication per degree, the suspended-tone demotion, and the
final flatten-and-sort; `σ` stands for the unspecified iteration orders. -/
def canonPost (σ : List ChordTone → List ChordTone) (st : CanonSt) : TriadType × List ChordTone :=
  let t := st.t.map (fun e => (e.1, σ e.2.dedup))
  let t :=
    if st.hasSeventh ∧ st.triad = Sus then
      let elevens := tGet t 11
      if elevens ≠ [] then
        let i := pickDemote elevens
        let chosen := elevens.getD i ⟨0, 0⟩
        tSet (tSet t 4 [{ chosen with Val := 4 }]) 11 (elevens.eraseIdx i)
      else
        let nines := tGet t 9
        if nines ≠ [] then
          let i := pickDemote nines
          let chosen := nines.getD i ⟨0, 0⟩
          tSet (tSet t 2 [{ chosen with Val := 2 }]) 9 (nines.eraseIdx i)
        else t
    else t
  (st.triad, sortTones (σ ((t.map (fun e => e.2)).flatten)))

/-- `Chord.Canonicalize` (chords.go) parametrized by the iteration-order
oracle.  An already-canonical chord is returned untouched (the flag guard). -/
def Chord.CanonicalizeWith (σ : List ChordTone → List ChordTone) (ch : Chord) : Chord :=
  if ch.canonical then ch
  else
    let r := canonPost σ (canonPre ch)
    { Root := ch.Root, Triad := r.1, ExtraTones := r.2, Bass := ch.Bass, canonical := true }

/-- `Chord.Canonicalize` (chords.go) with the identity iteration order. -/
def Chord.Canonicalize (ch : Chord) : Chord := ch.CanonicalizeWith id

/-! ## Stringifier (chords.go `Chord.String`) -/

/-- `ChordTone.String` (chords.go): `△` marks a sharp 7th. -/
def ChordTone.str (t : ChordTone) : String :=
  let acc :=
    if t.Val = 7 ∧ t.Acc = Sharp then "△"
    else if t.Acc ≠ Natural then t.Acc.str
    else ""
  acc ++ toString t.Val

/-- Whether a character is an ASCII digit (the Go code compares the raw
byte; UTF-8 continuation bytes are never digits, so the check agrees). -/
def isDigitChar (c : Char) : Bool := decide ('0' ≤ c) && decide (c ≤ '9')

/-- First character of a string is a digit. -/
def strFirstDigit (s : String) : Bool :=
  match s.toList with
  | [] => false
  | c :: _ => isDigitChar c

/-- Last character of a string is a digit. -/
def strLastDigit (s : String) : Bool :=
  match s.toList.getLast? with
  | none => false
  | some c => isDigitChar c

/-- The extra-tones rendering loop of `Chord.String` (chords.go), tracking
the index `i` and the previously rendered fragment `prev`. -/
def chordStrGo (ch : Chord) : List (Nat × ChordTone) → String → String
  | [], _ => ""
  | (i, t) :: rest, prev =>
    let str := t.str
    let next := ch.ExtraTones.getD (i + 1) ⟨0, 0⟩
    let str :=
      if t.Val = 7 ∧ (t.Acc = Natural ∨ t.Acc = Sharp) ∧
          (i = 0 ∨ (ch.Triad = Sus ∧ i = 1)) ∧
          ((i + 1 < ch.ExtraTones.length ∧ next.Val > 7 ∧ next.Acc = Natural) ∨
            (i = ch.ExtraTones.length - 1 ∧ (ch.Triad = FDim ∨ ch.Triad = HDim))) then
        str.dropRight 1
      else str
    if str = "" then chordStrGo ch rest prev
    else
      let sep := if prev ≠ "" ∧ strLastDigit prev ∧ strFirstDigit str then " " else ""
      sep ++ str ++ chordStrGo ch rest str

/-- `Chord.String` (chords.go). -/
def Chord.str (ch : Chord) : String :=
  let b := ch.Root.str ++ (if ch.Triad ≠ Maj3 then ch.Triad.str else "")
  let b := b ++ chordStrGo ch ch.ExtraTones.enum ""
  if ch.Bass.N > 0 then b ++ "/" ++ ch.Bass.str else b

/-! ## Speller (chords.go `Chord.Spell`) -/

/-- `standardIntervals` (chords.go), indexed by `TriadType`. -/
def standardIntervals : List (List Int) :=
  [ [0, 0, 0, 0, 0, 0, -1],
    [0, 0, 0, 0, 0, 0, -1],
    [0, 0, -1, 0, 0, 0, -1],
    [0, 0, -1, 0, 0, 0, -2],
    [0, 0, -1, 0, 0, 0, -1],
    [0, 0, -1, 0, 0, 0, -2],
    [0, 0, 0, 0, 0, 0, -1] ]

/-- The fifth/seventh scan of `Chord.Spell` (chords.go), with its
early-break conditions mirrored exactly. -/
def spellScan (triad : TriadType) : List ChordTone → Bool → Bool → Bool × Bool
  | [], h5, h7 => (h5, h7)
  | tn :: rest, h5, h7 =>
    if tn.Val = 5 then
      if h7 ∨ (triad ≠ FDim ∧ triad ≠ HDim) then (true, h7)
      else spellScan triad rest true h7
    else if tn.Val = 7 then
      if h5 then (h5, true)
      else spellScan triad rest h5 true
    else spellScan triad rest h5 h7

/-- The suspension-tone selection of `spellTonesFor` (chords.go); the Go
loops keep the last matching entry, and a zero `Val` means "none". -/
def spellSusTone (tns : List ChordTone) : ChordTone :=
  let t2 := tns.foldl (fun acc t => if t.Val = 2 then t else acc) ⟨0, 0⟩
  let t4 := tns.foldl (fun acc t => if t.Val = 4 then t else acc) ⟨0, 0⟩
  if t4.Val ≠ 0 then t4
  else if t2.Val ≠ 0 then t2
  else
    let t2 := tns.foldl (fun acc t => if t.Val = 9 then t else acc) ⟨0, 0⟩
    let t4 := tns.foldl (fun acc t => if t.Val = 11 then t else acc) ⟨0, 0⟩
    if t4.Val ≠ 0 then t4
    else if t2.Val ≠ 0 then t2
    else ⟨0, 0⟩

/-- `spellTones.spellToneOrder` (chords.go). -/
def spellToneOrder (susTone : ChordTone) (hasSeventh : Bool) (tn : ChordTone) : Int :=
  if tn.Val = 1 ∨ tn.Val = 3 ∨ tn.Val = 5 ∨ tn.Val = 7 then tn.Val
  else if tn.Val < 5 ∧ tn = susTone then tn.Val
  else if tn.Val = 6 ∧ hasSeventh = false then tn.Val
  else tn.Val + 7

/-- `spellTones.Less` (chords.go) as a boolean total preorder. -/
def spellLE (susTone : ChordTone) (h7 : Bool) (a b : ChordTone) : Bool :=
  decide (spellToneOrder susTone h7 a < spellToneOrder susTone h7 b) ||
    (decide (spellToneOrder susTone h7 a = spellToneOrder susTone h7 b) &&
      decide (a.Acc.Offset ≤ b.Acc.Offset))

/-- `Chord.Spell` (chords.go), parametrized by the transposition function
(the code calls `Note.Transpose` through `TransposeNote`); `none` models a
panic inside transposition.  Degree and triad indexing stay in range for
every chord the parser can produce, so the `getD` defaults are inert. -/
def Chord.SpellWith (tp : Note → Interval → Option Note) (ch : Chord) : Option (List Note) :=
  let tones0 : List ChordTone := [⟨1, 0⟩]
  let tones0 := if ch.Triad ≠ Sus then tones0 ++ [⟨3, 0⟩] else tones0
  let scan := spellScan ch.Triad ch.ExtraTones false false
  let tones0 := if scan.1 = false then tones0 ++ [ch.Triad.fifthTone] else tones0
  let tones0 :=
    if scan.2 = false ∧ (ch.Triad = FDim ∨ ch.Triad = HDim) then tones0 ++ [⟨7, 0⟩]
    else tones0
  let tones1 := tones0 ++ ch.ExtraTones
  let susTone := if ch.Triad = Sus then spellSusTone tones1 else (⟨0, 0⟩ : ChordTone)
  let h7 := tones1.any (fun t => decide (t.Val = 7))
  let sorted := sortByLE (spellLE susTone h7) tones1
  let std := standardIntervals.getD ch.Triad.toNat []
  let ints := sorted.map (fun tn =>
    let v := if tn.Val > 7 then tn.Val - 7 else tn.Val
    (⟨v, std.getD (v - 1).toNat 0 + tn.Acc.Offset⟩ : Interval))
  match ints.mapM (fun i => tp ch.Root i) with
  | none => none
  | some ret => some (if ch.Bass.N ≠ 0 then ch.Bass :: ret else ret)

/-- `Chord.Spell` (chords.go) over the code's `Note.Transpose`. -/
def Chord.Spell? (ch : Chord) : Option (List Note) := ch.SpellWith Note.Transpose?

/-- `Chord.Spell` over the spec-modelled full transposition table. -/
def Chord.SpellSpec? (ch : Chord) : Option (List Note) := ch.SpellWith Note.TransposeSpec?

/-! ## Lexer and LR parser (chordparse.y and its generated tables)

The grammar file `chordparse.y` in the sources matches the checked-in
generated parser production for production (only type/constant names were
reninstated), so the parse tables below are the generated tables, and the
semantic actions are transcribed from the generated action switch.
The machine is fuelled; fuel exhaustion and the (unreachable) Go panics
are reported as `.stuck` and surfaced as an error by `ParseChord`. -/

/-- Token code for a note letter (`_SYM_NOTE`). -/
def SYM_NOTE : Int := 57346

/-- Token code for a high tone 9/11/13 (`_SYM_TONE`). -/
def SYM_TONE : Int := 57347

/-- Token code for a major-7 marker (`_SYM_MAJ7`). -/
def SYM_MAJ7 : Int := 57348

/-- Token code for `sus` (`_SYM_SUS`). -/
def SYM_SUS : Int := 57349

/-- Token code for an accidental (`_SYM_ACCIDENTAL`). -/
def SYM_ACCIDENTAL : Int := 57350

/-- Token code for `min`/`m` (`_SYM_MIN`). -/
def SYM_MIN : Int := 57351

/-- Token code for `dim` (`_SYM_DIM`). -/
def SYM_DIM : Int := 57352

/-- Token code for `ø` (`_SYM_HDIM`). -/
def SYM_HDIM : Int := 57353

/-- Token code for `o` (`_SYM_FDIM`). -/
def SYM_FDIM : Int := 57354

/-- Token code for `aug` (`_SYM_AUG`). -/
def SYM_AUG : Int := 57355

/-- `chordSymType`: the semantic-value union of the parser. -/
structure SymType where
  ch : Chord
  n : Note
  t : ChordTone
  acc : Accidental
  triadTyp : TriadType
  triadSus : ChordTone
  tones : List ChordTone
  b : Int
deriving Repr

instance : Inhabited SymType :=
  ⟨⟨⟨⟨0, 0⟩, 0, [], ⟨0, 0⟩, false⟩, ⟨0, 0⟩, ⟨0, 0⟩, 0, 0, ⟨0, 0⟩, [], 0⟩⟩

/-- `chordLex`: the lexer state, holding the rune input, the cursor, and
the `res`/`err` cells that `ParseChord` returns. -/
structure LexSt where
  input : List Char
  pos : Nat
  err : Option String
  res : Option Chord

/-- `chordLex.next` (chordparse.y): skip spaces, return the next rune and
the new cursor, or `none` at end of input.  The fuel argument only bounds
the space-skipping loop; callers pass the whole input length plus one,
which always suffices. -/
def lexNextGo (input : List Char) : Nat → Nat → Option (Char × Nat)
  | 0, _ => none
  | fuel + 1, pos =>
    match input.get? pos with
    | none => none
    | some c => if c = ' ' then lexNextGo input fuel (pos + 1) else some (c, pos + 1)

/-- `chordLex.Lex` (chordparse.y): one token.  Returns the Go return value
(`0` for end of input, a `SYM_*` code, or the rune itself as a literal
token), the updated `lval`, and the advanced lexer. -/
def lexStep (l : LexSt) (lval : SymType) : Int × SymType × LexSt :=
  match lexNextGo l.input (l.input.length + 1) l.pos with
  | none => (0, lval, { l with pos := l.input.length })
  | some (c, pos') =>
    let l := { l with pos := pos' }
    let peek := fun (dist : Nat) => l.input.get? (l.pos + dist)
    let skip := fun (dist : Nat) => { l with pos := l.pos + dist }
    if 'A' ≤ c ∧ c ≤ 'G' then (SYM_NOTE, { lval with b := (c.toNat : Int) }, l)
    else if c = 's' then
      if peek 0 = some 'u' ∧ peek 1 = some 's' then (SYM_SUS, lval, skip 2)
      else ((c.toNat : Int), lval, l)
    else if c = '#' ∨ c = '♯' then (SYM_ACCIDENTAL, { lval with acc := Sharp }, l)
    else if c = 'x' ∨ c = '𝄪' then (SYM_ACCIDENTAL, { lval with acc := DblSharp }, l)
    else if c = '♭' then (SYM_ACCIDENTAL, { lval with acc := Flat }, l)
    else if c = '𝄫' then (SYM_ACCIDENTAL, { lval with acc := DblFlat }, l)
    else if c = 'b' then
      if peek 0 = some 'b' then (SYM_ACCIDENTAL, { lval with acc := DblFlat }, skip 1)
      else (SYM_ACCIDENTAL, { lval with acc := Flat }, l)
    else if c = 'n' ∨ c = '♮' then (SYM_ACCIDENTAL, { lval with acc := Natural }, l)
    else if c = 'a' then
      if peek 0 = some 'u' ∧ peek 1 = some 'g' then (SYM_AUG, lval, skip 2)
      else ((c.toNat : Int), lval, l)
    else if c = 'm' then
      if peek 0 = some 'a' ∧ peek 1 = some 'j' then (SYM_MAJ7, lval, skip 2)
      else if peek 0 = some 'i' ∧ peek 1 = some 'n' then (SYM_MIN, lval, skip 2)
      else (SYM_MIN, lval, l)
    else if c = 'd' then
      if peek 0 = some 'i' ∧ peek 1 = some 'm' then (SYM_DIM, lval, skip 2)
      else ((c.toNat : Int), lval, l)
    else if c = 'ø' then (SYM_HDIM, lval, l)
    else if c = 'o' then (SYM_FDIM, lval, l)
    else if c = '△' ∨ c = '∆' then (SYM_MAJ7, lval, l)
    else if c = '1' then
      if peek 0 = some '1' then (SYM_TONE, { lval with b := 11 }, skip 1)
      else if peek 0 = some '3' then (SYM_TONE, { lval with b := 13 }, skip 1)
      else ((c.toNat : Int), lval, l)
    else if c = '9' then (SYM_TONE, { lval with b := 9 }, l)
    else ((c.toNat : Int), lval, l)

/-- `chordExca`. -/
def chordExca : List Int := [-1, 1, 1, -1, -2, 0]

/-- `chordAct`. -/
def chordAct : List Int :=
  [ 6, 49, 50, 48, 5, 28, 4, 18, 30, 34,
    35, 39, 22, 8, 21, 27, 11, 13, 14, 15,
    16, 9, 7, 12, 17, 23, 24, 25, 26, 22,
    37, 19, 38, 20, 44, 10, 47, 45, 1, 36,
    31, 32, 23, 24, 25, 26, 46, 51, 52, 53,
    22, 3, 40, 27, 2, 0, 22, 29, 0, 27,
    33, 31, 32, 23, 24, 25, 26, 31, 32, 23,
    24, 25, 26, 22, 42, 0, 0, 0, 0, 0,
    0, 0, 0, 0, 41, 43, 23, 24, 25, 26 ]

/-- `chordPact`. -/
def chordPact : List Int :=
  [ 2, -1000, -10, 7, -3, 2, -1000, 51, 45, 24,
    51, -1000, -1000, -1000, -1000, -1000, -1000, -1000, -1000, -1000,
    68, 66, -1000, -1000, -1000, -1000, -1000, -1000, -1000, -1000,
    -1000, -1000, -1000, 51, -1000, -1000, 51, 31, -12, -1000,
    -1000, -1000, -17, -1000, -1000, -1000, 51, 51, 51, -1000,
    -1000, -1000, -1000, -1000 ]

/-- `chordPgo`. -/
def chordPgo : List Int := [0, 54, 38, 51, 35, 33, 21, 7, 0, 31]

/-- `chordR1`. -/
def chordR1 : List Int :=
  [ 0, 2, 2, 1, 1, 1, 1, 1, 1, 1,
    1, 1, 3, 3, 6, 6, 6, 6, 6, 6,
    6, 6, 7, 7, 7, 7, 8, 8, 4, 4,
    9, 9, 9, 9, 9, 5, 5, 5 ]

/-- `chordR2`. -/
def chordR2 : List Int :=
  [ 0, 1, 3, 2, 3, 4, 3, 3, 4, 5,
    5, 5, 1, 2, 1, 1, 1, 1, 1, 1,
    1, 1, 2, 3, 2, 3, 0, 2, 1, 2,
    1, 1, 1, 1, 1, 1, 1, 1 ]

/-- `chordChk`. -/
def chordChk : List Int :=
  [ -1000, -2, -1, -3, 4, 14, -8, 15, 6, -6,
    -4, 9, 16, 10, 11, 12, 13, 17, -7, -9,
    -5, 7, 5, 18, 19, 20, 21, 8, 8, -3,
    -8, 16, 17, 15, -8, -8, 15, 6, 8, -8,
    -9, 18, 8, 19, -8, -8, 15, 5, 15, 18,
    19, -8, -8, -8 ]

/-- `chordDef`. -/
def chordDef : List Int :=
  [ 0, -2, 1, 26, 12, 0, 3, 26, 26, 26,
    26, 14, 15, 16, 17, 18, 19, 20, 21, 28,
    0, 0, 30, 31, 32, 33, 34, 37, 13, 2,
    4, 35, 36, 26, 7, 6, 26, 0, 37, 27,
    29, 22, 0, 24, 5, 8, 26, 26, 26, 23,
    25, 9, 10, 11 ]

/-- `chordTok1`. -/
def chordTok1 : List Int :=
  [ 1, 3, 3, 3, 3, 3, 3, 3, 3, 3,
    3, 3, 3, 3, 3, 3, 3, 3, 3, 3,
    3, 3, 3, 3, 3, 3, 3, 3, 3, 3,
    3, 3, 3, 3, 3, 3, 3, 3, 3, 3,
    3, 3, 3, 17, 3, 16, 3, 14, 3, 3,
    18, 3, 19, 20, 21, 15 ]

/-- `chordTok2`. -/
def chordTok2 : List Int := [2, 3, 4, 5, 6, 7, 8, 9, 10, 11, 12, 13]

/-- `chordTok3`. -/
def chordTok3 : List Int := [0]

/-- The raw token translation of `chordlex1` (the `chordTok3` scan always
leaves 0 for this grammar). -/
def lexTranslate0 (c : Int) : Int :=
  if c ≤ 0 then chordTok1.getD 0 0
  else if c < 56 then chordTok1.getD c.toNat 0
  else if 57344 ≤ c ∧ c < 57344 + 12 then chordTok2.getD (c - 57344).toNat 0
  else 0

/-- `chordlex1`'s token translation with the unknown-token fallback. -/
def lexTranslate (c : Int) : Int :=
  if lexTranslate0 c = 0 then chordTok2.getD 1 0 else lexTranslate0 c

/-- `chordlex1`: one lexer call plus token translation. -/
def chordlex1 (l : LexSt) (lval : SymType) : Int × Int × SymType × LexSt :=
  let r := lexStep l lval
  (r.1, lexTranslate r.1, r.2.1, r.2.2)

/-- Scan `chordExca` for the block of the given state; `none` models the
Go scan running off the end of the array (a panic; unreachable, the only
`-2` default state is state 1). -/
def excaAnchor : List Int → Int → Option (List Int)
  | a :: b :: rest, state => if a = -1 ∧ b = state then some rest else excaAnchor rest state
  | _, _ => none

/-- Scan an exception block for a token; `none` models running off the end. -/
def excaToken : List Int → Int → Option Int
  | a :: b :: rest, token => if a < 0 ∨ a = token then some b else excaToken rest token
  | _, _ => none

/-- The LR machine configuration: the stack (top first, pairs of pushed
semantic value and state), the current state and `chordVAL`, the one-token
lookahead (`char < 0` means none), and the error-recovery flag. -/
structure PState where
  stack : List (SymType × Int)
  state : Int
  val : SymType
  char : Int
  token : Int
  lval : SymType
  lex : LexSt
  errflag : Int

/-- Make sure the lookahead is filled (`if chordrcvr.char < 0`). -/
def ensureLook (st : PState) : PState :=
  if st.char < 0 then
    let r := chordlex1 st.lex st.lval
    { st with char := r.1, token := r.2.1, lval := r.2.2.1, lex := r.2.2.2 }
  else st

/-- The generated semantic actions (`switch chordnt` in the parser):
given the production, the `$k` accessor, and the default `$$`, produce the
new `$$` and the possibly updated `res`. -/
def runAction (prod : Int) (dollar : Nat → SymType) (val0 : SymType) (res : Option Chord) :
    SymType × Option Chord :=
  if prod = 1 then
    let v := { val0 with ch := (dollar 1).ch }
    (v, some v.ch)
  else if prod = 2 then
    let v := { val0 with ch := { (dollar 1).ch with Bass := (dollar 3).n } }
    (v, some v.ch)
  else if prod = 3 then
    ({ val0 with ch := ⟨(dollar 1).n, 0, (dollar 2).tones, ⟨0, 0⟩, false⟩ }, res)
  else if prod = 4 then
    ({ val0 with ch := ⟨(dollar 1).n, 0, (dollar 3).tones ++ [⟨7, Natural⟩], ⟨0, 0⟩, false⟩ }, res)
  else if prod = 5 then
    ({ val0 with ch := ⟨(dollar 1).n, 0, (dollar 4).tones ++ [⟨7, Sharp⟩], ⟨0, 0⟩, false⟩ }, res)
  else if prod = 6 then
    let ex := if (dollar 2).triadSus.Val ≠ 0 then (dollar 3).tones ++ [(dollar 2).triadSus]
              else (dollar 3).tones
    ({ val0 with ch := ⟨(dollar 1).n, (dollar 2).triadTyp, ex, ⟨0, 0⟩, false⟩ }, res)
  else if prod = 7 then
    let hasHighTone := (dollar 3).tones.any (fun tn => decide (tn.Val > 7))
    let ex := if hasHighTone then (dollar 3).tones ++ [⟨7, Sharp⟩] else (dollar 3).tones
    ({ val0 with ch := ⟨(dollar 1).n, 0, ex, ⟨0, 0⟩, false⟩ }, res)
  else if prod = 8 then
    let ex := if (dollar 2).triadSus.Val ≠ 0 then
        (dollar 4).tones ++ [⟨7, Natural⟩, (dollar 2).triadSus]
      else (dollar 4).tones ++ [⟨7, Natural⟩]
    ({ val0 with ch := ⟨(dollar 1).n, (dollar 2).triadTyp, ex, ⟨0, 0⟩, false⟩ }, res)
  else if prod = 9 then
    let ex := if (dollar 2).triadSus.Val ≠ 0 then
        (dollar 5).tones ++ [⟨7, Sharp⟩, (dollar 2).triadSus]
      else (dollar 5).tones ++ [⟨7, Sharp⟩]
    ({ val0 with ch := ⟨(dollar 1).n, (dollar 2).triadTyp, ex, ⟨0, 0⟩, false⟩ }, res)
  else if prod = 10 then
    let ex := if (dollar 2).triadSus.Val ≠ 0 then
        (dollar 5).tones ++ [⟨7, Sharp⟩, ⟨(dollar 4).b, 0⟩, (dollar 2).triadSus]
      else (dollar 5).tones ++ [⟨7, Sharp⟩, ⟨(dollar 4).b, 0⟩]
    ({ val0 with ch := ⟨(dollar 1).n, (dollar 2).triadTyp, ex, ⟨0, 0⟩, false⟩ }, res)
  else if prod = 11 then
    let ex := if (dollar 2).triadSus.Val ≠ 0 then
        (dollar 5).tones ++ [⟨7, (dollar 3).acc⟩, (dollar 2).triadSus]
      else (dollar 5).tones ++ [⟨7, (dollar 3).acc⟩]
    ({ val0 with ch := ⟨(dollar 1).n, (dollar 2).triadTyp, ex, ⟨0, 0⟩, false⟩ }, res)
  else if prod = 12 then ({ val0 with n := ⟨(dollar 1).b, 0⟩ }, res)
  else if prod = 13 then ({ val0 with n := ⟨(dollar 1).b, (dollar 2).acc⟩ }, res)
  else if prod = 14 ∨ prod = 15 then ({ val0 with triadTyp := Min3, triadSus := ⟨0, 0⟩ }, res)
  else if prod = 16 then ({ val0 with triadTyp := Dim3, triadSus := ⟨0, 0⟩ }, res)
  else if prod = 17 then ({ val0 with triadTyp := HDim, triadSus := ⟨0, 0⟩ }, res)
  else if prod = 18 then ({ val0 with triadTyp := FDim, triadSus := ⟨0, 0⟩ }, res)
  else if prod = 19 ∨ prod = 20 then ({ val0 with triadTyp := Aug3, triadSus := ⟨0, 0⟩ }, res)
  else if prod = 21 then
    ({ val0 with triadTyp := (dollar 1).triadTyp, triadSus := (dollar 1).triadSus }, res)
  else if prod = 22 then ({ val0 with triadTyp := Sus, triadSus := ⟨2, 0⟩ }, res)
  else if prod = 23 then ({ val0 with triadTyp := Sus, triadSus := ⟨2, (dollar 2).acc⟩ }, res)
  else if prod = 24 then ({ val0 with triadTyp := Sus, triadSus := ⟨4, 0⟩ }, res)
  else if prod = 25 then ({ val0 with triadTyp := Sus, triadSus := ⟨4, (dollar 2).acc⟩ }, res)
  else if prod = 26 then ({ val0 with tones := [] }, res)
  else if prod = 27 then ({ val0 with tones := (dollar 1).t :: (dollar 2).tones }, res)
  else if prod = 28 then ({ val0 with t := ⟨(dollar 1).b, 0⟩ }, res)
  else if prod = 29 then ({ val0 with t := ⟨(dollar 2).b, (dollar 1).acc⟩ }, res)
  else if prod = 30 then ({ val0 with b := (dollar 1).b }, res)
  else if prod = 31 then ({ val0 with b := 2 }, res)
  else if prod = 32 then ({ val0 with b := 4 }, res)
  else if prod = 33 then ({ val0 with b := 5 }, res)
  else if prod = 34 then ({ val0 with b := 6 }, res)
  else if prod = 35 then ({ val0 with acc := Flat }, res)
  else if prod = 36 then ({ val0 with acc := Sharp }, res)
  else if prod = 37 then ({ val0 with acc := (dollar 1).acc }, res)
  else (val0, res)

/-- Result of a parser run.  `.stuck` stands for fuel exhaustion or a Go
panic path; neither is reachable from `ParseChord`'s fuel and tables. -/
inductive PResult where
  | done (res : Option Chord) (err : Option String)
  | stuck

/-- The labels of the generated parser's goto targets:
`chordnewstate`, `chorddefault`, the error block, the error-recovery
pop loop, and a pending reduction. -/
inductive MLabel where
  | newstate
  | defaultA
  | errorH
  | recover
  | reduce (prod : Int)

/-- One transition of the generated parser, from a label and a
configuration to either a final result or the next label/configuration.
At `newstate` the stack already holds the current state's frame. -/
def parseStep : MLabel → PState → PResult ⊕ (MLabel × PState)
  | .newstate, st =>
    let n := chordPact.getD st.state.toNat 0
    if n ≤ -1000 then .inr (.defaultA, st)
    else
      let st := ensureLook st
      let n2 := n + st.token
      if 0 ≤ n2 ∧ n2 < 90 then
        let s' := chordAct.getD n2.toNat 0
        if chordChk.getD s'.toNat 0 = st.token then
          .inr (.newstate, { st with
            char := -1, token := -1, val := st.lval,
            stack := (st.lval, s') :: st.stack, state := s',
            errflag := if st.errflag > 0 then st.errflag - 1 else st.errflag })
        else .inr (.defaultA, st)
      else .inr (.defaultA, st)
  | .defaultA, st =>
    let n := chordDef.getD st.state.toNat 0
    if n = -2 then
      let st := ensureLook st
      match excaAnchor chordExca st.state with
      | none => .inl .stuck
      | some block =>
        match excaToken block st.token with
        | none => .inl .stuck
        | some m =>
          if m < 0 then .inl (.done st.lex.res st.lex.err)
          else if m = 0 then .inr (.errorH, st)
          else .inr (.reduce m, st)
    else if n = 0 then .inr (.errorH, st)
    else .inr (.reduce n, st)
  | .errorH, st =>
    if st.errflag = 0 ∨ st.errflag = 1 ∨ st.errflag = 2 then
      let st :=
        if st.errflag = 0 then { st with lex := { st.lex with err := some "syntax error" } }
        else st
      .inr (.recover, { st with errflag := 3 })
    else
      if st.token = 1 then .inl (.done st.lex.res st.lex.err)
      else .inr (.newstate, { st with char := -1, token := -1 })
  | .recover, st =>
    match st.stack with
    | [] => .inl (.done st.lex.res st.lex.err)
    | (_, yys) :: rest =>
      let n := chordPact.getD yys.toNat 0 + 2
      let s' := chordAct.getD n.toNat 0
      if 0 ≤ n ∧ n < 90 ∧ chordChk.getD s'.toNat 0 = 2 then
        .inr (.newstate, { st with state := s', stack := (st.val, s') :: st.stack })
      else .inr (.recover, { st with stack := rest })
  | .reduce prod, st =>
    let r2 := (chordR2.getD prod.toNat 0).toNat
    if st.stack.length < r2 + 1 then .inl .stuck
    else
      let popped := st.stack.take r2
      let stack' := st.stack.drop r2
      let dollar := fun (k : Nat) => ((popped.getD (r2 - k) default).1)
      let val0 := if r2 > 0 then dollar 1 else default
      let nt := chordR1.getD prod.toNat 0
      let g := chordPgo.getD nt.toNat 0
      match stack' with
      | [] => .inl .stuck
      | (_, topy) :: _ =>
        let j := g + topy + 1
        let state' :=
          if j ≥ 90 then chordAct.getD g.toNat 0
          else
            let s := chordAct.getD j.toNat 0
            if chordChk.getD s.toNat 0 ≠ -nt then chordAct.getD g.toNat 0 else s
        let ar := runAction prod dollar val0 st.lex.res
        .inr (.newstate, { st with
          stack := (ar.1, state') :: stack', state := state', val := ar.1,
          lex := { st.lex with res := ar.2 } })

/-- Iterate `parseStep` under fuel. -/
def parseRun : Nat → MLabel → PState → PResult
  | 0, _, _ => .stuck
  | fuel + 1, lab, st =>
    match parseStep lab st with
    | .inl r => r
    | .inr next => parseRun fuel next.1 next.2

/-- The initial machine configuration for an input string. -/
def initPState (s : String) : PState :=
  { stack := [(default, 0)], state := 0, val := default, char := -1, token := -1,
    lval := default, lex := ⟨s.toList, 0, none, none⟩, errflag := 0 }

/-- `ParseChord` (chords.go): run the machine and return `(res, err)`.
The fuel is generous (each shift consumes one of the at most `|s|+1`
tokens and only boundedly many steps separate shifts); the unreachable
`.stuck` outcome is reported as an error. -/
def ParseChord (s : String) : Option Chord × Option String :=
  match parseRun (40 * (s.length + 10)) .newstate (initPState s) with
  | .done r e => (r, e)
  | .stuck => (none, some "model: fuel exhausted or panic")

/-! ## Claim-side definitions -/

/-- The letter of the spec's `Transpose` contract: the note's letter
advanced by `degree - 1` letters, cyclically through A..G. -/
def advLetter (n : Note) (i : Interval) : NoteName :=
  posMod (n.N - 65 + (i.Val - 1)) 7 + 65

/-- The 14 valid notes whose accidental is natural or sharp — exactly the
roots for which the code's `majorScales` map has an entry. -/
def validNotes14 : List Note :=
  ([65, 66, 67, 68, 69, 70, 71] : List Int).flatMap (fun nm => [⟨nm, 0⟩, ⟨nm, 1⟩])

/-- All 35 valid intervals. -/
def validIntervals : List Interval :=
  ([1, 2, 3, 4, 5, 6, 7] : List Int).flatMap
    (fun v => ([-2, -1, 0, 1, 2] : List Int).map (fun o => ⟨v, o⟩))

/-- Claim C2's contract at one input: `Transpose` returns the note whose
letter is the advanced letter and whose accidental (in `[-2, 2]`) solves
`(targetLetter.Cardinal + a) ≡ n.Cardinal + i.NumHalfSteps (mod 12)`. -/
def TransposeClaimAt (n : Note) (i : Interval) : Prop :=
  match i.NumHalfSteps?, Note.Transpose? n i with
  | some s, some m =>
    m.N = advLetter n i ∧ m.Acc.IsValid ∧
      posMod ((advLetter n i).Cardinal + m.Acc.Offset) 12 = posMod (n.Cardinal + s) 12
  | _, _ => False

instance (n : Note) (i : Interval) : Decidable (TransposeClaimAt n i) := by
  unfold TransposeClaimAt
  exact match i.NumHalfSteps?, Note.Transpose? n i with
  | some _, some _ => by infer_instance
  | some _, none => by infer_instance
  | none, some _ => by infer_instance
  | none, none => by infer_instance

/-- The boolean body of the amended claim C2 at one input: transposition
succeeds, lands on the right pitch class, and returns the claimed exact
note whenever some accidental in `[-2, 2]` solves the congruence. -/
def transposeGood (n : Note) (i : Interval) : Bool :=
  match i.NumHalfSteps? with
  | none => false
  | some s =>
    match Note.Transpose? n i with
    | none => false
    | some m =>
      decide m.IsValid &&
      decide (m.Cardinal = posMod (n.Cardinal + s) 12) &&
      (([-2, -1, 0, 1, 2] : List Int).all (fun a =>
        !(decide (posMod ((advLetter n i).Cardinal + a) 12 = posMod (n.Cardinal + s) 12)) ||
          decide (m = ⟨advLetter n i, a⟩)))

/-- Amended claim C4 at one chord text: the text parses, the rendering of
its canonicalized parse re-parses, and the re-parse — after
canonicalization — spells exactly the same notes (and spelling succeeds). -/
def roundTripCanonGood (s : String) : Bool :=
  match (ParseChord s).1 with
  | none => false
  | some c =>
    decide ((ParseChord s).2 = none) &&
    (match (ParseChord c.Canonicalize.str).1 with
     | none => false
     | some c2 =>
       decide ((ParseChord c.Canonicalize.str).2 = none) &&
       decide (c2.Canonicalize.Spell? = c.Canonicalize.Spell?) &&
       (c.Canonicalize.Spell?).isSome)

/-- The example chord texts of the spec (§6, §8) that exercise the
pipeline without flat-rooted spelling, together with the text `C79`
behind the C4 counterexample. -/
def exampleTexts : List String :=
  ["C", "Cmaj", "Amin7", "A-7/C", "G♯△9♯11", "C#o", "Gsus4/C", "C79"]

/-! ## Claim-side definitions for the canonicalizer -/

/-- A stated 7th as the canonicalizer's first loop counts it: degree 7,
but not double-sharp (those are dropped as enharmonic roots). -/
def is7T (e : ChordTone) : Bool := decide (e.Val = 7) && !decide (e.Acc = DblSharp)

/-- A tone above the 7th (any such tone implies a 7th). -/
def isHighT (e : ChordTone) : Bool := decide (e.Val > 7)

/-- The stated-7th tones of a tone list. -/
def stated7 (l : List ChordTone) : List ChordTone := l.filter is7T

/-- Whether a tone list implies a 7th through a higher tone. -/
def impliedHigh (l : List ChordTone) : Bool := l.any isHighT

/-! ## Structural invariants of the per-degree tone map -/

/-- Every tone stored in the map satisfies `P`. -/
def tonesAll (P : ChordTone → Prop) (t : TMap) : Prop := ∀ p ∈ t, ∀ x ∈ p.2, P x

/-- Every tone is filed under its own degree. -/
def keyed (t : TMap) : Prop := ∀ p ∈ t, ∀ x ∈ p.2, x.Val = p.1

/-- The map's keys are distinct (Go maps cannot hold duplicate keys). -/
def keysNodup (t : TMap) : Prop := (t.map Prod.fst).Nodup

/-- The C5 content invariant: tones sit in the valid degree range, none
on degree 12, and none is the flat 5. -/
def c5Q (x : ChordTone) : Prop :=
  (1 ≤ x.Val ∧ x.Val ≤ 14) ∧ x.Val ≠ 12 ∧ ¬(x = ⟨5, Flat⟩)

/-! ## Invariants of the generated parser's machine -/

/-- One lexer call as a function of input and cursor alone: the raw
token code and the new cursor. -/
def lexCode (input : List Char) (pos : Nat) : Int × Nat :=
  let r := lexStep ⟨input, pos, none, none⟩ default
  (r.1, r.2.2.pos)

/-- The translated tokens from a cursor position until the end token
(raw code 0, translated to 1), exclusive.  The fuel only bounds the
loop: `input.length + 1 - pos` always suffices because every non-final
token advances the cursor. -/
def lexSeqGo (input : List Char) : Nat → Nat → List Int
  | 0, _ => []
  | fuel + 1, pos =>
    let r := lexCode input pos
    if r.1 = 0 then [] else lexTranslate r.1 :: lexSeqGo input fuel r.2

/-- The future token stream of a lexer configuration. -/
def lexFuture (l : LexSt) : List Int :=
  lexSeqGo l.input (l.input.length + 1 - l.pos) l.pos

/-- The full translated token string of an input text. -/
def strTokens (s : String) : List Int := lexSeqGo s.toList (s.toList.length + 1) 0

/-! ## The chord grammar (chordparse.y)

The productions of the grammar, transcribed over the translated token
codes the parser works with: 4 `SYM_NOTE`, 5 `SYM_TONE`, 6 `SYM_MAJ7`,
7 `SYM_SUS`, 8 `SYM_ACCIDENTAL`, 9 `SYM_MIN`, 10 `SYM_DIM`,
11 `SYM_HDIM`, 12 `SYM_FDIM`, 13 `SYM_AUG`, 14 `'/'`, 15 `'7'`,
16 `'-'`, 17 `'+'`, 18 `'2'`, 19 `'4'`, 20 `'5'`, 21 `'6'`. -/

/-- `pitch : SYM_NOTE | SYM_NOTE SYM_ACCIDENTAL`. -/
inductive GPitch : List Int → Prop where
  | note : GPitch [4]
  | noteAcc : GPitch [4, 8]

/-- `toneVal : SYM_TONE | '2' | '4' | '5' | '6'`. -/
inductive GToneVal : List Int → Prop where
  | tone : GToneVal [5]
  | two : GToneVal [18]
  | four : GToneVal [19]
  | five : GToneVal [20]
  | six : GToneVal [21]

/-- `toneMod : '-' | '+' | SYM_ACCIDENTAL`. -/
inductive GToneMod : List Int → Prop where
  | dash : GToneMod [16]
  | plus : GToneMod [17]
  | acc : GToneMod [8]

/-- `tone : toneVal | toneMod toneVal`. -/
inductive GTone : List Int → Prop where
  | val : GToneVal v → GTone v
  | modVal : GToneMod m → GToneVal v → GTone (m ++ v)

/-- `extras : (empty) | tone extras`. -/
inductive GExtras : List Int → Prop where
  | nil : GExtras []
  | cons : GTone t → GExtras e → GExtras (t ++ e)

/-- `sus : SYM_SUS '2' | SYM_SUS SYM_ACCIDENTAL '2' | SYM_SUS '4'
| SYM_SUS SYM_ACCIDENTAL '4'`. -/
inductive GSus : List Int → Prop where
  | two : GSus [7, 18]
  | accTwo : GSus [7, 8, 18]
  | four : GSus [7, 19]
  | accFour : GSus [7, 8, 19]

/-- `triad : SYM_MIN | '-' | SYM_DIM | SYM_HDIM | SYM_FDIM | SYM_AUG
| '+' | sus`. -/
inductive GTriad : List Int → Prop where
  | min : GTriad [9]
  | dash : GTriad [16]
  | dim : GTriad [10]
  | hdim : GTriad [11]
  | fdim : GTriad [12]
  | aug : GTriad [13]
  | plus : GTriad [17]
  | sus : GSus s → GTriad s

/-- The nine `chord` productions. -/
inductive GChord : List Int → Prop where
  | pe : GPitch p → GExtras e → GChord (p ++ e)
  | p7e : GPitch p → GExtras e → GChord (p ++ 15 :: e)
  | pM7e : GPitch p → GExtras e → GChord (p ++ 6 :: 15 :: e)
  | pte : GPitch p → GTriad t → GExtras e → GChord (p ++ (t ++ e))
  | pMe : GPitch p → GExtras e → GChord (p ++ 6 :: e)
  | pt7e : GPitch p → GTriad t → GExtras e → GChord (p ++ (t ++ 15 :: e))
  | ptM7e : GPitch p → GTriad t → GExtras e → GChord (p ++ (t ++ 6 :: 15 :: e))
  | ptMTe : GPitch p → GTriad t → GExtras e → GChord (p ++ (t ++ 6 :: 5 :: e))
  | ptA7e : GPitch p → GTriad t → GExtras e → GChord (p ++ (t ++ 8 :: 15 :: e))

/-- `fullChord : chord | chord '/' pitch` — the start symbol. -/
inductive GFull : List Int → Prop where
  | chord : GChord c → GFull c
  | bass : GChord c → GPitch p → GFull (c ++ 14 :: p)

/-! ## The machine with the semantic values erased

`parseStep`'s control flow never examines a semantic value, so the
acceptance behaviour of the machine is a function of the token string.
`parseStepA` is `parseStep` with the `SymType` data, the result cell and
the error message erased; `AbsR` below relates the two step functions
branch for branch. -/

/-- An erased configuration: the current state, the stack of states
(top first), the drawn lookahead (translated) if any, the tokens not yet
drawn (end token excluded), whether a syntax error was recorded, and
`Errflag`. -/
structure ASt where
  ast : Int
  stk : List Int
  look : Option Int
  toks : List Int
  aerr : Bool
  aflag : Int

/-- An erased run outcome: finished (with or without a recorded syntax
error), or the fuel/panic case. -/
inductive ARes where
  | adone (aerr : Bool)
  | astuck

/-- Draw the lookahead if absent; an exhausted token list yields the end
token 1 (and stays exhausted, as the concrete lexer then does). -/
def aEnsure (a : ASt) : ASt :=
  match a.look with
  | some _ => a
  | none =>
    match a.toks with
    | [] => { a with look := some 1 }
    | t :: ts => { a with look := some t, toks := ts }

/-- `parseStep` with the semantic values erased, branch for branch. -/
def parseStepA : MLabel → ASt → ARes ⊕ (MLabel × ASt)
  | .newstate, a =>
    let n := chordPact.getD a.ast.toNat 0
    if n ≤ -1000 then .inr (.defaultA, a)
    else
      let a := aEnsure a
      let tok := a.look.getD 0
      let n2 := n + tok
      if 0 ≤ n2 ∧ n2 < 90 then
        let s' := chordAct.getD n2.toNat 0
        if chordChk.getD s'.toNat 0 = tok then
          .inr (.newstate, { a with
            look := none, stk := s' :: a.stk, ast := s',
            aflag := if a.aflag > 0 then a.aflag - 1 else a.aflag })
        else .inr (.defaultA, a)
      else .inr (.defaultA, a)
  | .defaultA, a =>
    let n := chordDef.getD a.ast.toNat 0
    if n = -2 then
      let a := aEnsure a
      match excaAnchor chordExca a.ast with
      | none => .inl .astuck
      | some block =>
        match excaToken block (a.look.getD 0) with
        | none => .inl .astuck
        | some m =>
          if m < 0 then .inl (.adone a.aerr)
          else if m = 0 then .inr (.errorH, a)
          else .inr (.reduce m, a)
    else if n = 0 then .inr (.errorH, a)
    else .inr (.reduce n, a)
  | .errorH, a =>
    if a.aflag = 0 ∨ a.aflag = 1 ∨ a.aflag = 2 then
      let a := if a.aflag = 0 then { a with aerr := true } else a
      .inr (.recover, { a with aflag := 3 })
    else
      if a.look.getD 0 = 1 then .inl (.adone a.aerr)
      else .inr (.newstate, { a with look := none })
  | .recover, a =>
    match a.stk with
    | [] => .inl (.adone a.aerr)
    | yys :: rest =>
      let n := chordPact.getD yys.toNat 0 + 2
      let s' := chordAct.getD n.toNat 0
      if 0 ≤ n ∧ n < 90 ∧ chordChk.getD s'.toNat 0 = 2 then
        .inr (.newstate, { a with ast := s', stk := s' :: a.stk })
      else .inr (.recover, { a with stk := rest })
  | .reduce prod, a =>
    let r2 := (chordR2.getD prod.toNat 0).toNat
    if a.stk.length < r2 + 1 then .inl .astuck
    else
      let stk' := a.stk.drop r2
      let nt := chordR1.getD prod.toNat 0
      let g := chordPgo.getD nt.toNat 0
      match stk' with
      | [] => .inl .astuck
      | topy :: _ =>
        let j := g + topy + 1
        let state' :=
          if j ≥ 90 then chordAct.getD g.toNat 0
          else
            let s := chordAct.getD j.toNat 0
            if chordChk.getD s.toNat 0 ≠ -nt then chordAct.getD g.toNat 0 else s
        .inr (.newstate, { a with stk := state' :: stk', ast := state' })

/-- Iterate `parseStepA` under fuel. -/
def aRun : Nat → MLabel → ASt → ARes
  | 0, _, _ => .astuck
  | fuel + 1, lab, a =>
    match parseStepA lab a with
    | .inl r => r
    | .inr next => aRun fuel next.1 next.2

/-- The lookahead/stream correspondence between a concrete and an erased
configuration: either no lookahead is drawn and the erased token list is
the lexer's future, or a lookahead is drawn and it is either the end
token (then the erased list is exhausted) or a proper token followed by
the lexer's future. -/
def LookRel (st : PState) (a : ASt) : Prop :=
  (st.char < 0 ∧ st.token = -1 ∧ a.look = none ∧ a.toks = lexFuture st.lex) ∨
  (0 ≤ st.char ∧ a.look = some st.token ∧
    ((st.token = 1 ∧ a.toks = []) ∨
     (2 ≤ st.token ∧ a.toks = lexFuture st.lex)))

/-- The erasure relation: the erased configuration records exactly the
state, the state stack, the error data and the token stream of the
concrete one. -/
def AbsR (st : PState) (a : ASt) : Prop :=
  a.ast = st.state ∧ a.stk = st.stack.map Prod.snd ∧
  a.aerr = st.lex.err.isSome ∧ a.aflag = st.errflag ∧ LookRel st a

/-- Outcome correspondence: a finished run reports the same
error-presence; the fuel/panic outcomes correspond. -/
def ARel : PResult → ARes → Prop
  | .done _ e, .adone b => b = e.isSome
  | .stuck, .astuck => True
  | _, _ => False

/-! ## The stable configurations of the machine

Between two tokens the machine sits at `.newstate` with one of finitely
many stack shapes, up to the number of completed tone frames — each tone
reduction pushes exactly one state 10 (`chordPgo`/`chordAct` send the
`tone` nonterminal to 10 from every state).  `PClass` enumerates those
shapes; `PClass.lang` is the token language the machine must still
accept from each of them, phrased with the grammar's nonterminals. -/

/-- The extras contexts: the stack below the tone frames, bottom last. -/
inductive EBase where
  | e3 | e7 | e8 | e9 | e33 | e36 | e46 | e47 | e48
  deriving DecidableEq

/-- The stack of an extras base. -/
def EBase.spine : EBase → List Int
  | .e3 => [3, 0]
  | .e7 => [7, 3, 0]
  | .e8 => [8, 3, 0]
  | .e9 => [9, 3, 0]
  | .e33 => [33, 8, 3, 0]
  | .e36 => [36, 9, 3, 0]
  | .e46 => [46, 37, 9, 3, 0]
  | .e47 => [47, 37, 9, 3, 0]
  | .e48 => [48, 38, 9, 3, 0]

/-- The stable configuration classes: start, after the root `SYM_NOTE`,
after `pitch`, after `pitch SYM_MAJ7`, after `pitch triad`, after
`pitch triad SYM_MAJ7`, after `pitch triad SYM_ACCIDENTAL`, after
`SYM_SUS` (and after its accidental), inside the extras with `n`
completed tone frames over base `b`, after a tone modifier, after the
slash, after the bass `SYM_NOTE`, and the accept state. -/
inductive PClass where
  | c0 | c1 | cP | cM | cT | cTM | cTA | cS1 | cS2
  | cE (b : EBase) (n : Nat)
  | cV (b : EBase) (n : Nat)
  | cB1 | cB2 | cAcc

/-- The full machine stack of a class (top first, state 0 at bottom). -/
def PClass.spine : PClass → List Int
  | .c0 => [0]
  | .c1 => [4, 0]
  | .cP => [3, 0]
  | .cM => [8, 3, 0]
  | .cT => [9, 3, 0]
  | .cTM => [37, 9, 3, 0]
  | .cTA => [38, 9, 3, 0]
  | .cS1 => [21, 3, 0]
  | .cS2 => [42, 21, 3, 0]
  | .cE b n => List.replicate n 10 ++ b.spine
  | .cV b n => 20 :: (List.replicate n 10 ++ b.spine)
  | .cB1 => [5, 2, 0]
  | .cB2 => [4, 5, 2, 0]
  | .cAcc => [1, 0]

/-- Extras over the bases 3, 8 and 9 (which are themselves the classes
`cP`, `cM`, `cT` when no tone has completed) carry at least one frame. -/
def PClass.ok : PClass → Prop
  | .cE b n => b = .e3 ∨ b = .e8 ∨ b = .e9 → 1 ≤ n
  | _ => True

/-- Classes that, on their default action, reduce without consuming the
lookahead and so delegate to another class at the same token. -/
def PClass.rank : PClass → Nat
  | .c1 => 1
  | .cTA => 1
  | .cB2 => 1
  | _ => 0

/-- The erased configuration of a class over a remaining token list. -/
def mkA (C : PClass) (ts : List Int) : ASt :=
  ⟨C.spine.headI, C.spine, none, ts, false, 0⟩

/-- The fuel budget of the master run/language equivalence. -/
def aFuel (C : PClass) (ts : List Int) : Nat :=
  10 * ts.length + 3 * C.spine.length + 6 * C.rank + 20

/-- Well-formed token streams: translated codes other than the end and
error tokens.  `strTokens` only produces such tokens. -/
def TokOK (ts : List Int) : Prop := ∀ t ∈ ts, 2 ≤ t ∧ t ≤ 21

/-- A tone-value token. -/
def isValTok (v : Int) : Prop := v = 5 ∨ v = 18 ∨ v = 19 ∨ v = 20 ∨ v = 21

/-- A tone-modifier token. -/
def isModTok (m : Int) : Prop := m = 16 ∨ m = 17 ∨ m = 8

/-- What may follow the chord part: nothing, or a slash and a pitch. -/
def SemB (ts : List Int) : Prop := ts = [] ∨ ∃ p, GPitch p ∧ ts = 14 :: p

/-- Remaining language inside the extras: more tones, then the bass
part. -/
def SemE (ts : List Int) : Prop := ∃ e v, GExtras e ∧ SemB v ∧ ts = e ++ v

/-- Remaining language after a tone modifier: a tone value, then extras,
then the bass part. -/
def SemV (ts : List Int) : Prop :=
  ∃ w e v, GToneVal w ∧ GExtras e ∧ SemB v ∧ ts = w ++ (e ++ v)

/-- Remaining language after `pitch triad`: the five chord-production
tails that can follow a triad. -/
def SemT (ts : List Int) : Prop :=
  ∃ e v, GExtras e ∧ SemB v ∧
    (ts = e ++ v ∨ ts = 15 :: (e ++ v) ∨ ts = 6 :: 15 :: (e ++ v) ∨
     ts = 6 :: 5 :: (e ++ v) ∨ ts = 8 :: 15 :: (e ++ v))

/-- Remaining language after `pitch`: the nine chord-production tails. -/
def SemP (ts : List Int) : Prop :=
  (∃ e v, GExtras e ∧ SemB v ∧
    (ts = e ++ v ∨ ts = 15 :: (e ++ v) ∨ ts = 6 :: 15 :: (e ++ v) ∨
     ts = 6 :: (e ++ v))) ∨
  (∃ t r, GTriad t ∧ SemT r ∧ ts = t ++ r)

/-- The remaining token language of each stable class. -/
def PClass.lang : PClass → List Int → Prop
  | .c0 => fun ts => GFull ts
  | .c1 => fun ts => SemP ts ∨ ∃ r, ts = 8 :: r ∧ SemP r
  | .cP => SemP
  | .cM => fun ts => (∃ r, ts = 15 :: r ∧ SemE r) ∨ SemE ts
  | .cT => SemT
  | .cTM => fun ts =>
      (∃ r, ts = 15 :: r ∧ SemE r) ∨ (∃ r, ts = 5 :: r ∧ SemE r)
  | .cTA => fun ts => (∃ r, ts = 15 :: r ∧ SemE r) ∨ SemV ts
  | .cS1 => fun ts => ∃ r, SemT r ∧
      (ts = 18 :: r ∨ ts = 19 :: r ∨ ts = 8 :: 18 :: r ∨ ts = 8 :: 19 :: r)
  | .cS2 => fun ts => ∃ r, SemT r ∧ (ts = 18 :: r ∨ ts = 19 :: r)
  | .cE _ _ => SemE
  | .cV _ _ => SemV
  | .cB1 => fun ts => GPitch ts
  | .cB2 => fun ts => ts = [] ∨ ts = [8]
  | .cAcc => fun ts => ts = []

end Chords

namespace Chords

/-! ## Claims -/

/-- C1: `parseChord "Bb7#9"` yields root B♭, major triad, extra tones
`{9, sharp}` and `{7, natural}`, as the claim states; but spelling that
chord panics (models as `none`): the `majorScales` init loop
`for acc := Natural; acc < DblSharp` only builds natural- and
sharp-rooted scales under the current signed `Accidental` encoding, so
`Transpose` indexes a missing map entry for the B♭ root.  Over the
spec-intended full table the spelling is exactly the claimed
`[B♭, D, F, A♭, C♯]`. -/
theorem c1_parse_and_spell_Bb7s9 :
    ParseChord "Bb7#9" =
      (some ⟨⟨66, -1⟩, Maj3, [⟨9, Sharp⟩, ⟨7, Natural⟩], ⟨0, 0⟩, false⟩, none) ∧
    Chord.Spell? ⟨⟨66, -1⟩, Maj3, [⟨9, Sharp⟩, ⟨7, Natural⟩], ⟨0, 0⟩, false⟩ = none ∧
    Chord.SpellSpec? ⟨⟨66, -1⟩, Maj3, [⟨9, Sharp⟩, ⟨7, Natural⟩], ⟨0, 0⟩, false⟩ =
      some [⟨66, -1⟩, ⟨68, 0⟩, ⟨70, 0⟩, ⟨65, -1⟩, ⟨67, 1⟩] := by decide

/-- C3: `IntervalTo` diverges from the claim.  Its initial degree is
`posMod(letterDiff, 8)` with no `+1`, so for A to C (letter difference 2)
the code returns the augmented second `{2, 1}` where the claimed starting
degree `((2 mod 7) + 1) = 3` leads to the minor third `{3, -1}`; and for
equal letters (A to A♯) the code computes `Val = 0` and panics indexing
`stepsByInterval[-1]` (`none`), where the claimed formula yields `{1, 1}`. -/
theorem c3_intervalTo_divergence :
    Note.IntervalTo? ⟨65, 0⟩ ⟨67, 0⟩ = some ⟨2, 1⟩ ∧
    Note.IntervalToSpec? ⟨65, 0⟩ ⟨67, 0⟩ = some ⟨3, -1⟩ ∧
    Note.IntervalTo? ⟨65, 0⟩ ⟨65, 1⟩ = none ∧
    Note.IntervalToSpec? ⟨65, 0⟩ ⟨65, 1⟩ = some ⟨1, 1⟩ := by decide

/-- C2 counterexample: at the valid note B♭ and the valid unison interval,
`Transpose` panics (missing `majorScales` entry, modelled `none`), and at
the valid note B with the double-sharp seventh `{7, 2}` it returns B♯ —
whose letter is not the advanced letter A — because no accidental in
`[-2, 2]` solves the congruence there.  Both violate the claim. -/
theorem c2_counterexample :
    (⟨66, -1⟩ : Note).IsValid ∧ (⟨1, 0⟩ : Interval).IsValid ∧
    Note.Transpose? ⟨66, -1⟩ ⟨1, 0⟩ = none ∧
    ¬ TransposeClaimAt ⟨66, -1⟩ ⟨1, 0⟩ ∧
    (⟨66, 0⟩ : Note).IsValid ∧ (⟨7, 2⟩ : Interval).IsValid ∧
    Note.Transpose? ⟨66, 0⟩ ⟨7, 2⟩ = some ⟨66, 1⟩ ∧
    ¬ TransposeClaimAt ⟨66, 0⟩ ⟨7, 2⟩ := by decide

/-- Case split of an integer over `[65, 71]`. -/
theorem intCases65 (x : Int) (h1 : 65 ≤ x) (h2 : x ≤ 71) :
    x = 65 ∨ x = 66 ∨ x = 67 ∨ x = 68 ∨ x = 69 ∨ x = 70 ∨ x = 71 := by omega

/-- Case split of an integer over `[1, 7]`. -/
theorem intCases7 (x : Int) (h1 : 1 ≤ x) (h2 : x ≤ 7) :
    x = 1 ∨ x = 2 ∨ x = 3 ∨ x = 4 ∨ x = 5 ∨ x = 6 ∨ x = 7 := by omega

/-- Case split of an integer over `[-2, 2]`. -/
theorem intCasesAcc (x : Int) (h1 : -2 ≤ x) (h2 : x ≤ 2) :
    x = -2 ∨ x = -1 ∨ x = 0 ∨ x = 1 ∨ x = 2 := by omega

/-- Every valid natural- or sharp-accidental note is in the 14-note domain. -/
theorem mem_validNotes14 (n : Note) (hn : n.IsValid) (hacc : n.Acc = 0 ∨ n.Acc = 1) :
    n ∈ validNotes14 := by
  obtain ⟨N, A⟩ := n
  have hN := intCases65 N hn.1.1 hn.1.2
  have hA : A = (0 : Int) ∨ A = (1 : Int) := hacc
  rcases hA with hA | hA <;> subst hA <;>
    rcases hN with h | h | h | h | h | h | h <;> subst h <;> decide

/-- Every valid interval is in the 35-interval domain. -/
theorem mem_validIntervals (i : Interval) (hi : i.IsValid) : i ∈ validIntervals := by
  obtain ⟨V, O⟩ := i
  have hV := intCases7 V hi.1 hi.2.1
  have hO := intCasesAcc O hi.2.2.1 hi.2.2.2
  rcases hO with h | h | h | h | h <;> subst h <;>
    rcases hV with h | h | h | h | h | h | h <;> subst h <;> decide

/-- The 14 × 35 domain satisfies the amended C2 contract. -/
theorem transposeGood_all :
    (validNotes14.all fun n => validIntervals.all fun i => transposeGood n i) = true := by decide

/-- C2 (amended): for every valid note whose accidental is natural or
sharp (the only roots present in the code's `majorScales` table) and
every valid interval, `Transpose` succeeds, returns a valid note of the
correct pitch class, and returns exactly the claimed note — advanced
letter plus congruence-solving accidental — whenever an accidental in
`[-2, 2]` solves the congruence. -/
theorem c2_amended (n : Note) (i : Interval) (hn : n.IsValid)
    (hacc : n.Acc = 0 ∨ n.Acc = 1) (hi : i.IsValid) :
    ∀ s, i.NumHalfSteps? = some s →
      ∃ m, Note.Transpose? n i = some m ∧ m.IsValid ∧
        m.Cardinal = posMod (n.Cardinal + s) 12 ∧
        ∀ a : Int, -2 ≤ a → a ≤ 2 →
          posMod ((advLetter n i).Cardinal + a) 12 = posMod (n.Cardinal + s) 12 →
          m = ⟨advLetter n i, a⟩ := by
  have hg : transposeGood n i = true := by
    have h1 := List.all_eq_true.mp transposeGood_all n (mem_validNotes14 n hn hacc)
    exact List.all_eq_true.mp h1 i (mem_validIntervals i hi)
  intro s hs
  unfold transposeGood at hg
  rw [hs] at hg
  cases hm : Note.Transpose? n i with
  | none => rw [hm] at hg; exact absurd hg (by simp)
  | some m =>
    rw [hm] at hg
    simp only [Bool.and_eq_true, decide_eq_true_eq, List.all_eq_true] at hg
    obtain ⟨⟨hv, hc⟩, hex⟩ := hg
    refine ⟨m, rfl, hv, hc, ?_⟩
    intro a ha1 ha2 hcong
    have hmem : a ∈ ([-2, -1, 0, 1, 2] : List Int) := by
      have : a = -2 ∨ a = -1 ∨ a = 0 ∨ a = 1 ∨ a = 2 := by omega
      rcases this with h | h | h | h | h <;> subst h <;> decide
    have hone := hex a hmem
    simp only [Bool.or_eq_true, Bool.not_eq_true', decide_eq_false_iff_not,
      decide_eq_true_eq] at hone
    rcases hone with h | h
    · exact absurd hcong h
    · exact h

/-- Witness for the amended C2: a major third up from C is E. -/
theorem c2_amended_witness :
    ∃ m, Note.Transpose? ⟨67, 0⟩ ⟨3, 0⟩ = some m ∧ m.IsValid ∧
      m.Cardinal = posMod ((⟨67, 0⟩ : Note).Cardinal + 4) 12 ∧
      ∀ a : Int, -2 ≤ a → a ≤ 2 →
        posMod ((advLetter ⟨67, 0⟩ ⟨3, 0⟩).Cardinal + a) 12 =
          posMod ((⟨67, 0⟩ : Note).Cardinal + 4) 12 →
        m = ⟨advLetter ⟨67, 0⟩ ⟨3, 0⟩, a⟩ :=
  c2_amended ⟨67, 0⟩ ⟨3, 0⟩ (by decide) (Or.inl rfl) (by decide) 4 (by decide)

/-- **C4** (code bug): rendering is not invertible, contradicting
`Chord.String`'s own doc comment ("This should be invertible: string
products can be parsed via ParseChord to re-create the Chord instance").
Two independent failures on valid chord texts:

1. `"C79"` parses to C with tones 9 and 7 and spells
`[C, E, G, B♭, D]`; its canonicalization renders as `"C9"` (the
renderer omits a 7th it deems implied by the 9), which re-parses to a
chord with no 7th spelling `[C, E, G, D]` — `ParseChord` does not
re-materialize the implied 7th, so the re-parse spells different notes.

2. `"Cmaj-5"` parses (with a nil error) to C major with a flat 5 and,
after canonicalization, renders as `"C♭5"`: the renderer writes the
flat-5 tone's accidental directly after the root letter (its
space-insertion logic only separates adjacent digits), so the lexer of
the re-parse absorbs the `♭` into the root.  The re-parse has root C♭
and a natural 5, and even after canonicalizing both sides the spelled
notes differ (`[C, E, B♭]` vs `[C♭, E♭, B♭]`; the code's own
`Spell` would instead panic on the C♭ root).  -/
theorem c4_render_not_invertible :
    (ParseChord "C79" = (some ⟨⟨67, 0⟩, Maj3, [⟨9, 0⟩, ⟨7, 0⟩], ⟨0, 0⟩, false⟩, none) ∧
     (Chord.Canonicalize ⟨⟨67, 0⟩, Maj3, [⟨9, 0⟩, ⟨7, 0⟩], ⟨0, 0⟩, false⟩).str = "C9" ∧
     ParseChord "C9" = (some ⟨⟨67, 0⟩, Maj3, [⟨9, 0⟩], ⟨0, 0⟩, false⟩, none) ∧
     Chord.SpellSpec? ⟨⟨67, 0⟩, Maj3, [⟨9, 0⟩], ⟨0, 0⟩, false⟩ =
       some [⟨67, 0⟩, ⟨69, 0⟩, ⟨71, 0⟩, ⟨68, 0⟩] ∧
     Chord.SpellSpec? ⟨⟨67, 0⟩, Maj3, [⟨9, 0⟩, ⟨7, 0⟩], ⟨0, 0⟩, false⟩ =
       some [⟨67, 0⟩, ⟨69, 0⟩, ⟨71, 0⟩, ⟨66, -1⟩, ⟨68, 0⟩]) ∧
    (ParseChord "Cmaj-5" = (some ⟨⟨67, 0⟩, Maj3, [⟨5, -1⟩], ⟨0, 0⟩, false⟩, none) ∧
     (Chord.Canonicalize ⟨⟨67, 0⟩, Maj3, [⟨5, -1⟩], ⟨0, 0⟩, false⟩).str = "C♭5" ∧
     ParseChord "C♭5" = (some ⟨⟨67, -1⟩, Maj3, [⟨5, 0⟩], ⟨0, 0⟩, false⟩, none) ∧
     (Chord.Canonicalize ⟨⟨67, 0⟩, Maj3, [⟨5, -1⟩], ⟨0, 0⟩, false⟩).SpellSpec? =
       some [⟨67, 0⟩, ⟨69, 0⟩, ⟨71, -1⟩] ∧
     (Chord.Canonicalize ⟨⟨67, -1⟩, Maj3, [⟨5, 0⟩], ⟨0, 0⟩, false⟩).SpellSpec? =
       some [⟨67, -1⟩, ⟨69, -1⟩, ⟨71, -1⟩] ∧
     (Chord.Canonicalize ⟨⟨67, 0⟩, Maj3, [⟨5, -1⟩], ⟨0, 0⟩, false⟩).Spell? =
       some [⟨67, 0⟩, ⟨69, 0⟩, ⟨71, -1⟩] ∧
     (Chord.Canonicalize ⟨⟨67, -1⟩, Maj3, [⟨5, 0⟩], ⟨0, 0⟩, false⟩).Spell? = none) := by
  decide

/-- C6: `Canonicalize` is idempotent: the second call sees the
`canonical` flag (set by every canonicalizing run) and returns its
receiver unchanged. -/
theorem c6_idempotent (c : Chord) :
    c.Canonicalize.Canonicalize = c.Canonicalize ∧ c.Canonicalize.canonical = true := by
  unfold Chord.Canonicalize Chord.CanonicalizeWith
  by_cases h : c.canonical <;> simp [h]

/-- C9: `Validate` never mutates the chord: the returned receiver equals
the input in every branch. -/
theorem c9_validate_frame (c : Chord) : (c.validateRun).2 = c := by
  unfold Chord.validateRun
  repeat' split <;> try rfl

/-- The tone loop errors whenever the list contains a tone whose reduced
degree is 1 or 3 (i.e. `Val` 1, 3, 8 or 10), from any accumulator. -/
theorem validateTones_error_of_bad (l : List ChordTone) (e : ChordTone)
    (he : e ∈ l) (hbad : e.Val = 1 ∨ e.Val = 3 ∨ e.Val = 8 ∨ e.Val = 10) :
    ∀ t, ∃ msg, validateTones l t = .error msg := by
  induction l with
  | nil => cases he
  | cons x xs ih =>
    intro t
    unfold validateTones
    by_cases hv : ¬ x.IsValid
    · exact ⟨"tone is invalid", by rw [if_pos hv]⟩
    · rw [if_neg hv]
      rcases List.mem_cons.mp he with rfl | hmem
      · have hcond : reducedVal e.Val < 2 ∨ reducedVal e.Val = 3 ∨ reducedVal e.Val > 7 := by
          unfold reducedVal
          rcases hbad with h | h | h | h <;> rw [h] <;> norm_num
        exact ⟨"tone is not a valid chord extra", by rw [if_pos hcond]⟩
      · by_cases hb : reducedVal x.Val < 2 ∨ reducedVal x.Val = 3 ∨ reducedVal x.Val > 7
        · exact ⟨"tone is not a valid chord extra", by rw [if_pos hb]⟩
        · rw [if_neg hb]
          cases hm : accMapGet t (reducedVal x.Val) with
          | some a =>
            by_cases ha : a ≠ x.Acc
            · exact ⟨"tone has conflicting accidentals", if_pos ha⟩
            · obtain ⟨msg, hmsg⟩ := ih hmem t
              exact ⟨msg, (if_neg ha).trans hmsg⟩
          | none => exact ih hmem (t ++ [(reducedVal x.Val, x.Acc)])

/-- When the tone loop succeeds, every tone was valid with a reduced
degree in `[2, 7] \ {3}`. -/
theorem validateTones_ok_all (l : List ChordTone) :
    ∀ t t', validateTones l t = .ok t' →
      ∀ e ∈ l, e.IsValid ∧ 2 ≤ reducedVal e.Val ∧ reducedVal e.Val ≤ 7 ∧
        reducedVal e.Val ≠ 3 := by
  induction l with
  | nil => intro t t' _ e he; cases he
  | cons x xs ih =>
    intro t t' h e he
    unfold validateTones at h
    by_cases hv : ¬ x.IsValid
    · rw [if_pos hv] at h; cases h
    · rw [if_neg hv] at h
      by_cases hb : reducedVal x.Val < 2 ∨ reducedVal x.Val = 3 ∨ reducedVal x.Val > 7
      · rw [if_pos hb] at h; cases h
      · rw [if_neg hb] at h
        push_neg at hb
        rcases List.mem_cons.mp he with rfl | hmem
        · exact ⟨not_not.mp hv, by omega, by omega, hb.2.1⟩
        · split at h
          all_goals
            first
              | exact ih _ t' h e hmem
              | (split_ifs at h <;>
                  first
                    | cases h
                    | exact ih _ t' h e hmem)

/-- C10: a chord whose extras contain a tone of `Val` 1, 3, 8 or 10 never
validates — even though `ChordTone.IsValid` accepts those values — and a
chord that does validate only carries extras whose reduced degree is
2, 4, 5, 6 or 7. -/
theorem c10_tone_degrees (c : Chord) :
    (∀ e ∈ c.ExtraTones, (e.Val = 1 ∨ e.Val = 3 ∨ e.Val = 8 ∨ e.Val = 10) →
        c.Validate ≠ none) ∧
    (∀ v : Int, (v = 1 ∨ v = 3 ∨ v = 8 ∨ v = 10) → (⟨v, 0⟩ : ChordTone).IsValid) ∧
    (c.Validate = none → ∀ e ∈ c.ExtraTones,
        reducedVal e.Val = 2 ∨ reducedVal e.Val = 4 ∨ reducedVal e.Val = 5 ∨
        reducedVal e.Val = 6 ∨ reducedVal e.Val = 7) := by
  refine ⟨?_, ?_, ?_⟩
  · intro e he hbad hnone
    unfold Chord.Validate Chord.validateRun at hnone
    split_ifs at hnone
    split at hnone
    · simp at hnone
    · rename_i t heq
      obtain ⟨msg, hmsg⟩ := validateTones_error_of_bad c.ExtraTones e he hbad []
      rw [hmsg] at heq
      cases heq
  · intro v hv
    rcases hv with h | h | h | h <;> subst h <;> decide
  · intro hnone e he
    unfold Chord.Validate Chord.validateRun at hnone
    split_ifs at hnone
    split at hnone
    · simp at hnone
    · rename_i t heq
      have := validateTones_ok_all c.ExtraTones [] t heq e he
      omega

/-- Witness for C10: the chord C with the extra tone `{8, natural}` (a
valid `ChordTone`) fails validation. -/
theorem c10_tone_degrees_witness :
    (⟨⟨67, 0⟩, Maj3, [⟨8, 0⟩], ⟨0, 0⟩, false⟩ : Chord).Validate ≠ none ∧
    (⟨(8 : Int), 0⟩ : ChordTone).IsValid :=
  ⟨(c10_tone_degrees ⟨⟨67, 0⟩, Maj3, [⟨8, 0⟩], ⟨0, 0⟩, false⟩).1 ⟨8, 0⟩ (by decide)
      (by decide),
    (c10_tone_degrees ⟨⟨67, 0⟩, Maj3, [⟨8, 0⟩], ⟨0, 0⟩, false⟩).2.1 8 (by decide)⟩

/-! ## C8 machinery: the parser machine never reports success without a chord -/

/-- Out-of-range `getD` yields the default. -/
theorem getD_oob (l : List Int) (n : Nat) (d : Int) (h : l.length ≤ n) : l.getD n d = d := by
  induction l generalizing n with
  | nil => rw [List.getD_nil]
  | cons a t ih =>
    cases n with
    | zero => simp at h
    | succ m =>
      rw [List.getD_cons_succ]
      exact ih m (by simp [List.length_cons] at h; omega)

/-- Reading the empty map. -/
theorem tGet_nil (k : Int) : tGet [] k = [] := rfl

/-- Writing into the map, one step. -/
theorem tSet_cons (e : Int × List ChordTone) (rest : TMap) (k : Int) (v : List ChordTone) :
    tSet (e :: rest) k v = if e.1 = k then (k, v) :: rest else e :: tSet rest k v := rfl

/-- Reading a non-empty map, one step. -/
theorem tGet_cons (e : Int × List ChordTone) (rest : TMap) (k : Int) :
    tGet (e :: rest) k = if e.1 = k then e.2 else tGet rest k := by
  unfold tGet
  by_cases h : e.1 = k
  · rw [if_pos h]
    have hf : List.find? (fun e => decide (e.1 = k)) (e :: rest) = some e := by
      rw [List.find?]
      simp [h]
    rw [hf]
    rfl
  · rw [if_neg h]
    have hf : List.find? (fun e => decide (e.1 = k)) (e :: rest)
        = List.find? (fun e => decide (e.1 = k)) rest := by
      rw [List.find?]
      simp [h]
    rw [hf]

/-- Reading the key just written. -/
theorem tGet_tSet_self (t : TMap) (k : Int) (v : List ChordTone) :
    tGet (tSet t k v) k = v := by
  induction t with
  | nil =>
    rw [show tSet [] k v = [(k, v)] from rfl, tGet_cons, if_pos rfl]
  | cons e rest ih =>
    rw [tSet_cons]
    by_cases h : e.1 = k
    · rw [if_pos h, tGet_cons, if_pos rfl]
    · rw [if_neg h, tGet_cons, if_neg h]
      exact ih

/-- Reading another key than the one written. -/
theorem tGet_tSet_ne (t : TMap) (k' k : Int) (v : List ChordTone) (h : k' ≠ k) :
    tGet (tSet t k' v) k = tGet t k := by
  induction t with
  | nil =>
    rw [show tSet [] k' v = [(k', v)] from rfl, tGet_cons, if_neg h]
  | cons e rest ih =>
    rw [tSet_cons]
    by_cases he : e.1 = k'
    · rw [if_pos he, tGet_cons, tGet_cons, if_neg h, if_neg (by rw [he]; exact h)]
    · rw [if_neg he, tGet_cons, tGet_cons]
      by_cases hek : e.1 = k
      · rw [if_pos hek, if_pos hek]
      · rw [if_neg hek, if_neg hek]
        exact ih

/-- A member of the written map is the new entry or an old entry. -/
theorem mem_tSet (t : TMap) (k : Int) (v : List ChordTone) (p : Int × List ChordTone) :
    p ∈ tSet t k v → p = (k, v) ∨ p ∈ t := by
  induction t with
  | nil =>
    intro hp
    rcases List.mem_cons.mp hp with hp | hp
    · exact Or.inl hp
    · cases hp
  | cons e rest ih =>
    intro hp
    rw [tSet_cons] at hp
    split_ifs at hp with he
    · rcases List.mem_cons.mp hp with hp | hp
      · exact Or.inl hp
      · exact Or.inr (List.mem_cons_of_mem e hp)
    · rcases List.mem_cons.mp hp with hp | hp
      · exact Or.inr (by rw [hp]; exact List.mem_cons_self e rest)
      · rcases ih hp with h2 | h2
        · exact Or.inl h2
        · exact Or.inr (List.mem_cons_of_mem e h2)

/-- A tone read from the map comes from an entry with that key. -/
theorem mem_tGet (t : TMap) (k : Int) (x : ChordTone) :
    x ∈ tGet t k → ∃ p, p ∈ t ∧ p.1 = k ∧ x ∈ p.2 := by
  induction t with
  | nil =>
    intro hx
    rw [tGet_nil] at hx
    cases hx
  | cons e rest ih =>
    intro hx
    rw [tGet_cons] at hx
    split_ifs at hx with he
    · exact ⟨e, List.mem_cons_self e rest, he, hx⟩
    · rcases ih hx with ⟨p, hp, hk, hxp⟩
      exact ⟨p, List.mem_cons_of_mem e hp, hk, hxp⟩

/-- `tonesAll` transfers to any read. -/
theorem tonesAll_tGet (P : ChordTone → Prop) (t : TMap) (k : Int) (h : tonesAll P t)
    (x : ChordTone) (hx : x ∈ tGet t k) : P x := by
  rcases mem_tGet t k x hx with ⟨p, hp, _, hxp⟩
  exact h p hp x hxp

/-- `keyed` transfers to any read. -/
theorem keyed_tGet (t : TMap) (k : Int) (h : keyed t) (x : ChordTone)
    (hx : x ∈ tGet t k) : x.Val = k := by
  rcases mem_tGet t k x hx with ⟨p, hp, hk, hxp⟩
  rw [h p hp x hxp, hk]

/-- `tonesAll` is preserved by writing a list of good tones. -/
theorem tonesAll_tSet (P : ChordTone → Prop) (t : TMap) (k : Int) (v : List ChordTone)
    (h : tonesAll P t) (hv : ∀ x ∈ v, P x) : tonesAll P (tSet t k v) := by
  intro p hp x hx
  rcases mem_tSet t k v p hp with rfl | hpt
  · exact hv x hx
  · exact h p hpt x hx

/-- `keyed` is preserved by writing tones of the written degree. -/
theorem keyed_tSet (t : TMap) (k : Int) (v : List ChordTone)
    (h : keyed t) (hv : ∀ x ∈ v, x.Val = k) : keyed (tSet t k v) := by
  intro p hp x hx
  rcases mem_tSet t k v p hp with rfl | hpt
  · exact hv x hx
  · exact h p hpt x hx

/-- A member of `removeTone` was a member that is not the removed tone. -/
theorem mem_removeTone (l : List ChordTone) (y x : ChordTone)
    (hx : x ∈ removeTone l y) : x ∈ l ∧ x ≠ y := by
  unfold removeTone at hx
  have := List.mem_filter.mp hx
  exact ⟨this.1, of_decide_eq_true this.2⟩

/-- The keys of a written map: unchanged on overwrite, extended on insert. -/
theorem keys_tSet (t : TMap) (k : Int) (v : List ChordTone) :
    (tSet t k v).map Prod.fst = t.map Prod.fst ∨
    (tSet t k v).map Prod.fst = t.map Prod.fst ++ [k] := by
  induction t with
  | nil => exact Or.inr rfl
  | cons e rest ih =>
    rw [tSet_cons]
    by_cases he : e.1 = k
    · rw [if_pos he]
      left
      simp only [List.map_cons]
      rw [he]
    · rw [if_neg he]
      simp only [List.map_cons]
      rcases ih with h2 | h2
      · left
        rw [h2]
      · right
        rw [h2]
        rfl

/-- Distinct keys are preserved by writes. -/
theorem keysNodup_tSet (t : TMap) (k : Int) (v : List ChordTone) :
    keysNodup t → keysNodup (tSet t k v) := by
  unfold keysNodup
  induction t with
  | nil =>
    intro _
    simp [tSet]
  | cons e rest ih =>
    intro h
    rw [tSet_cons]
    simp only [List.map_cons, List.nodup_cons] at h
    by_cases he : e.1 = k
    · rw [if_pos he]
      simp only [List.map_cons, List.nodup_cons]
      exact ⟨by rw [← he]; exact h.1, h.2⟩
    · rw [if_neg he]
      simp only [List.map_cons, List.nodup_cons]
      refine ⟨?_, ih h.2⟩
      intro hmem
      rcases keys_tSet rest k v with h2 | h2
      · rw [h2] at hmem
        exact h.1 hmem
      · rw [h2] at hmem
        rcases List.mem_append.mp hmem with hm | hm
        · exact h.1 hm
        · exact he (List.mem_singleton.mp hm)

/-! ## C5 machinery: the first canonicalization loop -/

/-- `buildTones` records a stated 7th exactly when a degree-7 tone that is
not double-sharp occurs. -/
theorem buildTones_hasSeventh (l : List ChordTone) :
    ∀ st : BuildSt, (buildTones l st).hasSeventh = (st.hasSeventh || l.any is7T) := by
  induction l with
  | nil =>
    intro st
    simp [buildTones]
  | cons e rest ih =>
    intro st
    simp only [buildTones]
    split_ifs with h1 h2 h3 h4
    · rw [ih]
      have h7 : is7T e = false := by
        rcases h1 with ⟨hv, ha⟩ | ⟨hv, ha⟩ <;> simp [is7T, hv, ha]
      simp [List.any_cons, h7]
    · rw [ih]
      have h7 : is7T e = false := by simp [is7T, h2.1]
      simp [List.any_cons, h7]
    · rw [ih]
      have hne : ¬ e.Val = 7 := by omega
      have h7 : is7T e = false := by simp [is7T, hne]
      simp [List.any_cons, h7]
    · rw [ih]
      have ha : ¬ e.Acc = DblSharp := fun hx => h1 (Or.inl ⟨h4, hx⟩)
      have h7 : is7T e = true := by simp [is7T, h4, ha]
      simp [List.any_cons, h7]
    · rw [ih]
      have h7 : is7T e = false := by simp [is7T, h4]
      simp [List.any_cons, h7]

/-- `buildTones` records a natural 7th exactly when a degree-7
natural-accidental tone occurs. -/
theorem buildTones_hasNaturalSeventh (l : List ChordTone) :
    ∀ st : BuildSt, (buildTones l st).hasNaturalSeventh =
      (st.hasNaturalSeventh || l.any (fun e => decide (e.Val = 7) && decide (e.Acc = Natural))) := by
  induction l with
  | nil =>
    intro st
    simp [buildTones]
  | cons e rest ih =>
    intro st
    simp only [buildTones]
    split_ifs with h1 h2 h3 h4
    · rw [ih]
      have h7 : (decide (e.Val = 7) && decide (e.Acc = Natural)) = false := by
        rcases h1 with ⟨hv, ha⟩ | ⟨hv, ha⟩ <;> simp [hv, ha, Natural, DblSharp, DblFlat]
      simp [List.any_cons, h7]
    · rw [ih]
      have h7 : (decide (e.Val = 7) && decide (e.Acc = Natural)) = false := by simp [h2.1]
      simp [List.any_cons, h7]
    · rw [ih]
      have hne : ¬ e.Val = 7 := by omega
      simp [List.any_cons, hne]
    · rw [ih]
      simp [List.any_cons, h4, Bool.or_assoc]
    · rw [ih]
      simp [List.any_cons, h4]

/-- `buildTones` counts an implied 7th exactly once per tone above 7. -/
theorem buildTones_implied (l : List ChordTone) :
    ∀ st : BuildSt, (buildTones l st).impliedSeventh = st.impliedSeventh + l.countP isHighT := by
  induction l with
  | nil =>
    intro st
    simp [buildTones]
  | cons e rest ih =>
    intro st
    simp only [buildTones]
    split_ifs with h1 h2 h3 h4
    · rw [ih]
      have h7 : isHighT e = false := by
        rcases h1 with ⟨hv, ha⟩ | ⟨hv, ha⟩ <;> simp [isHighT, hv]
      simp [List.countP_cons, h7]
    · rw [ih]
      have h7 : isHighT e = true := by simp [isHighT, h2.1]
      simp [List.countP_cons, h7]
      omega
    · rw [ih]
      have h7 : isHighT e = true := by simp [isHighT, h3]
      simp [List.countP_cons, h7]
      omega
    · rw [ih]
      have h7 : isHighT e = false := by simp [isHighT, h4]
      simp [List.countP_cons, h7]
    · rw [ih]
      have h7 : isHighT e = false := by simp [isHighT]; omega
      simp [List.countP_cons, h7]

/-- The degree-5 bucket of the first loop: the degree-5 tones in order. -/
theorem buildTones_tGet5 (l : List ChordTone) :
    ∀ st : BuildSt, tGet (buildTones l st).t 5
      = tGet st.t 5 ++ l.filter (fun e => decide (e.Val = 5)) := by
  induction l with
  | nil =>
    intro st
    simp [buildTones]
  | cons e rest ih =>
    intro st
    simp only [buildTones]
    split_ifs with h1 h2 h3 h4
    · rw [ih]
      have h5 : ¬ e.Val = 5 := by rcases h1 with ⟨hv, _⟩ | ⟨hv, _⟩ <;> omega
      simp [List.filter_cons, h5]
    · rw [ih]
      have h5 : ¬ e.Val = 5 := by omega
      simp [List.filter_cons, h5]
    · rw [ih]
      dsimp only
      have h5 : ¬ e.Val = 5 := by omega
      rw [tGet_tSet_ne _ _ _ _ (fun hx => h5 hx)]
      simp [List.filter_cons, h5]
    · rw [ih]
      dsimp only
      have h5 : ¬ e.Val = 5 := by omega
      rw [tGet_tSet_ne _ _ _ _ (fun hx => h5 hx)]
      simp [List.filter_cons, h5]
    · by_cases h5 : e.Val = 5
      · rw [ih]
        dsimp only
        rw [h5, tGet_tSet_self]
        simp [List.filter_cons, h5, List.append_assoc]
      · rw [ih]
        dsimp only
        rw [tGet_tSet_ne _ _ _ _ (fun hx => h5 hx)]
        simp [List.filter_cons, h5]

/-- The degree-7 bucket of the first loop: the stated-7th tones in order. -/
theorem buildTones_tGet7 (l : List ChordTone) :
    ∀ st : BuildSt, tGet (buildTones l st).t 7 = tGet st.t 7 ++ l.filter is7T := by
  induction l with
  | nil =>
    intro st
    simp [buildTones]
  | cons e rest ih =>
    intro st
    simp only [buildTones]
    split_ifs with h1 h2 h3 h4
    · rw [ih]
      have h7 : is7T e = false := by
        rcases h1 with ⟨hv, ha⟩ | ⟨hv, ha⟩ <;> simp [is7T, hv, ha]
      simp [List.filter_cons, h7]
    · rw [ih]
      have h7 : is7T e = false := by simp [is7T, h2.1]
      simp [List.filter_cons, h7]
    · rw [ih]
      dsimp only
      have hne : ¬ e.Val = 7 := by omega
      have h7 : is7T e = false := by simp [is7T, hne]
      rw [tGet_tSet_ne _ _ _ _ (fun hx => hne hx)]
      simp [List.filter_cons, h7]
    · rw [ih]
      dsimp only
      rw [h4, tGet_tSet_self]
      have ha : ¬ e.Acc = DblSharp := fun hx => h1 (Or.inl ⟨h4, hx⟩)
      have h7 : is7T e = true := by simp [is7T, h4, ha]
      simp [List.filter_cons, h7, List.append_assoc]
    · rw [ih]
      dsimp only
      have h7 : is7T e = false := by simp [is7T, h4]
      rw [tGet_tSet_ne _ _ _ _ (fun hx => h4 hx)]
      simp [List.filter_cons, h7]

/-- The first loop only files tones under their own degree. -/
theorem buildTones_keyed (l : List ChordTone) :
    ∀ st : BuildSt, keyed st.t → keyed (buildTones l st).t := by
  induction l with
  | nil =>
    intro st h
    exact h
  | cons e rest ih =>
    intro st h
    simp only [buildTones]
    split_ifs with h1 h2 h3 h4
    · exact ih st h
    · exact ih _ h
    all_goals
      refine ih _ (keyed_tSet _ _ _ h ?_)
      intro x hx
      rcases List.mem_append.mp hx with hx | hx
      · exact keyed_tGet _ _ h x hx
      · rw [List.mem_singleton.mp hx]

/-- The first loop stores only tones of the input list. -/
theorem buildTones_tonesAll (P : ChordTone → Prop) (l : List ChordTone) :
    ∀ st : BuildSt, tonesAll P st.t → (∀ x ∈ l, P x) → tonesAll P (buildTones l st).t := by
  induction l with
  | nil =>
    intro st h _
    exact h
  | cons e rest ih =>
    intro st h hl
    simp only [buildTones]
    split_ifs with h1 h2 h3 h4
    · exact ih st h (fun x hx => hl x (List.mem_cons_of_mem e hx))
    · exact ih _ h (fun x hx => hl x (List.mem_cons_of_mem e hx))
    all_goals
      refine ih _ (tonesAll_tSet P _ _ _ h ?_) (fun x hx => hl x (List.mem_cons_of_mem e hx))
      intro x hx
      rcases List.mem_append.mp hx with hx | hx
      · exact tonesAll_tGet P _ _ h x hx
      · rw [List.mem_singleton.mp hx]
        exact hl e (List.mem_cons_self e rest)

/-- The first loop keeps the map keys distinct. -/
theorem buildTones_keysNodup (l : List ChordTone) :
    ∀ st : BuildSt, keysNodup st.t → keysNodup (buildTones l st).t := by
  induction l with
  | nil =>
    intro st h
    exact h
  | cons e rest ih =>
    intro st h
    simp only [buildTones]
    split_ifs with h1 h2 h3 h4
    · exact ih st h
    · exact ih _ h
    all_goals exact ih _ (keysNodup_tSet _ _ _ h)

/-! ## C5 machinery: sorting and flattening membership -/

/-- Ordered insertion adds exactly the inserted element. -/
theorem mem_insertLE {α : Type} (le : α → α → Bool) (y x : α) (l : List α) :
    x ∈ insertLE le y l ↔ x = y ∨ x ∈ l := by
  induction l with
  | nil => simp [insertLE]
  | cons z zs ih =>
    unfold insertLE
    by_cases h : le y z
    · rw [if_pos h]
      simp only [List.mem_cons]
      try tauto
    · rw [if_neg h]
      simp only [List.mem_cons, ih]
      try tauto

/-- Insertion sort permutes membership. -/
theorem mem_sortByLE {α : Type} (le : α → α → Bool) (x : α) (l : List α) :
    x ∈ sortByLE le l ↔ x ∈ l := by
  induction l with
  | nil => simp [sortByLE]
  | cons z zs ih =>
    simp only [sortByLE, mem_insertLE, List.mem_cons, ih]

/-! ## C5 machinery: invariants through the canonicalization passes -/

/-- The remove-and-store update pattern preserves `keyed` and `tonesAll`. -/
theorem inv_removeStep (P : ChordTone → Prop) (t : TMap) (k : Int) (y : ChordTone)
    (h : keyed t ∧ tonesAll P t) :
    keyed (tSet t k (removeTone (tGet t k) y)) ∧
    tonesAll P (tSet t k (removeTone (tGet t k) y)) :=
  ⟨keyed_tSet _ _ _ h.1 (fun x hx => keyed_tGet _ _ h.1 x (mem_removeTone _ _ _ hx).1),
   tonesAll_tSet P _ _ _ h.2 (fun x hx => tonesAll_tGet P _ _ h.2 x (mem_removeTone _ _ _ hx).1)⟩

/-- The minor-conversion pass preserves the map invariants. -/
theorem inv_canonConvMin (P : ChordTone → Prop) (m : MidSt)
    (h : keyed m.t ∧ tonesAll P m.t) :
    keyed (canonConvMin m).t ∧ tonesAll P (canonConvMin m).t := by
  unfold canonConvMin
  dsimp only
  split_ifs with hc
  · exact inv_removeStep P m.t 5 _ h
  · exact h

/-- The major-conversion pass preserves the map invariants. -/
theorem inv_canonConvMaj (P : ChordTone → Prop) (m : MidSt)
    (h : keyed m.t ∧ tonesAll P m.t) :
    keyed (canonConvMaj m).t ∧ tonesAll P (canonConvMaj m).t := by
  unfold canonConvMaj
  dsimp only
  split_ifs with hc
  · exact inv_removeStep P m.t 5 _ h
  · exact h

/-- The `dim7`-promotion pass does not touch the map. -/
theorem inv_canonDimPromote (P : ChordTone → Prop) (m : MidSt)
    (h : keyed m.t ∧ tonesAll P m.t) :
    keyed (canonDimPromote m).t ∧ tonesAll P (canonDimPromote m).t := h

/-- The half-diminished promotion preserves the map invariants, provided
`P` survives making an accidental natural. -/
theorem inv_canonHdimPromote (P : ChordTone → Prop)
    (hmap : ∀ y : ChordTone, P y → P { y with Acc := Natural }) (m : MidSt)
    (h : keyed m.t ∧ tonesAll P m.t) :
    keyed (canonHdimPromote m).t ∧ tonesAll P (canonHdimPromote m).t := by
  unfold canonHdimPromote
  dsimp only
  split_ifs with hc
  · refine ⟨keyed_tSet _ _ _ h.1 ?_, tonesAll_tSet P _ _ _ h.2 ?_⟩
    · intro x hx
      rcases List.mem_map.mp hx with ⟨y, hy, rfl⟩
      exact keyed_tGet _ _ h.1 y hy
    · intro x hx
      rcases List.mem_map.mp hx with ⟨y, hy, rfl⟩
      exact hmap y (tonesAll_tGet P _ _ h.2 y hy)
  · exact h

/-- Materializing the implied 7th preserves the map invariants, provided
`P` holds of the natural 7th. -/
theorem inv_canonMaterialize (P : ChordTone → Prop) (h7N : P ⟨7, Natural⟩) (m : MidSt)
    (h : keyed m.t ∧ tonesAll P m.t) :
    keyed (canonMaterialize m).t ∧ tonesAll P (canonMaterialize m).t := by
  unfold canonMaterialize
  dsimp only
  split_ifs with hc
  · refine ⟨keyed_tSet _ _ _ h.1 ?_, tonesAll_tSet P _ _ _ h.2 ?_⟩
    · intro x hx
      rcases List.mem_append.mp hx with hx | hx
      · exact keyed_tGet _ _ h.1 x hx
      · rw [List.mem_singleton.mp hx]
    · intro x hx
      rcases List.mem_append.mp hx with hx | hx
      · exact tonesAll_tGet P _ _ h.2 x hx
      · rw [List.mem_singleton.mp hx]
        exact h7N
  · exact h

/-- The enharmonic-3rd prune preserves the map invariants. -/
theorem inv_canonEnh3 (P : ChordTone → Prop) (m : MidSt)
    (h : keyed m.t ∧ tonesAll P m.t) :
    keyed (canonEnh3 m).t ∧ tonesAll P (canonEnh3 m).t := by
  unfold canonEnh3
  dsimp only
  split_ifs with hc1 hc2
  · exact inv_removeStep P _ 9 _
      (inv_removeStep P _ 2 _ (inv_removeStep P _ 11 _ (inv_removeStep P _ 4 _ h)))
  · exact inv_removeStep P _ 11 _
      (inv_removeStep P _ 4 _ (inv_removeStep P _ 9 _ (inv_removeStep P _ 2 _ h)))
  · exact h

/-- `susConvert` preserves the map invariants. -/
theorem inv_susConvert (P : ChordTone → Prop) (t : TMap) (h : keyed t ∧ tonesAll P t) :
    keyed (susConvert t).2 ∧ tonesAll P (susConvert t).2 := by
  unfold susConvert
  dsimp only
  split_ifs with c1 c2 c3 c4
  · exact inv_removeStep P _ 11 _ (inv_removeStep P _ 4 _ h)
  · exact inv_removeStep P _ 11 _ (inv_removeStep P _ 4 _
      (inv_removeStep P _ 11 _ (inv_removeStep P _ 4 _ h)))
  · exact inv_removeStep P _ 9 _ (inv_removeStep P _ 2 _
      (inv_removeStep P _ 11 _ (inv_removeStep P _ 4 _
        (inv_removeStep P _ 11 _ (inv_removeStep P _ 4 _ h)))))
  · exact inv_removeStep P _ 9 _ (inv_removeStep P _ 2 _
      (inv_removeStep P _ 9 _ (inv_removeStep P _ 2 _
        (inv_removeStep P _ 11 _ (inv_removeStep P _ 4 _
          (inv_removeStep P _ 11 _ (inv_removeStep P _ 4 _ h)))))))
  · exact inv_removeStep P _ 9 _ (inv_removeStep P _ 2 _
      (inv_removeStep P _ 9 _ (inv_removeStep P _ 2 _
        (inv_removeStep P _ 11 _ (inv_removeStep P _ 4 _
          (inv_removeStep P _ 11 _ (inv_removeStep P _ 4 _ h)))))))

/-- The sus-conversion pass preserves the map invariants. -/
theorem inv_canonSus (P : ChordTone → Prop) (m : MidSt)
    (h : keyed m.t ∧ tonesAll P m.t) :
    keyed (canonSus m).t ∧ tonesAll P (canonSus m).t := by
  unfold canonSus
  dsimp only
  split_ifs with hc
  · exact inv_susConvert P m.t h
  · exact h

/-- The natural-6th drop preserves the map invariants. -/
theorem inv_canonDrop6 (P : ChordTone → Prop) (m : MidSt)
    (h : keyed m.t ∧ tonesAll P m.t) :
    keyed (canonDrop6 m).t ∧ tonesAll P (canonDrop6 m).t := by
  unfold canonDrop6
  dsimp only
  split_ifs with hc
  · exact inv_removeStep P _ 13 _ (inv_removeStep P _ 6 _ h)
  · exact h

/-- The flat-6th drop preserves the map invariants. -/
theorem inv_canonDropFlat6 (P : ChordTone → Prop) (m : MidSt)
    (h : keyed m.t ∧ tonesAll P m.t) :
    keyed (canonDropFlat6 m).t ∧ tonesAll P (canonDropFlat6 m).t := by
  unfold canonDropFlat6
  dsimp only
  split_ifs with hc
  · exact inv_removeStep P _ 13 _ (inv_removeStep P _ 6 _ h)
  · exact h

/-- The sharp-4th drop preserves the map invariants. -/
theorem inv_canonDropSharp4 (P : ChordTone → Prop) (m : MidSt)
    (h : keyed m.t ∧ tonesAll P m.t) :
    keyed (canonDropSharp4 m).t ∧ tonesAll P (canonDropSharp4 m).t := by
  unfold canonDropSharp4
  dsimp only
  split_ifs with hc
  · exact inv_removeStep P _ 11 _ (inv_removeStep P _ 4 _ h)
  · exact h

/-- The sus-flat-5 sharp-4th handling preserves the map invariants,
provided `P` holds of the sharp 4th it may re-insert. -/
theorem inv_canonSusFlat5 (P : ChordTone → Prop) (h4S : P ⟨4, Sharp⟩) (m : MidSt)
    (h : keyed m.t ∧ tonesAll P m.t) :
    keyed (canonSusFlat5 m).t ∧ tonesAll P (canonSusFlat5 m).t := by
  unfold canonSusFlat5
  dsimp only
  split_ifs with hc1 hc2 hc3
  · exact inv_removeStep P _ 11 _ (inv_removeStep P _ 4 _ h)
  · have ht2 := inv_removeStep P (tSet m.t 4 (removeTone (tGet m.t 4) ⟨4, Sharp⟩)) 11
      ⟨11, Sharp⟩ (inv_removeStep P m.t 4 ⟨4, Sharp⟩ h)
    refine ⟨keyed_tSet _ _ _ ht2.1 ?_, tonesAll_tSet P _ _ _ ht2.2 ?_⟩
    · intro x hx
      rw [List.mem_singleton.mp hx]
    · intro x hx
      rw [List.mem_singleton.mp hx]
      exact h4S
  · exact inv_removeStep P _ 11 _ (inv_removeStep P _ 4 _ h)
  · exact h

/-- The double-sharp-4th drop preserves the map invariants. -/
theorem inv_canonDropDblSharp4 (P : ChordTone → Prop) (m : MidSt)
    (h : keyed m.t ∧ tonesAll P m.t) :
    keyed (canonDropDblSharp4 m).t ∧ tonesAll P (canonDropDblSharp4 m).t := by
  unfold canonDropDblSharp4
  dsimp only
  split_ifs with hc
  · exact inv_removeStep P _ 11 _ (inv_removeStep P _ 4 _ h)
  · exact h

/-! ## C5 machinery: the consolidation fold -/

/-- A fold whose step preserves the invariants preserves them. -/
theorem inv_foldl_pres {β : Type} (f : TMap → β → TMap)
    (hf : ∀ acc e, keyed acc ∧ tonesAll c5Q acc → keyed (f acc e) ∧ tonesAll c5Q (f acc e))
    (l : List β) :
    ∀ acc, keyed acc ∧ tonesAll c5Q acc →
      keyed (l.foldl f acc) ∧ tonesAll c5Q (l.foldl f acc) := by
  induction l with
  | nil =>
    intro acc h
    exact h
  | cons e rest ih =>
    intro acc h
    rw [List.foldl_cons]
    exact ih _ (hf acc e h)

/-- Moving a bucket up by 7 preserves the C5 invariants. -/
theorem inv_consUp (acc : TMap) (k : Int) (h : keyed acc ∧ tonesAll c5Q acc)
    (hk7 : k < 7) (hk5 : ¬ k = 5) :
    keyed (tSet (tSet acc (k + 7)
        (tGet acc (k + 7) ++ (tGet acc k).map (fun tn => { tn with Val := tn.Val + 7 }))) k []) ∧
    tonesAll c5Q (tSet (tSet acc (k + 7)
        (tGet acc (k + 7) ++ (tGet acc k).map (fun tn => { tn with Val := tn.Val + 7 }))) k []) := by
  have hin : keyed (tSet acc (k + 7)
        (tGet acc (k + 7) ++ (tGet acc k).map (fun tn => { tn with Val := tn.Val + 7 }))) ∧
      tonesAll c5Q (tSet acc (k + 7)
        (tGet acc (k + 7) ++ (tGet acc k).map (fun tn => { tn with Val := tn.Val + 7 }))) := by
    refine ⟨keyed_tSet _ _ _ h.1 ?_, tonesAll_tSet _ _ _ _ h.2 ?_⟩
    · intro x hx
      rcases List.mem_append.mp hx with hx | hx
      · exact keyed_tGet _ _ h.1 x hx
      · rcases List.mem_map.mp hx with ⟨y, hy, rfl⟩
        have hyk := keyed_tGet _ _ h.1 y hy
        dsimp only
        omega
    · intro x hx
      rcases List.mem_append.mp hx with hx | hx
      · exact tonesAll_tGet _ _ _ h.2 x hx
      · rcases List.mem_map.mp hx with ⟨y, hy, rfl⟩
        have hyk := keyed_tGet _ _ h.1 y hy
        have hq := tonesAll_tGet _ _ _ h.2 y hy
        unfold c5Q at hq ⊢
        dsimp only
        refine ⟨⟨by omega, by omega⟩, by omega, ?_⟩
        intro hx5
        have hv5 : y.Val + 7 = 5 := congrArg ChordTone.Val hx5
        omega
  exact ⟨keyed_tSet _ _ _ hin.1 (fun x hx => absurd hx (List.not_mem_nil x)),
    tonesAll_tSet _ _ _ _ hin.2 (fun x hx => absurd hx (List.not_mem_nil x))⟩

/-- Moving a bucket down by 7 preserves the C5 invariants. -/
theorem inv_consDown (acc : TMap) (k : Int) (h : keyed acc ∧ tonesAll c5Q acc)
    (hk7 : 7 < k) :
    keyed (tSet (tSet acc (k - 7)
        (tGet acc (k - 7) ++ (tGet acc k).map (fun tn => { tn with Val := tn.Val - 7 }))) k []) ∧
    tonesAll c5Q (tSet (tSet acc (k - 7)
        (tGet acc (k - 7) ++ (tGet acc k).map (fun tn => { tn with Val := tn.Val - 7 }))) k []) := by
  have hin : keyed (tSet acc (k - 7)
        (tGet acc (k - 7) ++ (tGet acc k).map (fun tn => { tn with Val := tn.Val - 7 }))) ∧
      tonesAll c5Q (tSet acc (k - 7)
        (tGet acc (k - 7) ++ (tGet acc k).map (fun tn => { tn with Val := tn.Val - 7 }))) := by
    refine ⟨keyed_tSet _ _ _ h.1 ?_, tonesAll_tSet _ _ _ _ h.2 ?_⟩
    · intro x hx
      rcases List.mem_append.mp hx with hx | hx
      · exact keyed_tGet _ _ h.1 x hx
      · rcases List.mem_map.mp hx with ⟨y, hy, rfl⟩
        have hyk := keyed_tGet _ _ h.1 y hy
        dsimp only
        omega
    · intro x hx
      rcases List.mem_append.mp hx with hx | hx
      · exact tonesAll_tGet _ _ _ h.2 x hx
      · rcases List.mem_map.mp hx with ⟨y, hy, rfl⟩
        have hyk := keyed_tGet _ _ h.1 y hy
        have hq := tonesAll_tGet _ _ _ h.2 y hy
        unfold c5Q at hq ⊢
        dsimp only
        refine ⟨⟨by omega, by omega⟩, by omega, ?_⟩
        intro hx5
        have hv5 : y.Val - 7 = 5 := congrArg ChordTone.Val hx5
        omega
  exact ⟨keyed_tSet _ _ _ hin.1 (fun x hx => absurd hx (List.not_mem_nil x)),
    tonesAll_tSet _ _ _ _ hin.2 (fun x hx => absurd hx (List.not_mem_nil x))⟩

/-- Degree consolidation preserves the C5 invariants. -/
theorem inv_consolidate (b : Bool) (t : TMap) (h : keyed t ∧ tonesAll c5Q t) :
    keyed (consolidate b t) ∧ tonesAll c5Q (consolidate b t) := by
  unfold consolidate
  split_ifs with hb
  · refine inv_foldl_pres _ ?_ t t h
    intro acc e hacc
    dsimp only
    split_ifs with hc1 hc2
    · exact inv_consUp acc e.1 hacc hc1.1 hc1.2
    · rcases hc2 with hc2 | hc2
      · exact inv_consDown acc e.1 hacc (by omega)
      · exact inv_consDown acc e.1 hacc (by omega)
    · exact hacc
  · refine inv_foldl_pres _ ?_ t t h
    intro acc e hacc
    dsimp only
    split_ifs with hc1
    · exact inv_consDown acc e.1 hacc (by omega)
    · exact hacc

/-! ## C5 machinery: establishing the no-flat-5 invariant -/

/-- With distinct keys, a member of the written map is the new entry or an
old entry with a different key. -/
theorem mem_tSet_nodup (t : TMap) (k : Int) (v : List ChordTone) (p : Int × List ChordTone) :
    keysNodup t → p ∈ tSet t k v → p = (k, v) ∨ (p ∈ t ∧ ¬ p.1 = k) := by
  induction t with
  | nil =>
    intro _ hp
    rcases List.mem_cons.mp hp with hp | hp
    · exact Or.inl hp
    · cases hp
  | cons e rest ih =>
    intro hnd hp
    rw [tSet_cons] at hp
    unfold keysNodup at hnd
    simp only [List.map_cons, List.nodup_cons] at hnd
    split_ifs at hp with he
    · rcases List.mem_cons.mp hp with hp | hp
      · exact Or.inl hp
      · refine Or.inr ⟨List.mem_cons_of_mem e hp, ?_⟩
        intro hpk
        apply hnd.1
        rw [he, ← hpk]
        exact List.mem_map_of_mem Prod.fst hp
    · rcases List.mem_cons.mp hp with hp | hp
      · refine Or.inr ⟨by rw [hp]; exact List.mem_cons_self e rest, ?_⟩
        rw [hp]
        exact he
      · rcases ih hnd.2 hp with h2 | h2
        · exact Or.inl h2
        · exact Or.inr ⟨List.mem_cons_of_mem e h2.1, h2.2⟩

/-- Removing the flat 5 from the degree-5 bucket establishes the full C5
invariant from the range part. -/
theorem convMin_c5Q (t : TMap) (hk : keyed t) (hnd : keysNodup t)
    (ha : tonesAll (fun x => (1 ≤ x.Val ∧ x.Val ≤ 14) ∧ x.Val ≠ 12) t) :
    tonesAll c5Q (tSet t 5 (removeTone (tGet t 5) ⟨5, Flat⟩)) := by
  intro p hp x hx
  rcases mem_tSet_nodup t 5 _ p hnd hp with rfl | ⟨hpt, hne⟩
  · have hm := mem_removeTone _ _ _ hx
    have hq := tonesAll_tGet _ t 5 ha x hm.1
    exact ⟨hq.1, hq.2, hm.2⟩
  · have hq := ha p hpt x hx
    have hv := hk p hpt x hx
    refine ⟨hq.1, hq.2, ?_⟩
    intro hxeq
    rw [hxeq] at hv
    exact hne hv.symm

end Chords

namespace Chords

/-! ## C8: basic facts about the erased machine -/

/-- Peel one transition off a fuelled run. -/
theorem aRun_step {lab lab' : MLabel} {a a' : ASt} (f : Nat)
    (h : parseStepA lab a = .inr (lab', a')) :
    aRun (f + 1) lab a = aRun f lab' a' := by
  show (match parseStepA lab a with
        | .inl r => r
        | .inr next => aRun f next.1 next.2) = aRun f lab' a'
  rw [h]

/-- A finishing transition fixes the run outcome. -/
theorem aRun_last {lab : MLabel} {a : ASt} {r : ARes} (f : Nat)
    (h : parseStepA lab a = .inl r) :
    aRun (f + 1) lab a = r := by
  show (match parseStepA lab a with
        | .inl r => r
        | .inr next => aRun f next.1 next.2) = r
  rw [h]

/-- A finished outcome is stable under extra fuel. -/
theorem aRun_done_mono {r : Bool} :
    ∀ (f f' : Nat) (lab : MLabel) (a : ASt), aRun f lab a = .adone r → f ≤ f' →
      aRun f' lab a = .adone r := by
  intro f
  induction f with
  | zero => intro f' lab a h; cases h
  | succ g ih =>
    intro f' lab a h hle
    obtain ⟨g', rfl⟩ : ∃ g', f' = g' + 1 := ⟨f' - 1, by omega⟩
    revert h
    show (match parseStepA lab a with
          | .inl r => r
          | .inr next => aRun g next.1 next.2) = .adone r →
        (match parseStepA lab a with
         | .inl r => r
         | .inr next => aRun g' next.1 next.2) = .adone r
    cases parseStepA lab a with
    | inl r' => exact fun h => h
    | inr next => exact fun h => ih g' next.1 next.2 h (by omega)

/-- The check row never holds the error token 2, so error recovery
always pops. -/
theorem chk_ne_two (j : Nat) : chordChk.getD j 0 ≠ 2 := by
  by_cases h : j < 54
  · interval_cases j <;> decide
  · rw [getD_oob _ _ _ (by simp [chordChk]; omega)]
    decide

/-- The recovery loop pops the whole stack and finishes with the
recorded error state. -/
theorem recover_all (e : Bool) (fl : Int) (lk : Option Int) (ts : List Int) :
    ∀ (stk : List Int) (s : Int) (f : Nat),
      aRun (f + (stk.length + 1)) .recover ⟨s, stk, lk, ts, e, fl⟩ = .adone e := by
  intro stk
  induction stk with
  | nil =>
    intro s f
    exact aRun_last _ rfl
  | cons y rest ih =>
    intro s f
    have hcond : ¬ (0 ≤ chordPact.getD y.toNat 0 + 2 ∧ chordPact.getD y.toNat 0 + 2 < 90 ∧
        chordChk.getD (chordAct.getD (chordPact.getD y.toNat 0 + 2).toNat 0).toNat 0 = 2) :=
      fun hc => chk_ne_two _ hc.2.2
    have hstep : parseStepA .recover ⟨s, y :: rest, lk, ts, e, fl⟩ =
        .inr (.recover, ⟨s, rest, lk, ts, e, fl⟩) := by
      simp only [parseStepA]
      rw [if_neg hcond]
    have harith : f + ((y :: rest).length + 1) = (f + (rest.length + 1)) + 1 := by
      simp only [List.length_cons]
      omega
    rw [harith, aRun_step _ hstep, ih]

/-- From the error handler with a clean flag, the machine records the
error and finishes via the recovery loop. -/
theorem reject_any (s : Int) (stk : List Int) (lk : Option Int) (ts : List Int) (f : Nat) :
    aRun (f + (stk.length + 2)) .errorH ⟨s, stk, lk, ts, false, 0⟩ = .adone true := by
  have hstep : parseStepA .errorH ⟨s, stk, lk, ts, false, 0⟩ =
      .inr (.recover, ⟨s, stk, lk, ts, true, 3⟩) := rfl
  have : f + (stk.length + 2) = (f + (stk.length + 1)) + 1 := by omega
  rw [this, aRun_step _ hstep, recover_all]

end Chords

namespace Chords

/-! ## C8: lookahead normalization and the end-of-extras cascade -/

/-- `aEnsure` does not change the current state. -/
theorem aEnsure_ast (a : ASt) : (aEnsure a).ast = a.ast := by
  obtain ⟨s, stk, look, toks, e, fl⟩ := a
  cases look
  · cases toks <;> rfl
  · rfl

/-- `aEnsure` is idempotent. -/
theorem aEnsure_idem (a : ASt) : aEnsure (aEnsure a) = aEnsure a := by
  obtain ⟨s, stk, look, toks, e, fl⟩ := a
  cases look
  · cases toks <;> rfl
  · rfl

/-- At a state whose `Pact` row is live, the first thing `.newstate` does
is draw the lookahead, so pre-drawing it does not change the run. -/
theorem stepA_norm (a : ASt) (hp : ¬ chordPact.getD a.ast.toNat 0 ≤ -1000) :
    parseStepA .newstate (aEnsure a) = parseStepA .newstate a := by
  show (let n := chordPact.getD (aEnsure a).ast.toNat 0;
        if n ≤ -1000 then Sum.inr (MLabel.defaultA, aEnsure a)
        else
          let a' := aEnsure (aEnsure a)
          let tok := a'.look.getD 0
          let n2 := n + tok
          if 0 ≤ n2 ∧ n2 < 90 then
            let s' := chordAct.getD n2.toNat 0
            if chordChk.getD s'.toNat 0 = tok then
              Sum.inr (MLabel.newstate, { a' with
                look := none, stk := s' :: a'.stk, ast := s',
                aflag := if a'.aflag > 0 then a'.aflag - 1 else a'.aflag })
            else Sum.inr (MLabel.defaultA, a')
          else Sum.inr (MLabel.defaultA, a')) =
      (let n := chordPact.getD a.ast.toNat 0;
       if n ≤ -1000 then Sum.inr (MLabel.defaultA, a)
       else
         let a' := aEnsure a
         let tok := a'.look.getD 0
         let n2 := n + tok
         if 0 ≤ n2 ∧ n2 < 90 then
           let s' := chordAct.getD n2.toNat 0
           if chordChk.getD s'.toNat 0 = tok then
             Sum.inr (MLabel.newstate, { a' with
               look := none, stk := s' :: a'.stk, ast := s',
               aflag := if a'.aflag > 0 then a'.aflag - 1 else a'.aflag })
           else Sum.inr (MLabel.defaultA, a')
         else Sum.inr (MLabel.defaultA, a'))
  rw [aEnsure_ast, aEnsure_idem]
  rw [if_neg hp, if_neg hp]

/-- Run-level version of `stepA_norm`. -/
theorem aRun_norm (f : Nat) (a : ASt) (hp : ¬ chordPact.getD a.ast.toNat 0 ≤ -1000) :
    aRun f .newstate (aEnsure a) = aRun f .newstate a := by
  cases f with
  | zero => rfl
  | succ g =>
    show (match parseStepA .newstate (aEnsure a) with
          | .inl r => r
          | .inr next => aRun g next.1 next.2) =
         (match parseStepA .newstate a with
          | .inl r => r
          | .inr next => aRun g next.1 next.2)
    rw [stepA_norm a hp]

/-- The analogue of `stepA_norm` for the exception branch (state 1):
`.defaultA` draws the lookahead before scanning `chordExca`. -/
theorem stepA_norm_def (a : ASt) (hd : chordDef.getD a.ast.toNat 0 = -2) :
    parseStepA .defaultA (aEnsure a) = parseStepA .defaultA a := by
  show (let n := chordDef.getD (aEnsure a).ast.toNat 0;
        if n = -2 then
          let a' := aEnsure (aEnsure a)
          match excaAnchor chordExca a'.ast with
          | none => Sum.inl ARes.astuck
          | some block =>
            match excaToken block (a'.look.getD 0) with
            | none => Sum.inl ARes.astuck
            | some m =>
              if m < 0 then Sum.inl (ARes.adone a'.aerr)
              else if m = 0 then Sum.inr (MLabel.errorH, a')
              else Sum.inr (MLabel.reduce m, a')
        else if n = 0 then Sum.inr (MLabel.errorH, aEnsure a)
        else Sum.inr (MLabel.reduce n, aEnsure a)) =
      (let n := chordDef.getD a.ast.toNat 0;
       if n = -2 then
         let a' := aEnsure a
         match excaAnchor chordExca a'.ast with
         | none => Sum.inl ARes.astuck
         | some block =>
           match excaToken block (a'.look.getD 0) with
           | none => Sum.inl ARes.astuck
           | some m =>
             if m < 0 then Sum.inl (ARes.adone a'.aerr)
             else if m = 0 then Sum.inr (MLabel.errorH, a')
             else Sum.inr (MLabel.reduce m, a')
       else if n = 0 then Sum.inr (MLabel.errorH, a)
       else Sum.inr (MLabel.reduce n, a))
  rw [aEnsure_ast, aEnsure_idem]
  rw [if_pos hd, if_pos hd]

/-- Run-level normalization at the accept state: its `Pact` entry is the
fall-through, and `.defaultA` then draws the lookahead itself. -/
theorem aRun_norm_acc (f : Nat) (a : ASt) (hp : chordPact.getD a.ast.toNat 0 ≤ -1000)
    (hd : chordDef.getD a.ast.toNat 0 = -2) :
    aRun f .newstate (aEnsure a) = aRun f .newstate a := by
  cases f with
  | zero => rfl
  | succ g =>
    have h1 : parseStepA .newstate (aEnsure a) = .inr (.defaultA, aEnsure a) := by
      show (let n := chordPact.getD (aEnsure a).ast.toNat 0;
            if n ≤ -1000 then Sum.inr (MLabel.defaultA, aEnsure a) else _) = _
      rw [aEnsure_ast, if_pos hp]
    have h2 : parseStepA .newstate a = .inr (.defaultA, a) := by
      show (let n := chordPact.getD a.ast.toNat 0;
            if n ≤ -1000 then Sum.inr (MLabel.defaultA, a) else _) = _
      rw [if_pos hp]
    rw [aRun_step g h1, aRun_step g h2]
    cases g with
    | zero => rfl
    | succ g' =>
      show (match parseStepA .defaultA (aEnsure a) with
            | .inl r => r
            | .inr next => aRun g' next.1 next.2) =
           (match parseStepA .defaultA a with
            | .inl r => r
            | .inr next => aRun g' next.1 next.2)
      rw [stepA_norm_def a hd]

/-- One round of the end-of-extras cascade: `extras : tone extras` pops a
tone frame. -/
theorem cascade39_round (rest : List Int) (lk : Int) (ts : List Int) (f : Nat) :
    aRun (f + 3) .newstate ⟨39, 39 :: 10 :: 10 :: rest, some lk, ts, false, 0⟩ =
    aRun f .newstate ⟨39, 39 :: 10 :: rest, some lk, ts, false, 0⟩ := rfl

/-- The cascade from the topmost tone frame down to the chord state:
one `extras` reduction per tone frame, then the chord production of the
base, ending at state 2 with the lookahead untouched. -/
theorem cascade39 (b : EBase) : ∀ (n : Nat) (lk : Int) (ts : List Int) (f : Nat),
    aRun (f + (3 * n + 6)) .newstate
      ⟨39, 39 :: 10 :: (List.replicate n 10 ++ b.spine), some lk, ts, false, 0⟩ =
    aRun f .newstate ⟨2, [2, 0], some lk, ts, false, 0⟩ := by
  intro n
  induction n with
  | zero =>
    intro lk ts f
    cases b <;> rfl
  | succ m ih =>
    intro lk ts f
    have harith : f + (3 * (m + 1) + 6) = (f + (3 * m + 6)) + 3 := by omega
    rw [harith, List.replicate_succ, List.cons_append, cascade39_round, ih]

/-- The whole cascade from `.defaultA` at the top of an extras stack. -/
theorem cascadeD (b : EBase) (n : Nat) (lk : Int) (ts : List Int) (f : Nat) :
    aRun (f + (3 * n + 5)) .defaultA
      ⟨(List.replicate n 10 ++ b.spine).headI, List.replicate n 10 ++ b.spine,
        some lk, ts, false, 0⟩ =
    aRun f .newstate ⟨2, [2, 0], some lk, ts, false, 0⟩ := by
  cases n with
  | zero =>
    cases b <;> rfl
  | succ m =>
    have h2 : aRun (f + (3 * (m + 1) + 5)) .defaultA
        ⟨(List.replicate (m + 1) 10 ++ b.spine).headI,
          List.replicate (m + 1) 10 ++ b.spine, some lk, ts, false, 0⟩ =
        aRun (f + (3 * m + 6)) .newstate
          ⟨39, 39 :: 10 :: (List.replicate m 10 ++ b.spine), some lk, ts, false, 0⟩ := by
      rw [show f + (3 * (m + 1) + 5) = (f + (3 * m + 6)) + 2 by omega, List.replicate_succ]
      rfl
    rw [h2, cascade39]

/-- The short cascades from the three extras contexts that carry no tone
frame: after `pitch`, after `pitch SYM_MAJ7`, after `pitch triad`. -/
theorem cascP (lk : Int) (ts : List Int) (f : Nat) :
    aRun (f + 5) .defaultA ⟨3, [3, 0], some lk, ts, false, 0⟩ =
    aRun f .newstate ⟨2, [2, 0], some lk, ts, false, 0⟩ := rfl

theorem cascM (lk : Int) (ts : List Int) (f : Nat) :
    aRun (f + 5) .defaultA ⟨8, [8, 3, 0], some lk, ts, false, 0⟩ =
    aRun f .newstate ⟨2, [2, 0], some lk, ts, false, 0⟩ := rfl

theorem cascT (lk : Int) (ts : List Int) (f : Nat) :
    aRun (f + 5) .defaultA ⟨9, [9, 3, 0], some lk, ts, false, 0⟩ =
    aRun f .newstate ⟨2, [2, 0], some lk, ts, false, 0⟩ := rfl

/-- At state 2 a slash is shifted (towards the bass pitch). -/
theorem step2_slash (ts : List Int) (f : Nat) :
    aRun (f + 1) .newstate ⟨2, [2, 0], some 14, ts, false, 0⟩ =
    aRun f .newstate ⟨5, [5, 2, 0], none, ts, false, 0⟩ := rfl

/-- At state 2 the end token completes `fullChord` and the machine
accepts. -/
theorem step2_accept (ts : List Int) (f : Nat) :
    aRun (f + 5) .newstate ⟨2, [2, 0], some 1, ts, false, 0⟩ = .adone false := rfl

/-- At state 2 any other token still completes `fullChord`, but the
accept state then raises the syntax error. -/
theorem step2_reject (t : Int)
    (ht : t ∈ ([2, 3, 4, 5, 6, 7, 8, 9, 10, 11, 12, 13, 15, 16, 17, 18, 19, 20, 21] :
      List Int)) (ts : List Int) (f : Nat) :
    aRun (f + 9) .newstate ⟨2, [2, 0], some t, ts, false, 0⟩ = .adone true := by
  fin_cases ht <;> rfl

end Chords

namespace Chords

/-! ## C8: one-token transitions between stable configurations

Each lemma steps the erased machine from one stable configuration to
the next, by evaluation.  `σ` is the (irrelevant) part of the stack
below the states the transition inspects. -/

theorem step_c0_4 (ts : List Int) (f : Nat) :
    aRun (f + 1) .newstate ⟨0, [0], none, 4 :: ts, false, 0⟩ =
    aRun f .newstate ⟨4, [4, 0], none, ts, false, 0⟩ := rfl

theorem step_c0_bad (t : Int)
    (ht : t ∈ ([2, 3, 5, 6, 7, 8, 9, 10, 11, 12, 13, 14, 15, 16, 17, 18, 19, 20, 21] :
      List Int)) (ts : List Int) (f : Nat) :
    aRun (f + 5) .newstate ⟨0, [0], none, t :: ts, false, 0⟩ = .adone true := by
  fin_cases ht <;> rfl

theorem step_c0_end (f : Nat) :
    aRun (f + 5) .newstate ⟨0, [0], none, [], false, 0⟩ = .adone true := rfl

theorem step_c1_8 (ts : List Int) (f : Nat) :
    aRun (f + 4) .newstate ⟨4, [4, 0], none, 8 :: ts, false, 0⟩ =
    aRun f .newstate ⟨3, [3, 0], none, ts, false, 0⟩ := rfl

theorem step_c1_del (t : Int)
    (ht : t ∈ ([2, 3, 4, 5, 6, 7, 9, 10, 11, 12, 13, 14, 15, 16, 17, 18, 19, 20, 21] :
      List Int)) (ts : List Int) (f : Nat) :
    aRun (f + 3) .newstate ⟨4, [4, 0], none, t :: ts, false, 0⟩ =
    aRun f .newstate ⟨3, [3, 0], some t, ts, false, 0⟩ := by
  fin_cases ht <;> rfl

theorem step_c1_del_end (f : Nat) :
    aRun (f + 3) .newstate ⟨4, [4, 0], none, [], false, 0⟩ =
    aRun f .newstate ⟨3, [3, 0], some 1, [], false, 0⟩ := rfl

theorem step_val (u v : Int)
    (hu : u ∈ ([3, 7, 8, 9, 10, 33, 36, 46, 47, 48] : List Int))
    (hv : v ∈ ([5, 18, 19, 20, 21] : List Int)) (σ ts : List Int) (f : Nat) :
    aRun (f + 7) .newstate ⟨u, u :: σ, none, v :: ts, false, 0⟩ =
    aRun f .newstate ⟨10, 10 :: u :: σ, none, ts, false, 0⟩ := by
  fin_cases hu <;> fin_cases hv <;> rfl

theorem step_vval (u v : Int)
    (hu : u ∈ ([3, 7, 8, 9, 10, 33, 36, 46, 47, 48] : List Int))
    (hv : v ∈ ([5, 18, 19, 20, 21] : List Int)) (σ ts : List Int) (f : Nat) :
    aRun (f + 7) .newstate ⟨20, 20 :: u :: σ, none, v :: ts, false, 0⟩ =
    aRun f .newstate ⟨10, 10 :: u :: σ, none, ts, false, 0⟩ := by
  fin_cases hu <;> fin_cases hv <;> rfl

theorem step_mod (u m : Int)
    (hu : u ∈ ([7, 8, 9, 10, 33, 36, 46, 47, 48] : List Int))
    (hm : m ∈ ([16, 17] : List Int)) (σ ts : List Int) (f : Nat) :
    aRun (f + 4) .newstate ⟨u, u :: σ, none, m :: ts, false, 0⟩ =
    aRun f .newstate ⟨20, 20 :: u :: σ, none, ts, false, 0⟩ := by
  fin_cases hu <;> fin_cases hm <;> rfl

theorem step_acc8 (u : Int)
    (hu : u ∈ ([3, 7, 8, 10, 33, 36, 46, 47, 48] : List Int)) (σ ts : List Int) (f : Nat) :
    aRun (f + 4) .newstate ⟨u, u :: σ, none, 8 :: ts, false, 0⟩ =
    aRun f .newstate ⟨20, 20 :: u :: σ, none, ts, false, 0⟩ := by
  fin_cases hu <;> rfl

theorem step_triad (x : Int)
    (hx : x ∈ ([9, 10, 11, 12, 13, 16, 17] : List Int)) (σ ts : List Int) (f : Nat) :
    aRun (f + 4) .newstate ⟨3, 3 :: σ, none, x :: ts, false, 0⟩ =
    aRun f .newstate ⟨9, 9 :: 3 :: σ, none, ts, false, 0⟩ := by
  fin_cases hx <;> rfl

theorem step_p6 (σ ts : List Int) (f : Nat) :
    aRun (f + 1) .newstate ⟨3, 3 :: σ, none, 6 :: ts, false, 0⟩ =
    aRun f .newstate ⟨8, 8 :: 3 :: σ, none, ts, false, 0⟩ := rfl

theorem step_p7 (σ ts : List Int) (f : Nat) :
    aRun (f + 1) .newstate ⟨3, 3 :: σ, none, 7 :: ts, false, 0⟩ =
    aRun f .newstate ⟨21, 21 :: 3 :: σ, none, ts, false, 0⟩ := rfl

theorem step_p15 (σ ts : List Int) (f : Nat) :
    aRun (f + 1) .newstate ⟨3, 3 :: σ, none, 15 :: ts, false, 0⟩ =
    aRun f .newstate ⟨7, 7 :: 3 :: σ, none, ts, false, 0⟩ := rfl

theorem step_m15 (σ ts : List Int) (f : Nat) :
    aRun (f + 1) .newstate ⟨8, 8 :: σ, none, 15 :: ts, false, 0⟩ =
    aRun f .newstate ⟨33, 33 :: 8 :: σ, none, ts, false, 0⟩ := rfl

theorem step_t15 (σ ts : List Int) (f : Nat) :
    aRun (f + 1) .newstate ⟨9, 9 :: σ, none, 15 :: ts, false, 0⟩ =
    aRun f .newstate ⟨36, 36 :: 9 :: σ, none, ts, false, 0⟩ := rfl

theorem step_t6 (σ ts : List Int) (f : Nat) :
    aRun (f + 1) .newstate ⟨9, 9 :: σ, none, 6 :: ts, false, 0⟩ =
    aRun f .newstate ⟨37, 37 :: 9 :: σ, none, ts, false, 0⟩ := rfl

theorem step_t8 (σ ts : List Int) (f : Nat) :
    aRun (f + 1) .newstate ⟨9, 9 :: σ, none, 8 :: ts, false, 0⟩ =
    aRun f .newstate ⟨38, 38 :: 9 :: σ, none, ts, false, 0⟩ := rfl

theorem step_tm5 (σ ts : List Int) (f : Nat) :
    aRun (f + 1) .newstate ⟨37, 37 :: σ, none, 5 :: ts, false, 0⟩ =
    aRun f .newstate ⟨47, 47 :: 37 :: σ, none, ts, false, 0⟩ := rfl

theorem step_tm15 (σ ts : List Int) (f : Nat) :
    aRun (f + 1) .newstate ⟨37, 37 :: σ, none, 15 :: ts, false, 0⟩ =
    aRun f .newstate ⟨46, 46 :: 37 :: σ, none, ts, false, 0⟩ := rfl

theorem step_ta15 (σ ts : List Int) (f : Nat) :
    aRun (f + 1) .newstate ⟨38, 38 :: σ, none, 15 :: ts, false, 0⟩ =
    aRun f .newstate ⟨48, 48 :: 38 :: σ, none, ts, false, 0⟩ := rfl

theorem step_ta_del (t : Int)
    (ht : t ∈ ([2, 3, 4, 5, 6, 7, 8, 9, 10, 11, 12, 13, 14, 16, 17, 18, 19, 20, 21] :
      List Int)) (σ ts : List Int) (f : Nat) :
    aRun (f + 3) .newstate ⟨38, 38 :: 9 :: σ, none, t :: ts, false, 0⟩ =
    aRun f .newstate ⟨20, 20 :: 9 :: σ, some t, ts, false, 0⟩ := by
  fin_cases ht <;> rfl

theorem step_ta_del_end (σ : List Int) (f : Nat) :
    aRun (f + 3) .newstate ⟨38, 38 :: 9 :: σ, none, [], false, 0⟩ =
    aRun f .newstate ⟨20, 20 :: 9 :: σ, some 1, [], false, 0⟩ := rfl

theorem step_s1_18 (σ ts : List Int) (f : Nat) :
    aRun (f + 7) .newstate ⟨21, 21 :: 3 :: σ, none, 18 :: ts, false, 0⟩ =
    aRun f .newstate ⟨9, 9 :: 3 :: σ, none, ts, false, 0⟩ := rfl

theorem step_s1_19 (σ ts : List Int) (f : Nat) :
    aRun (f + 7) .newstate ⟨21, 21 :: 3 :: σ, none, 19 :: ts, false, 0⟩ =
    aRun f .newstate ⟨9, 9 :: 3 :: σ, none, ts, false, 0⟩ := rfl

theorem step_s1_8 (σ ts : List Int) (f : Nat) :
    aRun (f + 1) .newstate ⟨21, 21 :: σ, none, 8 :: ts, false, 0⟩ =
    aRun f .newstate ⟨42, 42 :: 21 :: σ, none, ts, false, 0⟩ := rfl

theorem step_s2_18 (σ ts : List Int) (f : Nat) :
    aRun (f + 7) .newstate ⟨42, 42 :: 21 :: 3 :: σ, none, 18 :: ts, false, 0⟩ =
    aRun f .newstate ⟨9, 9 :: 3 :: σ, none, ts, false, 0⟩ := rfl

theorem step_s2_19 (σ ts : List Int) (f : Nat) :
    aRun (f + 7) .newstate ⟨42, 42 :: 21 :: 3 :: σ, none, 19 :: ts, false, 0⟩ =
    aRun f .newstate ⟨9, 9 :: 3 :: σ, none, ts, false, 0⟩ := rfl

theorem step_b1_4 (σ ts : List Int) (f : Nat) :
    aRun (f + 1) .newstate ⟨5, 5 :: σ, none, 4 :: ts, false, 0⟩ =
    aRun f .newstate ⟨4, 4 :: 5 :: σ, none, ts, false, 0⟩ := rfl

theorem step_b2_8 (σ ts : List Int) (f : Nat) :
    aRun (f + 7) .newstate ⟨4, 4 :: 5 :: 2 :: 0 :: σ, none, 8 :: ts, false, 0⟩ =
    aRun f .newstate ⟨1, 1 :: 0 :: σ, none, ts, false, 0⟩ := rfl

theorem step_b2_del (t : Int)
    (ht : t ∈ ([2, 3, 4, 5, 6, 7, 9, 10, 11, 12, 13, 14, 15, 16, 17, 18, 19, 20, 21] :
      List Int)) (σ ts : List Int) (f : Nat) :
    aRun (f + 6) .newstate ⟨4, 4 :: 5 :: 2 :: 0 :: σ, none, t :: ts, false, 0⟩ =
    aRun f .newstate ⟨1, 1 :: 0 :: σ, some t, ts, false, 0⟩ := by
  fin_cases ht <;> rfl

theorem step_b2_del_end (σ : List Int) (f : Nat) :
    aRun (f + 6) .newstate ⟨4, 4 :: 5 :: 2 :: 0 :: σ, none, [], false, 0⟩ =
    aRun f .newstate ⟨1, 1 :: 0 :: σ, some 1, [], false, 0⟩ := rfl

theorem step_acc_end (stk : List Int) (f : Nat) :
    aRun (f + 2) .newstate ⟨1, stk, none, [], false, 0⟩ = .adone false := rfl

theorem step_acc_bad (t : Int)
    (ht : t ∈ ([2, 3, 4, 5, 6, 7, 8, 9, 10, 11, 12, 13, 14, 15, 16, 17, 18, 19, 20, 21] :
      List Int)) (stk ts : List Int) (f : Nat) :
    aRun (f + (stk.length + 4)) .newstate ⟨1, stk, none, t :: ts, false, 0⟩ = .adone true := by
  have h1 : parseStepA .newstate ⟨1, stk, none, t :: ts, false, 0⟩ =
      .inr (.defaultA, ⟨1, stk, none, t :: ts, false, 0⟩) := rfl
  have h2 : parseStepA .defaultA ⟨1, stk, none, t :: ts, false, 0⟩ =
      .inr (.errorH, ⟨1, stk, some t, ts, false, 0⟩) := by
    fin_cases ht <;> rfl
  rw [show f + (stk.length + 4) = ((f + (stk.length + 2)) + 1) + 1 by omega,
    aRun_step _ h1, aRun_step _ h2]
  exact reject_any _ _ _ _ _

theorem step_v_reject (t : Int)
    (ht : t ∈ ([2, 3, 4, 6, 7, 8, 9, 10, 11, 12, 13, 14, 15, 16, 17] : List Int))
    (stk ts : List Int) (f : Nat) :
    aRun (f + (stk.length + 4)) .newstate ⟨20, stk, none, t :: ts, false, 0⟩ = .adone true := by
  have h1 : parseStepA .newstate ⟨20, stk, none, t :: ts, false, 0⟩ =
      .inr (.defaultA, ⟨20, stk, some t, ts, false, 0⟩) := by
    fin_cases ht <;> rfl
  have h2 : parseStepA .defaultA ⟨20, stk, some t, ts, false, 0⟩ =
      .inr (.errorH, ⟨20, stk, some t, ts, false, 0⟩) := rfl
  rw [show f + (stk.length + 4) = ((f + (stk.length + 2)) + 1) + 1 by omega,
    aRun_step _ h1, aRun_step _ h2]
  exact reject_any _ _ _ _ _

theorem step_v_reject_end (stk : List Int) (f : Nat) :
    aRun (f + (stk.length + 4)) .newstate ⟨20, stk, none, [], false, 0⟩ = .adone true := by
  have h1 : parseStepA .newstate ⟨20, stk, none, [], false, 0⟩ =
      .inr (.defaultA, ⟨20, stk, some 1, [], false, 0⟩) := rfl
  have h2 : parseStepA .defaultA ⟨20, stk, some 1, [], false, 0⟩ =
      .inr (.errorH, ⟨20, stk, some 1, [], false, 0⟩) := rfl
  rw [show f + (stk.length + 4) = ((f + (stk.length + 2)) + 1) + 1 by omega,
    aRun_step _ h1, aRun_step _ h2]
  exact reject_any _ _ _ _ _

theorem step_tm_reject (t : Int)
    (ht : t ∈ ([2, 3, 4, 6, 7, 8, 9, 10, 11, 12, 13, 14, 16, 17, 18, 19, 20, 21] : List Int))
    (ts : List Int) (f : Nat) :
    aRun (f + 8) .newstate ⟨37, [37, 9, 3, 0], none, t :: ts, false, 0⟩ = .adone true := by
  fin_cases ht <;> rfl

theorem step_tm_reject_end (f : Nat) :
    aRun (f + 8) .newstate ⟨37, [37, 9, 3, 0], none, [], false, 0⟩ = .adone true := rfl

theorem step_s1_reject (t : Int)
    (ht : t ∈ ([2, 3, 4, 5, 6, 7, 9, 10, 11, 12, 13, 14, 15, 16, 17, 20, 21] : List Int))
    (ts : List Int) (f : Nat) :
    aRun (f + 7) .newstate ⟨21, [21, 3, 0], none, t :: ts, false, 0⟩ = .adone true := by
  fin_cases ht <;> rfl

theorem step_s1_reject_end (f : Nat) :
    aRun (f + 7) .newstate ⟨21, [21, 3, 0], none, [], false, 0⟩ = .adone true := rfl

theorem step_s2_reject (t : Int)
    (ht : t ∈ ([2, 3, 4, 5, 6, 7, 8, 9, 10, 11, 12, 13, 14, 15, 16, 17, 20, 21] : List Int))
    (ts : List Int) (f : Nat) :
    aRun (f + 8) .newstate ⟨42, [42, 21, 3, 0], none, t :: ts, false, 0⟩ = .adone true := by
  fin_cases ht <;> rfl

theorem step_s2_reject_end (f : Nat) :
    aRun (f + 8) .newstate ⟨42, [42, 21, 3, 0], none, [], false, 0⟩ = .adone true := rfl

theorem step_b1_reject (t : Int)
    (ht : t ∈ ([2, 3, 5, 6, 7, 8, 9, 10, 11, 12, 13, 14, 15, 16, 17, 18, 19, 20, 21] :
      List Int)) (ts : List Int) (f : Nat) :
    aRun (f + 7) .newstate ⟨5, [5, 2, 0], none, t :: ts, false, 0⟩ = .adone true := by
  fin_cases ht <;> rfl

theorem step_b1_reject_end (f : Nat) :
    aRun (f + 7) .newstate ⟨5, [5, 2, 0], none, [], false, 0⟩ = .adone true := rfl

theorem step_noshift_ex (u t : Int)
    (hu : u ∈ ([7, 10, 33, 36, 46, 47, 48] : List Int))
    (ht : t ∈ ([2, 3, 4, 6, 7, 9, 10, 11, 12, 13, 14, 15] : List Int))
    (stk ts : List Int) (f : Nat) :
    aRun (f + 1) .newstate ⟨u, stk, none, t :: ts, false, 0⟩ =
    aRun f .defaultA ⟨u, stk, some t, ts, false, 0⟩ := by
  fin_cases hu <;> fin_cases ht <;> rfl

theorem step_noshift_ex_end (u : Int)
    (hu : u ∈ ([7, 10, 33, 36, 46, 47, 48] : List Int)) (stk : List Int) (f : Nat) :
    aRun (f + 1) .newstate ⟨u, stk, none, [], false, 0⟩ =
    aRun f .defaultA ⟨u, stk, some 1, [], false, 0⟩ := by
  fin_cases hu <;> rfl

theorem step_noshift_3 (t : Int) (ht : t ∈ ([2, 3, 4, 14] : List Int))
    (stk ts : List Int) (f : Nat) :
    aRun (f + 1) .newstate ⟨3, stk, none, t :: ts, false, 0⟩ =
    aRun f .defaultA ⟨3, stk, some t, ts, false, 0⟩ := by
  fin_cases ht <;> rfl

theorem step_noshift_3_end (stk : List Int) (f : Nat) :
    aRun (f + 1) .newstate ⟨3, stk, none, [], false, 0⟩ =
    aRun f .defaultA ⟨3, stk, some 1, [], false, 0⟩ := rfl

theorem step_noshift_8 (t : Int)
    (ht : t ∈ ([2, 3, 4, 6, 7, 9, 10, 11, 12, 13, 14] : List Int))
    (stk ts : List Int) (f : Nat) :
    aRun (f + 1) .newstate ⟨8, stk, none, t :: ts, false, 0⟩ =
    aRun f .defaultA ⟨8, stk, some t, ts, false, 0⟩ := by
  fin_cases ht <;> rfl

theorem step_noshift_8_end (stk : List Int) (f : Nat) :
    aRun (f + 1) .newstate ⟨8, stk, none, [], false, 0⟩ =
    aRun f .defaultA ⟨8, stk, some 1, [], false, 0⟩ := rfl

theorem step_noshift_9 (t : Int)
    (ht : t ∈ ([2, 3, 4, 7, 9, 10, 11, 12, 13, 14] : List Int))
    (stk ts : List Int) (f : Nat) :
    aRun (f + 1) .newstate ⟨9, stk, none, t :: ts, false, 0⟩ =
    aRun f .defaultA ⟨9, stk, some t, ts, false, 0⟩ := by
  fin_cases ht <;> rfl

theorem step_noshift_9_end (stk : List Int) (f : Nat) :
    aRun (f + 1) .newstate ⟨9, stk, none, [], false, 0⟩ =
    aRun f .defaultA ⟨9, stk, some 1, [], false, 0⟩ := rfl

end Chords

namespace Chords

/-! ## C8: shapes of the grammar's nonterminals -/

theorem gtoneval_of {v : Int} (hv : isValTok v) : GToneVal [v] := by
  rcases hv with rfl | rfl | rfl | rfl | rfl
  exacts [GToneVal.tone, GToneVal.two, GToneVal.four, GToneVal.five, GToneVal.six]

theorem gtonemod_of {m : Int} (hm : isModTok m) : GToneMod [m] := by
  rcases hm with rfl | rfl | rfl
  exacts [GToneMod.dash, GToneMod.plus, GToneMod.acc]

theorem gtoneval_shape {x : List Int} (h : GToneVal x) : ∃ v, isValTok v ∧ x = [v] := by
  cases h with
  | tone => exact ⟨5, Or.inl rfl, rfl⟩
  | two => exact ⟨18, Or.inr (Or.inl rfl), rfl⟩
  | four => exact ⟨19, Or.inr (Or.inr (Or.inl rfl)), rfl⟩
  | five => exact ⟨20, Or.inr (Or.inr (Or.inr (Or.inl rfl))), rfl⟩
  | six => exact ⟨21, Or.inr (Or.inr (Or.inr (Or.inr rfl))), rfl⟩

theorem gtonemod_shape {x : List Int} (h : GToneMod x) : ∃ m, isModTok m ∧ x = [m] := by
  cases h with
  | dash => exact ⟨16, Or.inl rfl, rfl⟩
  | plus => exact ⟨17, Or.inr (Or.inl rfl), rfl⟩
  | acc => exact ⟨8, Or.inr (Or.inr rfl), rfl⟩

theorem gtone_shape {x : List Int} (h : GTone x) :
    (∃ v, isValTok v ∧ x = [v]) ∨ ∃ m v, isModTok m ∧ isValTok v ∧ x = [m, v] := by
  cases h with
  | val hv => exact Or.inl (gtoneval_shape hv)
  | modVal hm hv =>
    obtain ⟨m, hm', rfl⟩ := gtonemod_shape hm
    obtain ⟨v, hv', rfl⟩ := gtoneval_shape hv
    exact Or.inr ⟨m, v, hm', hv', rfl⟩

theorem gextras_val {v : Int} {e : List Int} (hv : isValTok v) (he : GExtras e) :
    GExtras (v :: e) :=
  GExtras.cons (GTone.val (gtoneval_of hv)) he

theorem gextras_mod {m v : Int} {e : List Int} (hm : isModTok m) (hv : isValTok v)
    (he : GExtras e) : GExtras (m :: v :: e) :=
  GExtras.cons (GTone.modVal (gtonemod_of hm) (gtoneval_of hv)) he

theorem gextras_shape {e : List Int} (h : GExtras e) :
    e = [] ∨ (∃ v e', isValTok v ∧ GExtras e' ∧ e = v :: e') ∨
      ∃ m v e', isModTok m ∧ isValTok v ∧ GExtras e' ∧ e = m :: v :: e' := by
  cases h with
  | nil => exact Or.inl rfl
  | cons ht he =>
    rcases gtone_shape ht with ⟨v, hv, rfl⟩ | ⟨m, v, hm, hv, rfl⟩
    · exact Or.inr (Or.inl ⟨v, _, hv, he, rfl⟩)
    · exact Or.inr (Or.inr ⟨m, v, _, hm, hv, he, rfl⟩)

theorem gpitch_shape {p : List Int} (h : GPitch p) : p = [4] ∨ p = [4, 8] := by
  cases h
  · exact Or.inl rfl
  · exact Or.inr rfl

theorem gtriad_of_single {x : Int}
    (hx : x = 9 ∨ x = 10 ∨ x = 11 ∨ x = 12 ∨ x = 13 ∨ x = 16 ∨ x = 17) : GTriad [x] := by
  rcases hx with rfl | rfl | rfl | rfl | rfl | rfl | rfl
  exacts [GTriad.min, GTriad.dim, GTriad.hdim, GTriad.fdim, GTriad.aug,
    GTriad.dash, GTriad.plus]

theorem gtriad_shape {t : List Int} (h : GTriad t) :
    t = [9] ∨ t = [16] ∨ t = [10] ∨ t = [11] ∨ t = [12] ∨ t = [13] ∨ t = [17] ∨
    t = [7, 18] ∨ t = [7, 8, 18] ∨ t = [7, 19] ∨ t = [7, 8, 19] := by
  cases h with
  | min => exact Or.inl rfl
  | dash => exact Or.inr (Or.inl rfl)
  | dim => exact Or.inr (Or.inr (Or.inl rfl))
  | hdim => exact Or.inr (Or.inr (Or.inr (Or.inl rfl)))
  | fdim => exact Or.inr (Or.inr (Or.inr (Or.inr (Or.inl rfl))))
  | aug => exact Or.inr (Or.inr (Or.inr (Or.inr (Or.inr (Or.inl rfl)))))
  | plus => exact Or.inr (Or.inr (Or.inr (Or.inr (Or.inr (Or.inr (Or.inl rfl))))))
  | sus hs =>
    cases hs with
    | two => simp
    | accTwo => simp
    | four => simp
    | accFour => simp

theorem semB_nil : SemB [] := Or.inl rfl

theorem semB_shape {v : List Int} (h : SemB v) : v = [] ∨ v = [14, 4] ∨ v = [14, 4, 8] := by
  rcases h with rfl | ⟨p, hp, rfl⟩
  · exact Or.inl rfl
  · rcases gpitch_shape hp with rfl | rfl
    · exact Or.inr (Or.inl rfl)
    · exact Or.inr (Or.inr rfl)

/-! ## C8: one-token derivatives of the remaining languages -/

theorem semE_nil : SemE [] := ⟨[], [], GExtras.nil, semB_nil, rfl⟩

theorem semE_val {x : Int} {ts : List Int} (hv : isValTok x) (h : SemE ts) :
    SemE (x :: ts) := by
  obtain ⟨e, bv, he, hb, rfl⟩ := h
  exact ⟨x :: e, bv, gextras_val hv he, hb, rfl⟩

theorem semE_of_semV {ts : List Int} (h : SemV ts) : SemE ts := by
  obtain ⟨w, e, bv, hw, he, hb, rfl⟩ := h
  obtain ⟨v, hv, rfl⟩ := gtoneval_shape hw
  exact ⟨v :: e, bv, gextras_val hv he, hb, rfl⟩

theorem semE_mod {x : Int} {ts : List Int} (hm : isModTok x) (h : SemV ts) :
    SemE (x :: ts) := by
  obtain ⟨w, e, bv, hw, he, hb, rfl⟩ := h
  obtain ⟨v, hv, rfl⟩ := gtoneval_shape hw
  exact ⟨x :: v :: e, bv, gextras_mod hm hv he, hb, rfl⟩

theorem semE_14 {ts : List Int} (h : GPitch ts) : SemE (14 :: ts) :=
  ⟨[], 14 :: ts, GExtras.nil, Or.inr ⟨ts, h, rfl⟩, rfl⟩

theorem semE_cons {x : Int} {ts : List Int} (h : SemE (x :: ts)) :
    (isValTok x ∧ SemE ts) ∨ (isModTok x ∧ SemV ts) ∨ (x = 14 ∧ GPitch ts) := by
  obtain ⟨e, bv, he, hb, heq⟩ := h
  rcases gextras_shape he with rfl | ⟨v, e', hv, he', rfl⟩ | ⟨m, v, e', hm, hv, he', rfl⟩
  · rw [List.nil_append] at heq
    subst heq
    rcases semB_shape hb with h' | h' | h'
    · cases h'
    · injection h' with h1 h2
      subst h1
      subst h2
      exact Or.inr (Or.inr ⟨rfl, GPitch.note⟩)
    · injection h' with h1 h2
      subst h1
      subst h2
      exact Or.inr (Or.inr ⟨rfl, GPitch.noteAcc⟩)
  · rw [List.cons_append] at heq
    injection heq with h1 h2
    subst h1
    exact Or.inl ⟨hv, e', bv, he', hb, h2⟩
  · rw [List.cons_append, List.cons_append] at heq
    injection heq with h1 h2
    subst h1
    refine Or.inr (Or.inl ⟨hm, [v], e', bv, gtoneval_of hv, he', hb, ?_⟩)
    rw [h2]
    rfl

theorem semE_iff_val {x : Int} {ts : List Int} (hv : isValTok x) :
    SemE (x :: ts) ↔ SemE ts := by
  refine ⟨fun h => ?_, semE_val hv⟩
  rcases semE_cons h with ⟨_, h⟩ | ⟨hm, _⟩ | ⟨h14, _⟩
  · exact h
  · rcases hv with rfl | rfl | rfl | rfl | rfl <;> rcases hm with h' | h' | h' <;> omega
  · rcases hv with rfl | rfl | rfl | rfl | rfl <;> omega

theorem semE_iff_mod {x : Int} {ts : List Int} (hm : isModTok x) :
    SemE (x :: ts) ↔ SemV ts := by
  refine ⟨fun h => ?_, semE_mod hm⟩
  rcases semE_cons h with ⟨hv, _⟩ | ⟨_, h⟩ | ⟨h14, _⟩
  · rcases hv with rfl | rfl | rfl | rfl | rfl <;> rcases hm with h' | h' | h' <;> omega
  · exact h
  · rcases hm with rfl | rfl | rfl <;> omega

theorem semE_iff_14 {ts : List Int} : SemE (14 :: ts) ↔ GPitch ts := by
  refine ⟨fun h => ?_, semE_14⟩
  rcases semE_cons h with ⟨hv, _⟩ | ⟨hm, _⟩ | ⟨_, h⟩
  · rcases hv with h' | h' | h' | h' | h' <;> omega
  · rcases hm with h' | h' | h' <;> omega
  · exact h

theorem semE_not {x : Int} {ts : List Int} (hv : ¬ isValTok x) (hm : ¬ isModTok x)
    (h14 : x ≠ 14) : ¬ SemE (x :: ts) := by
  intro h
  rcases semE_cons h with ⟨h', _⟩ | ⟨h', _⟩ | ⟨h', _⟩
  · exact hv h'
  · exact hm h'
  · exact h14 h'

theorem semV_nil : ¬ SemV [] := by
  rintro ⟨w, e, bv, hw, he, hb, heq⟩
  obtain ⟨v, hv, rfl⟩ := gtoneval_shape hw
  cases heq

theorem semV_cons {x : Int} {ts : List Int} (h : SemV (x :: ts)) :
    isValTok x ∧ SemE ts := by
  obtain ⟨w, e, bv, hw, he, hb, heq⟩ := h
  obtain ⟨v, hv, rfl⟩ := gtoneval_shape hw
  simp only [List.cons_append, List.nil_append] at heq
  injection heq with h1 h2
  subst h1
  exact ⟨hv, e, bv, he, hb, h2⟩

theorem semV_of {x : Int} {ts : List Int} (hv : isValTok x) (h : SemE ts) :
    SemV (x :: ts) := by
  obtain ⟨e, bv, he, hb, rfl⟩ := h
  exact ⟨[x], e, bv, gtoneval_of hv, he, hb, rfl⟩

theorem semV_iff {x : Int} {ts : List Int} (hv : isValTok x) : SemV (x :: ts) ↔ SemE ts :=
  ⟨fun h => (semV_cons h).2, semV_of hv⟩

theorem semV_not {x : Int} {ts : List Int} (hx : ¬ isValTok x) : ¬ SemV (x :: ts) :=
  fun h => hx (semV_cons h).1

end Chords

namespace Chords

theorem semT_nil : SemT [] := ⟨[], [], GExtras.nil, semB_nil, Or.inl rfl⟩

theorem semT_of_semE {ts : List Int} (h : SemE ts) : SemT ts := by
  obtain ⟨e, bv, he, hb, rfl⟩ := h
  exact ⟨e, bv, he, hb, Or.inl rfl⟩

theorem semT_cons {x : Int} {ts : List Int} (h : SemT (x :: ts)) :
    (isValTok x ∧ SemE ts) ∨ (isModTok x ∧ SemV ts) ∨ (x = 14 ∧ GPitch ts) ∨
    (x = 15 ∧ SemE ts) ∨
    (x = 6 ∧ ((∃ r, ts = 15 :: r ∧ SemE r) ∨ ∃ r, ts = 5 :: r ∧ SemE r)) ∨
    (x = 8 ∧ ((∃ r, ts = 15 :: r ∧ SemE r) ∨ SemV ts)) := by
  obtain ⟨e, bv, he, hb, hd⟩ := h
  rcases hd with heq | heq | heq | heq | heq
  · rcases semE_cons ⟨e, bv, he, hb, heq⟩ with h' | h' | h'
    · exact Or.inl h'
    · exact Or.inr (Or.inl h')
    · exact Or.inr (Or.inr (Or.inl h'))
  · injection heq with h1 h2
    subst h1
    exact Or.inr (Or.inr (Or.inr (Or.inl ⟨rfl, e, bv, he, hb, h2⟩)))
  · injection heq with h1 h2
    subst h1
    exact Or.inr (Or.inr (Or.inr (Or.inr (Or.inl ⟨rfl,
      Or.inl ⟨e ++ bv, h2, e, bv, he, hb, rfl⟩⟩))))
  · injection heq with h1 h2
    subst h1
    exact Or.inr (Or.inr (Or.inr (Or.inr (Or.inl ⟨rfl,
      Or.inr ⟨e ++ bv, h2, e, bv, he, hb, rfl⟩⟩))))
  · injection heq with h1 h2
    subst h1
    exact Or.inr (Or.inr (Or.inr (Or.inr (Or.inr ⟨rfl,
      Or.inl ⟨e ++ bv, h2, e, bv, he, hb, rfl⟩⟩))))

theorem semT_iff_val {x : Int} {ts : List Int} (hv : isValTok x) :
    SemT (x :: ts) ↔ SemE ts := by
  refine ⟨fun h => ?_, fun h => semT_of_semE (semE_val hv h)⟩
  rcases semT_cons h with ⟨_, h⟩ | ⟨hm, _⟩ | ⟨h', _⟩ | ⟨h', _⟩ | ⟨h', _⟩ | ⟨h', _⟩
  · exact h
  · rcases hv with rfl | rfl | rfl | rfl | rfl <;> rcases hm with h' | h' | h' <;> omega
  all_goals rcases hv with rfl | rfl | rfl | rfl | rfl <;> omega

theorem semT_iff_mod {x : Int} {ts : List Int} (hm : x = 16 ∨ x = 17) :
    SemT (x :: ts) ↔ SemV ts := by
  have hm' : isModTok x := by rcases hm with rfl | rfl
                              · exact Or.inl rfl
                              · exact Or.inr (Or.inl rfl)
  refine ⟨fun h => ?_, fun h => semT_of_semE (semE_mod hm' h)⟩
  rcases semT_cons h with ⟨hv, _⟩ | ⟨_, h⟩ | ⟨h', _⟩ | ⟨h', _⟩ | ⟨h', _⟩ | ⟨h', _⟩
  · rcases hv with h' | h' | h' | h' | h' <;> rcases hm with rfl | rfl <;> omega
  · exact h
  all_goals rcases hm with rfl | rfl <;> omega

theorem semT_iff_15 {ts : List Int} : SemT (15 :: ts) ↔ SemE ts := by
  refine ⟨fun h => ?_, fun h => ?_⟩
  · rcases semT_cons h with ⟨hv, _⟩ | ⟨hm, _⟩ | ⟨h', _⟩ | ⟨_, h⟩ | ⟨h', _⟩ | ⟨h', _⟩
    · rcases hv with h' | h' | h' | h' | h' <;> omega
    · rcases hm with h' | h' | h' <;> omega
    · omega
    · exact h
    · omega
    · omega
  · obtain ⟨e, bv, he, hb, rfl⟩ := h
    exact ⟨e, bv, he, hb, Or.inr (Or.inl rfl)⟩

theorem semT_iff_6 {ts : List Int} :
    SemT (6 :: ts) ↔ ((∃ r, ts = 15 :: r ∧ SemE r) ∨ ∃ r, ts = 5 :: r ∧ SemE r) := by
  refine ⟨fun h => ?_, fun h => ?_⟩
  · rcases semT_cons h with ⟨hv, _⟩ | ⟨hm, _⟩ | ⟨h', _⟩ | ⟨h', _⟩ | ⟨_, h⟩ | ⟨h', _⟩
    · rcases hv with h' | h' | h' | h' | h' <;> omega
    · rcases hm with h' | h' | h' <;> omega
    · omega
    · omega
    · exact h
    · omega
  · rcases h with ⟨r, rfl, hr⟩ | ⟨r, rfl, hr⟩ <;> obtain ⟨e, bv, he, hb, rfl⟩ := hr
    · exact ⟨e, bv, he, hb, Or.inr (Or.inr (Or.inl rfl))⟩
    · exact ⟨e, bv, he, hb, Or.inr (Or.inr (Or.inr (Or.inl rfl)))⟩

theorem semT_iff_8 {ts : List Int} :
    SemT (8 :: ts) ↔ ((∃ r, ts = 15 :: r ∧ SemE r) ∨ SemV ts) := by
  refine ⟨fun h => ?_, fun h => ?_⟩
  · rcases semT_cons h with ⟨hv, _⟩ | ⟨_, h⟩ | ⟨h', _⟩ | ⟨h', _⟩ | ⟨h', _⟩ | ⟨_, h⟩
    · rcases hv with h' | h' | h' | h' | h' <;> omega
    · exact Or.inr h
    · omega
    · omega
    · omega
    · exact h
  · rcases h with ⟨r, rfl, hr⟩ | hr
    · obtain ⟨e, bv, he, hb, rfl⟩ := hr
      exact ⟨e, bv, he, hb, Or.inr (Or.inr (Or.inr (Or.inr rfl)))⟩
    · exact semT_of_semE (semE_mod (Or.inr (Or.inr rfl)) hr)

theorem semT_iff_14 {ts : List Int} : SemT (14 :: ts) ↔ GPitch ts := by
  refine ⟨fun h => ?_, fun h => semT_of_semE (semE_14 h)⟩
  rcases semT_cons h with ⟨hv, _⟩ | ⟨hm, _⟩ | ⟨_, h⟩ | ⟨h', _⟩ | ⟨h', _⟩ | ⟨h', _⟩
  · rcases hv with h' | h' | h' | h' | h' <;> omega
  · rcases hm with h' | h' | h' <;> omega
  · exact h
  all_goals omega

theorem semT_not {x : Int} {ts : List Int}
    (hx : x = 2 ∨ x = 3 ∨ x = 4 ∨ x = 7 ∨ x = 9 ∨ x = 10 ∨ x = 11 ∨ x = 12 ∨ x = 13) :
    ¬ SemT (x :: ts) := by
  intro h
  rcases semT_cons h with ⟨hv, _⟩ | ⟨hm, _⟩ | ⟨h', _⟩ | ⟨h', _⟩ | ⟨h', _⟩ | ⟨h', _⟩
  · rcases hv with h' | h' | h' | h' | h' <;> omega
  · rcases hm with h' | h' | h' <;> omega
  all_goals omega

theorem semP_nil : SemP [] := Or.inl ⟨[], [], GExtras.nil, semB_nil, Or.inl rfl⟩

theorem semP_of_semE {ts : List Int} (h : SemE ts) : SemP ts := by
  obtain ⟨e, bv, he, hb, rfl⟩ := h
  exact Or.inl ⟨e, bv, he, hb, Or.inl rfl⟩

theorem semP_cons {x : Int} {ts : List Int} (h : SemP (x :: ts)) :
    (isValTok x ∧ SemE ts) ∨ (isModTok x ∧ SemV ts) ∨ (x = 14 ∧ GPitch ts) ∨
    (x = 15 ∧ SemE ts) ∨
    (x = 6 ∧ ((∃ r, ts = 15 :: r ∧ SemE r) ∨ SemE ts)) ∨
    ((x = 9 ∨ x = 10 ∨ x = 11 ∨ x = 12 ∨ x = 13 ∨ x = 16 ∨ x = 17) ∧ SemT ts) ∨
    (x = 7 ∧ ∃ r, SemT r ∧
      (ts = 18 :: r ∨ ts = 19 :: r ∨ ts = 8 :: 18 :: r ∨ ts = 8 :: 19 :: r)) := by
  rcases h with ⟨e, bv, he, hb, hd⟩ | ⟨t, r, ht, hr, heq⟩
  · rcases hd with heq | heq | heq | heq
    · rcases semE_cons ⟨e, bv, he, hb, heq⟩ with h' | h' | h'
      · exact Or.inl h'
      · exact Or.inr (Or.inl h')
      · exact Or.inr (Or.inr (Or.inl h'))
    · injection heq with h1 h2
      subst h1
      exact Or.inr (Or.inr (Or.inr (Or.inl ⟨rfl, e, bv, he, hb, h2⟩)))
    · injection heq with h1 h2
      subst h1
      exact Or.inr (Or.inr (Or.inr (Or.inr (Or.inl ⟨rfl,
        Or.inl ⟨e ++ bv, h2, e, bv, he, hb, rfl⟩⟩))))
    · injection heq with h1 h2
      subst h1
      exact Or.inr (Or.inr (Or.inr (Or.inr (Or.inl ⟨rfl,
        Or.inr ⟨e, bv, he, hb, h2⟩⟩))))
  · rcases gtriad_shape ht with rfl | rfl | rfl | rfl | rfl | rfl | rfl | rfl | rfl | rfl | rfl
    all_goals simp only [List.cons_append, List.nil_append] at heq
    all_goals injection heq with h1 h2
    all_goals subst h1
    · exact Or.inr (Or.inr (Or.inr (Or.inr (Or.inr (Or.inl ⟨Or.inl rfl, h2 ▸ hr⟩)))))
    · exact Or.inr (Or.inr (Or.inr (Or.inr (Or.inr (Or.inl
        ⟨Or.inr (Or.inr (Or.inr (Or.inr (Or.inr (Or.inl rfl))))), h2 ▸ hr⟩)))))
    · exact Or.inr (Or.inr (Or.inr (Or.inr (Or.inr (Or.inl
        ⟨Or.inr (Or.inl rfl), h2 ▸ hr⟩)))))
    · exact Or.inr (Or.inr (Or.inr (Or.inr (Or.inr (Or.inl
        ⟨Or.inr (Or.inr (Or.inl rfl)), h2 ▸ hr⟩)))))
    · exact Or.inr (Or.inr (Or.inr (Or.inr (Or.inr (Or.inl
        ⟨Or.inr (Or.inr (Or.inr (Or.inl rfl))), h2 ▸ hr⟩)))))
    · exact Or.inr (Or.inr (Or.inr (Or.inr (Or.inr (Or.inl
        ⟨Or.inr (Or.inr (Or.inr (Or.inr (Or.inl rfl)))), h2 ▸ hr⟩)))))
    · exact Or.inr (Or.inr (Or.inr (Or.inr (Or.inr (Or.inl
        ⟨Or.inr (Or.inr (Or.inr (Or.inr (Or.inr (Or.inr rfl))))), h2 ▸ hr⟩)))))
    · exact Or.inr (Or.inr (Or.inr (Or.inr (Or.inr (Or.inr
        ⟨rfl, r, hr, Or.inl h2⟩)))))
    · exact Or.inr (Or.inr (Or.inr (Or.inr (Or.inr (Or.inr
        ⟨rfl, r, hr, Or.inr (Or.inr (Or.inl h2))⟩)))))
    · exact Or.inr (Or.inr (Or.inr (Or.inr (Or.inr (Or.inr
        ⟨rfl, r, hr, Or.inr (Or.inl h2)⟩)))))
    · exact Or.inr (Or.inr (Or.inr (Or.inr (Or.inr (Or.inr
        ⟨rfl, r, hr, Or.inr (Or.inr (Or.inr h2))⟩)))))

theorem semP_of_triad {x : Int} {ts : List Int}
    (hx : x = 9 ∨ x = 10 ∨ x = 11 ∨ x = 12 ∨ x = 13 ∨ x = 16 ∨ x = 17)
    (h : SemT ts) : SemP (x :: ts) :=
  Or.inr ⟨[x], ts, gtriad_of_single hx, h, rfl⟩

theorem semP_iff_val {x : Int} {ts : List Int} (hv : isValTok x) :
    SemP (x :: ts) ↔ SemE ts := by
  refine ⟨fun h => ?_, fun h => semP_of_semE (semE_val hv h)⟩
  rcases semP_cons h with ⟨_, h⟩ | ⟨hm, _⟩ | ⟨h', _⟩ | ⟨h', _⟩ | ⟨h', _⟩ | ⟨h', _⟩ | ⟨h', _⟩
  · exact h
  · rcases hv with rfl | rfl | rfl | rfl | rfl <;> rcases hm with h' | h' | h' <;> omega
  · rcases hv with rfl | rfl | rfl | rfl | rfl <;> omega
  · rcases hv with rfl | rfl | rfl | rfl | rfl <;> omega
  · rcases hv with rfl | rfl | rfl | rfl | rfl <;> omega
  · rcases hv with rfl | rfl | rfl | rfl | rfl <;> rcases h' with h'' | h'' | h'' | h'' | h'' | h'' | h'' <;> omega
  · rcases hv with rfl | rfl | rfl | rfl | rfl <;> omega

theorem semP_iff_8 {ts : List Int} : SemP (8 :: ts) ↔ SemV ts := by
  refine ⟨fun h => ?_, fun h => semP_of_semE (semE_mod (Or.inr (Or.inr rfl)) h)⟩
  rcases semP_cons h with ⟨hv, _⟩ | ⟨_, h⟩ | ⟨h', _⟩ | ⟨h', _⟩ | ⟨h', _⟩ | ⟨h', _⟩ | ⟨h', _⟩
  · rcases hv with h' | h' | h' | h' | h' <;> omega
  · exact h
  · omega
  · omega
  · omega
  · rcases h' with h'' | h'' | h'' | h'' | h'' | h'' | h'' <;> omega
  · omega

theorem semP_iff_dash {x : Int} {ts : List Int} (hm : x = 16 ∨ x = 17) :
    SemP (x :: ts) ↔ SemT ts := by
  have hx : x = 9 ∨ x = 10 ∨ x = 11 ∨ x = 12 ∨ x = 13 ∨ x = 16 ∨ x = 17 := by
    rcases hm with rfl | rfl
    · exact Or.inr (Or.inr (Or.inr (Or.inr (Or.inr (Or.inl rfl)))))
    · exact Or.inr (Or.inr (Or.inr (Or.inr (Or.inr (Or.inr rfl)))))
  refine ⟨fun h => ?_, semP_of_triad hx⟩
  rcases semP_cons h with ⟨hv, _⟩ | ⟨_, h⟩ | ⟨h', _⟩ | ⟨h', _⟩ | ⟨h', _⟩ | ⟨_, h⟩ | ⟨h', _⟩
  · rcases hv with h' | h' | h' | h' | h' <;> rcases hm with rfl | rfl <;> omega
  · exact semT_of_semE (semE_of_semV h)
  · rcases hm with rfl | rfl <;> omega
  · rcases hm with rfl | rfl <;> omega
  · rcases hm with rfl | rfl <;> omega
  · exact h
  · rcases hm with rfl | rfl <;> omega

theorem semP_iff_triad {x : Int} {ts : List Int}
    (hx : x = 9 ∨ x = 10 ∨ x = 11 ∨ x = 12 ∨ x = 13) :
    SemP (x :: ts) ↔ SemT ts := by
  refine ⟨fun h => ?_, semP_of_triad (by rcases hx with rfl | rfl | rfl | rfl | rfl
                                         · exact Or.inl rfl
                                         · exact Or.inr (Or.inl rfl)
                                         · exact Or.inr (Or.inr (Or.inl rfl))
                                         · exact Or.inr (Or.inr (Or.inr (Or.inl rfl)))
                                         · exact Or.inr (Or.inr (Or.inr (Or.inr (Or.inl rfl)))))⟩
  rcases semP_cons h with ⟨hv, _⟩ | ⟨hm, _⟩ | ⟨h', _⟩ | ⟨h', _⟩ | ⟨h', _⟩ | ⟨_, h⟩ | ⟨h', _⟩
  · rcases hv with h' | h' | h' | h' | h' <;> rcases hx with rfl | rfl | rfl | rfl | rfl <;> omega
  · rcases hm with h' | h' | h' <;> rcases hx with rfl | rfl | rfl | rfl | rfl <;> omega
  · rcases hx with rfl | rfl | rfl | rfl | rfl <;> omega
  · rcases hx with rfl | rfl | rfl | rfl | rfl <;> omega
  · rcases hx with rfl | rfl | rfl | rfl | rfl <;> omega
  · exact h
  · rcases hx with rfl | rfl | rfl | rfl | rfl <;> omega

theorem semP_iff_15 {ts : List Int} : SemP (15 :: ts) ↔ SemE ts := by
  refine ⟨fun h => ?_, fun h => ?_⟩
  · rcases semP_cons h with ⟨hv, _⟩ | ⟨hm, _⟩ | ⟨h', _⟩ | ⟨_, h⟩ | ⟨h', _⟩ | ⟨h', _⟩ | ⟨h', _⟩
    · rcases hv with h' | h' | h' | h' | h' <;> omega
    · rcases hm with h' | h' | h' <;> omega
    · omega
    · exact h
    · omega
    · rcases h' with h'' | h'' | h'' | h'' | h'' | h'' | h'' <;> omega
    · omega
  · obtain ⟨e, bv, he, hb, rfl⟩ := h
    exact Or.inl ⟨e, bv, he, hb, Or.inr (Or.inl rfl)⟩

theorem semP_iff_6 {ts : List Int} :
    SemP (6 :: ts) ↔ ((∃ r, ts = 15 :: r ∧ SemE r) ∨ SemE ts) := by
  refine ⟨fun h => ?_, fun h => ?_⟩
  · rcases semP_cons h with ⟨hv, _⟩ | ⟨hm, _⟩ | ⟨h', _⟩ | ⟨h', _⟩ | ⟨_, h⟩ | ⟨h', _⟩ | ⟨h', _⟩
    · rcases hv with h' | h' | h' | h' | h' <;> omega
    · rcases hm with h' | h' | h' <;> omega
    · omega
    · omega
    · exact h
    · rcases h' with h'' | h'' | h'' | h'' | h'' | h'' | h'' <;> omega
    · omega
  · rcases h with ⟨r, rfl, hr⟩ | hr
    · obtain ⟨e, bv, he, hb, rfl⟩ := hr
      exact Or.inl ⟨e, bv, he, hb, Or.inr (Or.inr (Or.inl rfl))⟩
    · obtain ⟨e, bv, he, hb, rfl⟩ := hr
      exact Or.inl ⟨e, bv, he, hb, Or.inr (Or.inr (Or.inr rfl))⟩

theorem semP_iff_7 {ts : List Int} :
    SemP (7 :: ts) ↔ ∃ r, SemT r ∧
      (ts = 18 :: r ∨ ts = 19 :: r ∨ ts = 8 :: 18 :: r ∨ ts = 8 :: 19 :: r) := by
  refine ⟨fun h => ?_, fun h => ?_⟩
  · rcases semP_cons h with ⟨hv, _⟩ | ⟨hm, _⟩ | ⟨h', _⟩ | ⟨h', _⟩ | ⟨h', _⟩ | ⟨h', _⟩ | ⟨_, h⟩
    · rcases hv with h' | h' | h' | h' | h' <;> omega
    · rcases hm with h' | h' | h' <;> omega
    · omega
    · omega
    · omega
    · rcases h' with h'' | h'' | h'' | h'' | h'' | h'' | h'' <;> omega
    · exact h
  · obtain ⟨r, hr, hd⟩ := h
    obtain ⟨e, bv, he, hb, hd5⟩ := hr
    rcases hd with rfl | rfl | rfl | rfl
    · exact Or.inr ⟨[7, 18], r, GTriad.sus GSus.two, ⟨e, bv, he, hb, hd5⟩, rfl⟩
    · exact Or.inr ⟨[7, 19], r, GTriad.sus GSus.four, ⟨e, bv, he, hb, hd5⟩, rfl⟩
    · exact Or.inr ⟨[7, 8, 18], r, GTriad.sus GSus.accTwo, ⟨e, bv, he, hb, hd5⟩, rfl⟩
    · exact Or.inr ⟨[7, 8, 19], r, GTriad.sus GSus.accFour, ⟨e, bv, he, hb, hd5⟩, rfl⟩

theorem semP_iff_14 {ts : List Int} : SemP (14 :: ts) ↔ GPitch ts := by
  refine ⟨fun h => ?_, fun h => semP_of_semE (semE_14 h)⟩
  rcases semP_cons h with ⟨hv, _⟩ | ⟨hm, _⟩ | ⟨_, h⟩ | ⟨h', _⟩ | ⟨h', _⟩ | ⟨h', _⟩ | ⟨h', _⟩
  · rcases hv with h' | h' | h' | h' | h' <;> omega
  · rcases hm with h' | h' | h' <;> omega
  · exact h
  · omega
  · omega
  · rcases h' with h'' | h'' | h'' | h'' | h'' | h'' | h'' <;> omega
  · omega

theorem semP_not {x : Int} {ts : List Int} (hx : x = 2 ∨ x = 3 ∨ x = 4) :
    ¬ SemP (x :: ts) := by
  intro h
  rcases semP_cons h with ⟨hv, _⟩ | ⟨hm, _⟩ | ⟨h', _⟩ | ⟨h', _⟩ | ⟨h', _⟩ | ⟨h', _⟩ | ⟨h', _⟩
  · rcases hv with h' | h' | h' | h' | h' <;> rcases hx with rfl | rfl | rfl <;> omega
  · rcases hm with h' | h' | h' <;> rcases hx with rfl | rfl | rfl <;> omega
  · rcases hx with rfl | rfl | rfl <;> omega
  · rcases hx with rfl | rfl | rfl <;> omega
  · rcases hx with rfl | rfl | rfl <;> omega
  · rcases h' with h'' | h'' | h'' | h'' | h'' | h'' | h'' <;>
      rcases hx with rfl | rfl | rfl <;> omega
  · rcases hx with rfl | rfl | rfl <;> omega

end Chords

namespace Chords

/-! ## C8: the full-chord language and the after-note language -/

theorem gpitch_4 {ts : List Int} : GPitch (4 :: ts) ↔ (ts = [] ∨ ts = [8]) := by
  constructor
  · intro h
    rcases gpitch_shape h with h' | h'
    · injection h' with _ h2
      exact Or.inl h2
    · injection h' with _ h2
      exact Or.inr h2
  · rintro (rfl | rfl)
    · exact GPitch.note
    · exact GPitch.noteAcc

theorem gpitch_not {x : Int} {ts : List Int} (hx : x ≠ 4) : ¬ GPitch (x :: ts) := by
  intro h
  rcases gpitch_shape h with h' | h' <;> injection h' with h1 _ <;> exact hx h1

theorem gpitch_nil : ¬ GPitch ([] : List Int) := by
  intro h
  rcases gpitch_shape h with h' | h' <;> cases h'

/-- Decompose a chord followed by a bass part into the after-note
remainder. -/
theorem gchord_rest {c : List Int} (h : GChord c) (bv : List Int) (hb : SemB bv) :
    ∃ u, SemP u ∧ (c ++ bv = 4 :: u ∨ c ++ bv = 4 :: 8 :: u) := by
  cases h with
  | pe hp he =>
    rcases gpitch_shape hp with rfl | rfl
    · exact ⟨_, semP_of_semE ⟨_, bv, he, hb, rfl⟩, Or.inl (by simp)⟩
    · exact ⟨_, semP_of_semE ⟨_, bv, he, hb, rfl⟩, Or.inr (by simp)⟩
  | p7e hp he =>
    rcases gpitch_shape hp with rfl | rfl
    · exact ⟨_, Or.inl ⟨_, bv, he, hb, Or.inr (Or.inl rfl)⟩, Or.inl (by simp)⟩
    · exact ⟨_, Or.inl ⟨_, bv, he, hb, Or.inr (Or.inl rfl)⟩, Or.inr (by simp)⟩
  | pM7e hp he =>
    rcases gpitch_shape hp with rfl | rfl
    · exact ⟨_, Or.inl ⟨_, bv, he, hb, Or.inr (Or.inr (Or.inl rfl))⟩, Or.inl (by simp)⟩
    · exact ⟨_, Or.inl ⟨_, bv, he, hb, Or.inr (Or.inr (Or.inl rfl))⟩, Or.inr (by simp)⟩
  | pMe hp he =>
    rcases gpitch_shape hp with rfl | rfl
    · exact ⟨_, Or.inl ⟨_, bv, he, hb, Or.inr (Or.inr (Or.inr rfl))⟩, Or.inl (by simp)⟩
    · exact ⟨_, Or.inl ⟨_, bv, he, hb, Or.inr (Or.inr (Or.inr rfl))⟩, Or.inr (by simp)⟩
  | pte hp ht he =>
    rcases gpitch_shape hp with rfl | rfl
    · exact ⟨_, Or.inr ⟨_, _, ht, ⟨_, bv, he, hb, Or.inl rfl⟩, rfl⟩, Or.inl (by simp)⟩
    · exact ⟨_, Or.inr ⟨_, _, ht, ⟨_, bv, he, hb, Or.inl rfl⟩, rfl⟩, Or.inr (by simp)⟩
  | pt7e hp ht he =>
    rcases gpitch_shape hp with rfl | rfl
    · exact ⟨_, Or.inr ⟨_, _, ht, ⟨_, bv, he, hb, Or.inr (Or.inl rfl)⟩, rfl⟩,
        Or.inl (by simp)⟩
    · exact ⟨_, Or.inr ⟨_, _, ht, ⟨_, bv, he, hb, Or.inr (Or.inl rfl)⟩, rfl⟩,
        Or.inr (by simp)⟩
  | ptM7e hp ht he =>
    rcases gpitch_shape hp with rfl | rfl
    · exact ⟨_, Or.inr ⟨_, _, ht, ⟨_, bv, he, hb, Or.inr (Or.inr (Or.inl rfl))⟩, rfl⟩,
        Or.inl (by simp)⟩
    · exact ⟨_, Or.inr ⟨_, _, ht, ⟨_, bv, he, hb, Or.inr (Or.inr (Or.inl rfl))⟩, rfl⟩,
        Or.inr (by simp)⟩
  | ptMTe hp ht he =>
    rcases gpitch_shape hp with rfl | rfl
    · exact ⟨_, Or.inr ⟨_, _, ht, ⟨_, bv, he, hb,
        Or.inr (Or.inr (Or.inr (Or.inl rfl)))⟩, rfl⟩, Or.inl (by simp)⟩
    · exact ⟨_, Or.inr ⟨_, _, ht, ⟨_, bv, he, hb,
        Or.inr (Or.inr (Or.inr (Or.inl rfl)))⟩, rfl⟩, Or.inr (by simp)⟩
  | ptA7e hp ht he =>
    rcases gpitch_shape hp with rfl | rfl
    · exact ⟨_, Or.inr ⟨_, _, ht, ⟨_, bv, he, hb,
        Or.inr (Or.inr (Or.inr (Or.inr rfl)))⟩, rfl⟩, Or.inl (by simp)⟩
    · exact ⟨_, Or.inr ⟨_, _, ht, ⟨_, bv, he, hb,
        Or.inr (Or.inr (Or.inr (Or.inr rfl)))⟩, rfl⟩, Or.inr (by simp)⟩

/-- Rebuild a full chord from a pitch and an after-pitch remainder. -/
theorem gfull_mk {p ts : List Int} (hp : GPitch p) (h : SemP ts) : GFull (p ++ ts) := by
  rcases h with ⟨e, bv, he, hb, hd⟩ | ⟨t, r, ht, hr, rfl⟩
  · rcases hb with rfl | ⟨bp, hbp, rfl⟩
    · rcases hd with rfl | rfl | rfl | rfl
      · exact GFull.chord (by simpa using GChord.pe hp he)
      · exact GFull.chord (by simpa using GChord.p7e hp he)
      · exact GFull.chord (by simpa using GChord.pM7e hp he)
      · exact GFull.chord (by simpa using GChord.pMe hp he)
    · rcases hd with rfl | rfl | rfl | rfl
      · exact (by simpa [List.append_assoc, List.cons_append] using
          GFull.bass (GChord.pe hp he) hbp)
      · exact (by simpa [List.append_assoc, List.cons_append] using
          GFull.bass (GChord.p7e hp he) hbp)
      · exact (by simpa [List.append_assoc, List.cons_append] using
          GFull.bass (GChord.pM7e hp he) hbp)
      · exact (by simpa [List.append_assoc, List.cons_append] using
          GFull.bass (GChord.pMe hp he) hbp)
  · obtain ⟨e, bv, he, hb, hd5⟩ := hr
    rcases hb with rfl | ⟨bp, hbp, rfl⟩
    · rcases hd5 with rfl | rfl | rfl | rfl | rfl
      · exact GFull.chord (by simpa using GChord.pte hp ht he)
      · exact GFull.chord (by simpa using GChord.pt7e hp ht he)
      · exact GFull.chord (by simpa using GChord.ptM7e hp ht he)
      · exact GFull.chord (by simpa using GChord.ptMTe hp ht he)
      · exact GFull.chord (by simpa using GChord.ptA7e hp ht he)
    · rcases hd5 with rfl | rfl | rfl | rfl | rfl
      · exact (by simpa [List.append_assoc, List.cons_append] using
          GFull.bass (GChord.pte hp ht he) hbp)
      · exact (by simpa [List.append_assoc, List.cons_append] using
          GFull.bass (GChord.pt7e hp ht he) hbp)
      · exact (by simpa [List.append_assoc, List.cons_append] using
          GFull.bass (GChord.ptM7e hp ht he) hbp)
      · exact (by simpa [List.append_assoc, List.cons_append] using
          GFull.bass (GChord.ptMTe hp ht he) hbp)
      · exact (by simpa [List.append_assoc, List.cons_append] using
          GFull.bass (GChord.ptA7e hp ht he) hbp)

theorem gfull_decomp {u : List Int} (h : GFull u) :
    ∃ c bv, GChord c ∧ SemB bv ∧ u = c ++ bv := by
  cases h with
  | chord hc => exact ⟨_, [], hc, semB_nil, (List.append_nil _).symm⟩
  | bass hc hp => exact ⟨_, 14 :: _, hc, Or.inr ⟨_, hp, rfl⟩, rfl⟩

theorem gfull_4 {ts : List Int} :
    GFull (4 :: ts) ↔ (SemP ts ∨ ∃ r, ts = 8 :: r ∧ SemP r) := by
  constructor
  · intro h
    obtain ⟨c, bv, hc, hb, heq⟩ := gfull_decomp h
    obtain ⟨u, hu, hor⟩ := gchord_rest hc bv hb
    rcases hor with h' | h'
    · rw [h'] at heq
      injection heq with _ h2
      exact Or.inl (h2 ▸ hu)
    · rw [h'] at heq
      injection heq with _ h2
      exact Or.inr ⟨u, h2, hu⟩
  · rintro (h | ⟨r, rfl, h⟩)
    · exact gfull_mk GPitch.note h
    · exact gfull_mk GPitch.noteAcc h

theorem gchord_head {c : List Int} (h : GChord c) : ∃ u, c = 4 :: u := by
  obtain ⟨u, hu, hor⟩ := gchord_rest h [] semB_nil
  rw [List.append_nil] at hor
  rcases hor with h' | h'
  · exact ⟨u, h'⟩
  · exact ⟨8 :: u, h'⟩

theorem gfull_head {u : List Int} (h : GFull u) : ∃ w, u = 4 :: w := by
  cases h with
  | chord hc => exact gchord_head hc
  | bass hc hp =>
    rename_i c p
    obtain ⟨w, rfl⟩ := gchord_head hc
    exact ⟨w ++ 14 :: p, by simp⟩

theorem gfull_nil : ¬ GFull ([] : List Int) := by
  intro h
  obtain ⟨w, hw⟩ := gfull_head h
  cases hw

theorem gfull_not4 {x : Int} {ts : List Int} (hx : x ≠ 4) : ¬ GFull (x :: ts) := by
  intro h
  obtain ⟨w, hw⟩ := gfull_head h
  injection hw with h1 _
  exact hx h1

theorem c1lang_8 {ts : List Int} :
    (SemP (8 :: ts) ∨ ∃ r, 8 :: ts = 8 :: r ∧ SemP r) ↔ SemP ts := by
  constructor
  · rintro (h | ⟨r, heq, h⟩)
    · exact semP_of_semE (semE_of_semV (semP_iff_8.mp h))
    · injection heq with _ h2
      exact h2 ▸ h
  · intro h
    exact Or.inr ⟨ts, rfl, h⟩

theorem c1lang_del {t : Int} {ts : List Int} (ht : t ≠ 8) :
    (SemP (t :: ts) ∨ ∃ r, t :: ts = 8 :: r ∧ SemP r) ↔ SemP (t :: ts) := by
  constructor
  · rintro (h | ⟨r, heq, h⟩)
    · exact h
    · injection heq with h1 _
      exact absurd h1 ht
  · exact Or.inl

theorem c1lang_nil :
    (SemP ([] : List Int) ∨ ∃ r, ([] : List Int) = 8 :: r ∧ SemP r) ↔
      SemP ([] : List Int) := by
  constructor
  · rintro (h | ⟨r, heq, _⟩)
    · exact h
    · cases heq
  · exact Or.inl

end Chords

namespace Chords

/-! ## C8: composed transitions -/

/-- Fuel-aligned composition of a transition with a finished run. -/
theorem aRun_compose {lab₁ lab₂ : MLabel} {a₁ a₂ : ASt} {r : Bool} (k F F' : Nat)
    (hstep : ∀ f, aRun (f + k) lab₁ a₁ = aRun f lab₂ a₂)
    (hrun : aRun F' lab₂ a₂ = .adone r)
    (hF : F' + k ≤ F) :
    aRun F lab₁ a₁ = .adone r := by
  have h2 : aRun (F - k) lab₂ a₂ = .adone r :=
    aRun_done_mono F' (F - k) _ _ hrun (by omega)
  rw [show F = (F - k) + k by omega, hstep (F - k), h2]

/-- Fuel-aligned use of a finishing transition family. -/
theorem aRun_finish {lab : MLabel} {a : ASt} {r : Bool} (k F : Nat)
    (hstep : ∀ f, aRun (f + k) lab a = .adone r) (hF : k ≤ F) :
    aRun F lab a = .adone r := by
  rw [show F = (F - k) + k by omega]
  exact hstep (F - k)

/-- The extras stack of a well-formed extras class starts with one of
the uniform tone-context states. -/
theorem cE_shape (b : EBase) (n : Nat) (hok : PClass.ok (.cE b n)) :
    ∃ u σ, List.replicate n 10 ++ b.spine = u :: σ ∧
      u ∈ ([7, 10, 33, 36, 46, 47, 48] : List Int) := by
  cases n with
  | zero =>
    cases b
    · exact absurd (hok (Or.inl rfl)) (by omega)
    · exact ⟨7, [3, 0], rfl, by decide⟩
    · exact absurd (hok (Or.inr (Or.inl rfl))) (by omega)
    · exact absurd (hok (Or.inr (Or.inr rfl))) (by omega)
    · exact ⟨33, [8, 3, 0], rfl, by decide⟩
    · exact ⟨36, [9, 3, 0], rfl, by decide⟩
    · exact ⟨46, [37, 9, 3, 0], rfl, by decide⟩
    · exact ⟨47, [37, 9, 3, 0], rfl, by decide⟩
    · exact ⟨48, [38, 9, 3, 0], rfl, by decide⟩
  | succ m =>
    exact ⟨10, List.replicate m 10 ++ b.spine, by rw [List.replicate_succ, List.cons_append],
      by decide⟩

theorem mem_widen1 {u : Int} (hu : u ∈ ([7, 10, 33, 36, 46, 47, 48] : List Int)) :
    u ∈ ([3, 7, 8, 9, 10, 33, 36, 46, 47, 48] : List Int) := by
  fin_cases hu <;> decide

theorem mem_widen2 {u : Int} (hu : u ∈ ([7, 10, 33, 36, 46, 47, 48] : List Int)) :
    u ∈ ([7, 8, 9, 10, 33, 36, 46, 47, 48] : List Int) := by
  fin_cases hu <;> decide

theorem mem_widen3 {u : Int} (hu : u ∈ ([7, 10, 33, 36, 46, 47, 48] : List Int)) :
    u ∈ ([3, 7, 8, 10, 33, 36, 46, 47, 48] : List Int) := by
  fin_cases hu <;> decide

/-- Leaving the extras on a slash: cascade, then shift the slash. -/
theorem step_ex_14 (b : EBase) (n : Nat) (u : Int) (σ ts : List Int) (f : Nat)
    (hsp : List.replicate n 10 ++ b.spine = u :: σ)
    (hu : u ∈ ([7, 10, 33, 36, 46, 47, 48] : List Int)) :
    aRun (f + (3 * n + 7)) .newstate ⟨u, u :: σ, none, 14 :: ts, false, 0⟩ =
    aRun f .newstate ⟨5, [5, 2, 0], none, ts, false, 0⟩ := by
  rw [show f + (3 * n + 7) = (((f + 1) + (3 * n + 5))) + 1 by omega]
  rw [step_noshift_ex u 14 hu (by decide) (u :: σ) ts ((f + 1) + (3 * n + 5))]
  have hc := cascadeD b n 14 ts (f + 1)
  rw [hsp] at hc
  simp only [List.headI] at hc
  rw [hc, step2_slash]

/-- Leaving the extras at the end of input: cascade, then accept. -/
theorem step_ex_end (b : EBase) (n : Nat) (u : Int) (σ : List Int) (f : Nat)
    (hsp : List.replicate n 10 ++ b.spine = u :: σ)
    (hu : u ∈ ([7, 10, 33, 36, 46, 47, 48] : List Int)) :
    aRun (f + (3 * n + 11)) .newstate ⟨u, u :: σ, none, [], false, 0⟩ = .adone false := by
  rw [show f + (3 * n + 11) = (((f + 5) + (3 * n + 5))) + 1 by omega]
  rw [step_noshift_ex_end u hu (u :: σ) ((f + 5) + (3 * n + 5))]
  have hc := cascadeD b n 1 [] (f + 5)
  rw [hsp] at hc
  simp only [List.headI] at hc
  rw [hc, step2_accept]

/-- Leaving the extras on a token no continuation accepts. -/
theorem step_ex_bad (b : EBase) (n : Nat) (u t : Int) (σ ts : List Int) (f : Nat)
    (hsp : List.replicate n 10 ++ b.spine = u :: σ)
    (hu : u ∈ ([7, 10, 33, 36, 46, 47, 48] : List Int))
    (ht : t ∈ ([2, 3, 4, 6, 7, 9, 10, 11, 12, 13, 15] : List Int)) :
    aRun (f + (3 * n + 15)) .newstate ⟨u, u :: σ, none, t :: ts, false, 0⟩ = .adone true := by
  rw [show f + (3 * n + 15) = (((f + 9) + (3 * n + 5))) + 1 by omega]
  rw [step_noshift_ex u t hu (by fin_cases ht <;> decide) (u :: σ) ts ((f + 9) + (3 * n + 5))]
  have hc := cascadeD b n t ts (f + 9)
  rw [hsp] at hc
  simp only [List.headI] at hc
  rw [hc]
  exact step2_reject t (by fin_cases ht <;> decide) ts f

/-- The same three exits from the extras contexts carrying no frame. -/
theorem step_p_14 (ts : List Int) (f : Nat) :
    aRun (f + 7) .newstate ⟨3, [3, 0], none, 14 :: ts, false, 0⟩ =
    aRun f .newstate ⟨5, [5, 2, 0], none, ts, false, 0⟩ := by
  rw [show f + 7 = ((f + 1) + 5) + 1 by omega,
    step_noshift_3 14 (by decide) [3, 0] ts ((f + 1) + 5), cascP, step2_slash]

theorem step_p_end (f : Nat) :
    aRun (f + 11) .newstate ⟨3, [3, 0], none, [], false, 0⟩ = .adone false := by
  rw [show f + 11 = ((f + 5) + 5) + 1 by omega,
    step_noshift_3_end [3, 0] ((f + 5) + 5), cascP, step2_accept]

theorem step_p_bad (t : Int) (ht : t ∈ ([2, 3, 4] : List Int)) (ts : List Int) (f : Nat) :
    aRun (f + 15) .newstate ⟨3, [3, 0], none, t :: ts, false, 0⟩ = .adone true := by
  rw [show f + 15 = ((f + 9) + 5) + 1 by omega,
    step_noshift_3 t (by fin_cases ht <;> decide) [3, 0] ts ((f + 9) + 5), cascP]
  exact step2_reject t (by fin_cases ht <;> decide) ts f

theorem step_m_14 (ts : List Int) (f : Nat) :
    aRun (f + 7) .newstate ⟨8, [8, 3, 0], none, 14 :: ts, false, 0⟩ =
    aRun f .newstate ⟨5, [5, 2, 0], none, ts, false, 0⟩ := by
  rw [show f + 7 = ((f + 1) + 5) + 1 by omega,
    step_noshift_8 14 (by decide) [8, 3, 0] ts ((f + 1) + 5), cascM, step2_slash]

theorem step_m_end (f : Nat) :
    aRun (f + 11) .newstate ⟨8, [8, 3, 0], none, [], false, 0⟩ = .adone false := by
  rw [show f + 11 = ((f + 5) + 5) + 1 by omega,
    step_noshift_8_end [8, 3, 0] ((f + 5) + 5), cascM, step2_accept]

theorem step_m_bad (t : Int)
    (ht : t ∈ ([2, 3, 4, 6, 7, 9, 10, 11, 12, 13] : List Int)) (ts : List Int) (f : Nat) :
    aRun (f + 15) .newstate ⟨8, [8, 3, 0], none, t :: ts, false, 0⟩ = .adone true := by
  rw [show f + 15 = ((f + 9) + 5) + 1 by omega,
    step_noshift_8 t (by fin_cases ht <;> decide) [8, 3, 0] ts ((f + 9) + 5), cascM]
  exact step2_reject t (by fin_cases ht <;> decide) ts f

theorem step_t_14 (ts : List Int) (f : Nat) :
    aRun (f + 7) .newstate ⟨9, [9, 3, 0], none, 14 :: ts, false, 0⟩ =
    aRun f .newstate ⟨5, [5, 2, 0], none, ts, false, 0⟩ := by
  rw [show f + 7 = ((f + 1) + 5) + 1 by omega,
    step_noshift_9 14 (by decide) [9, 3, 0] ts ((f + 1) + 5), cascT, step2_slash]

theorem step_t_end (f : Nat) :
    aRun (f + 11) .newstate ⟨9, [9, 3, 0], none, [], false, 0⟩ = .adone false := by
  rw [show f + 11 = ((f + 5) + 5) + 1 by omega,
    step_noshift_9_end [9, 3, 0] ((f + 5) + 5), cascT, step2_accept]

theorem step_t_bad (t : Int)
    (ht : t ∈ ([2, 3, 4, 7, 9, 10, 11, 12, 13] : List Int)) (ts : List Int) (f : Nat) :
    aRun (f + 15) .newstate ⟨9, [9, 3, 0], none, t :: ts, false, 0⟩ = .adone true := by
  rw [show f + 15 = ((f + 9) + 5) + 1 by omega,
    step_noshift_9 t (by fin_cases ht <;> decide) [9, 3, 0] ts ((f + 9) + 5), cascT]
  exact step2_reject t (by fin_cases ht <;> decide) ts f

/-- The after-note class delegates to the after-pitch class on every
token but an accidental. -/
theorem step_c1_delN (t : Int)
    (ht : t ∈ ([2, 3, 4, 5, 6, 7, 9, 10, 11, 12, 13, 14, 15, 16, 17, 18, 19, 20, 21] :
      List Int)) (ts : List Int) (f : Nat) :
    aRun (f + 3) .newstate ⟨4, [4, 0], none, t :: ts, false, 0⟩ =
    aRun f .newstate ⟨3, [3, 0], none, t :: ts, false, 0⟩ := by
  rw [step_c1_del t ht ts f]
  exact aRun_norm f ⟨3, [3, 0], none, t :: ts, false, 0⟩
    (show ¬ chordPact.getD (3 : Int).toNat 0 ≤ -1000 by decide)

theorem step_c1_delN_end (f : Nat) :
    aRun (f + 3) .newstate ⟨4, [4, 0], none, [], false, 0⟩ =
    aRun f .newstate ⟨3, [3, 0], none, [], false, 0⟩ := by
  rw [step_c1_del_end f]
  exact aRun_norm f ⟨3, [3, 0], none, [], false, 0⟩
    (show ¬ chordPact.getD (3 : Int).toNat 0 ≤ -1000 by decide)

/-- The triad-accidental class delegates to the tone-modifier class on
every token but `'7'`. -/
theorem step_ta_delN (t : Int)
    (ht : t ∈ ([2, 3, 4, 5, 6, 7, 8, 9, 10, 11, 12, 13, 14, 16, 17, 18, 19, 20, 21] :
      List Int)) (ts : List Int) (f : Nat) :
    aRun (f + 3) .newstate ⟨38, [38, 9, 3, 0], none, t :: ts, false, 0⟩ =
    aRun f .newstate ⟨20, [20, 9, 3, 0], none, t :: ts, false, 0⟩ := by
  rw [step_ta_del t ht [3, 0] ts f]
  exact aRun_norm f ⟨20, [20, 9, 3, 0], none, t :: ts, false, 0⟩
    (show ¬ chordPact.getD (20 : Int).toNat 0 ≤ -1000 by decide)

theorem step_ta_delN_end (f : Nat) :
    aRun (f + 3) .newstate ⟨38, [38, 9, 3, 0], none, [], false, 0⟩ =
    aRun f .newstate ⟨20, [20, 9, 3, 0], none, [], false, 0⟩ := by
  rw [step_ta_del_end [3, 0] f]
  exact aRun_norm f ⟨20, [20, 9, 3, 0], none, [], false, 0⟩
    (show ¬ chordPact.getD (20 : Int).toNat 0 ≤ -1000 by decide)

/-- The bass-note class delegates to the accept state on every token but
an accidental. -/
theorem step_b2_delN (t : Int)
    (ht : t ∈ ([2, 3, 4, 5, 6, 7, 9, 10, 11, 12, 13, 14, 15, 16, 17, 18, 19, 20, 21] :
      List Int)) (ts : List Int) (f : Nat) :
    aRun (f + 6) .newstate ⟨4, [4, 5, 2, 0], none, t :: ts, false, 0⟩ =
    aRun f .newstate ⟨1, [1, 0], none, t :: ts, false, 0⟩ := by
  rw [step_b2_del t ht [] ts f]
  exact aRun_norm_acc f ⟨1, [1, 0], none, t :: ts, false, 0⟩
    (show chordPact.getD (1 : Int).toNat 0 ≤ -1000 by decide)
    (show chordDef.getD (1 : Int).toNat 0 = -2 by decide)

theorem step_b2_delN_end (f : Nat) :
    aRun (f + 6) .newstate ⟨4, [4, 5, 2, 0], none, [], false, 0⟩ =
    aRun f .newstate ⟨1, [1, 0], none, [], false, 0⟩ := by
  rw [step_b2_del_end [] f]
  exact aRun_norm_acc f ⟨1, [1, 0], none, [], false, 0⟩
    (show chordPact.getD (1 : Int).toNat 0 ≤ -1000 by decide)
    (show chordDef.getD (1 : Int).toNat 0 = -2 by decide)

end Chords

namespace Chords

/-! ## C8: remaining-language derivatives of the small classes -/

theorem cMlang_15 {ts : List Int} :
    ((∃ r, 15 :: ts = 15 :: r ∧ SemE r) ∨ SemE (15 :: ts)) ↔ SemE ts := by
  constructor
  · rintro (⟨r, heq, h⟩ | h)
    · injection heq with _ h2
      exact h2 ▸ h
    · exact absurd h (semE_not (by intro h'; rcases h' with h' | h' | h' | h' | h' <;> omega)
        (by intro h'; rcases h' with h' | h' | h' <;> omega) (by omega))
  · intro h
    exact Or.inl ⟨ts, rfl, h⟩

theorem cMlang_other {t : Int} {ts : List Int} (h15 : t ≠ 15) :
    ((∃ r, t :: ts = 15 :: r ∧ SemE r) ∨ SemE (t :: ts)) ↔ SemE (t :: ts) := by
  constructor
  · rintro (⟨r, heq, h⟩ | h)
    · injection heq with h1 _
      exact absurd h1 h15
    · exact h
  · exact Or.inr

theorem cMlang_nil :
    ¬ ((∃ r, ([] : List Int) = 15 :: r ∧ SemE r) ∨ SemE ([] : List Int)) → False := by
  intro h
  exact h (Or.inr semE_nil)

theorem cTMlang_15 {ts : List Int} :
    ((∃ r, 15 :: ts = 15 :: r ∧ SemE r) ∨ (∃ r, 15 :: ts = 5 :: r ∧ SemE r)) ↔ SemE ts := by
  constructor
  · rintro (⟨r, heq, h⟩ | ⟨r, heq, h⟩)
    · injection heq with _ h2
      exact h2 ▸ h
    · injection heq with h1 _
      omega
  · intro h
    exact Or.inl ⟨ts, rfl, h⟩

theorem cTMlang_5 {ts : List Int} :
    ((∃ r, 5 :: ts = 15 :: r ∧ SemE r) ∨ (∃ r, 5 :: ts = 5 :: r ∧ SemE r)) ↔ SemE ts := by
  constructor
  · rintro (⟨r, heq, h⟩ | ⟨r, heq, h⟩)
    · injection heq with h1 _
      omega
    · injection heq with _ h2
      exact h2 ▸ h
  · intro h
    exact Or.inr ⟨ts, rfl, h⟩

theorem cTMlang_not {t : Int} {ts : List Int} (h5 : t ≠ 5) (h15 : t ≠ 15) :
    ¬ ((∃ r, t :: ts = 15 :: r ∧ SemE r) ∨ ∃ r, t :: ts = 5 :: r ∧ SemE r) := by
  rintro (⟨r, heq, _⟩ | ⟨r, heq, _⟩) <;> injection heq with h1 _
  · exact h15 h1
  · exact h5 h1

theorem cTAlang_15 {ts : List Int} :
    ((∃ r, 15 :: ts = 15 :: r ∧ SemE r) ∨ SemV (15 :: ts)) ↔ SemE ts := by
  constructor
  · rintro (⟨r, heq, h⟩ | h)
    · injection heq with _ h2
      exact h2 ▸ h
    · exact absurd h (semV_not (by intro h'; rcases h' with h' | h' | h' | h' | h' <;> omega))
  · intro h
    exact Or.inl ⟨ts, rfl, h⟩

theorem cTAlang_del {t : Int} {ts : List Int} (h15 : t ≠ 15) :
    ((∃ r, t :: ts = 15 :: r ∧ SemE r) ∨ SemV (t :: ts)) ↔ SemV (t :: ts) := by
  constructor
  · rintro (⟨r, heq, _⟩ | h)
    · injection heq with h1 _
      exact absurd h1 h15
    · exact h
  · exact Or.inr

theorem cTAlang_nil :
    ((∃ r, ([] : List Int) = 15 :: r ∧ SemE r) ∨ SemV ([] : List Int)) ↔
      SemV ([] : List Int) := by
  constructor
  · rintro (⟨r, heq, _⟩ | h)
    · cases heq
    · exact h
  · exact Or.inr

theorem cS1lang_18 {ts : List Int} :
    (∃ r, SemT r ∧ (18 :: ts = 18 :: r ∨ 18 :: ts = 19 :: r ∨ 18 :: ts = 8 :: 18 :: r ∨
      18 :: ts = 8 :: 19 :: r)) ↔ SemT ts := by
  constructor
  · rintro ⟨r, hr, heq | heq | heq | heq⟩ <;> injection heq with h1 h2
    · exact h2 ▸ hr
    all_goals omega
  · intro h
    exact ⟨ts, h, Or.inl rfl⟩

theorem cS1lang_19 {ts : List Int} :
    (∃ r, SemT r ∧ (19 :: ts = 18 :: r ∨ 19 :: ts = 19 :: r ∨ 19 :: ts = 8 :: 18 :: r ∨
      19 :: ts = 8 :: 19 :: r)) ↔ SemT ts := by
  constructor
  · rintro ⟨r, hr, heq | heq | heq | heq⟩ <;> injection heq with h1 h2
    · omega
    · exact h2 ▸ hr
    all_goals omega
  · intro h
    exact ⟨ts, h, Or.inr (Or.inl rfl)⟩

theorem cS1lang_8 {ts : List Int} :
    (∃ r, SemT r ∧ (8 :: ts = 18 :: r ∨ 8 :: ts = 19 :: r ∨ 8 :: ts = 8 :: 18 :: r ∨
      8 :: ts = 8 :: 19 :: r)) ↔ ∃ r, SemT r ∧ (ts = 18 :: r ∨ ts = 19 :: r) := by
  constructor
  · rintro ⟨r, hr, heq | heq | heq | heq⟩ <;> injection heq with h1 h2
    · omega
    · omega
    · exact ⟨r, hr, Or.inl h2⟩
    · exact ⟨r, hr, Or.inr h2⟩
  · rintro ⟨r, hr, rfl | rfl⟩
    · exact ⟨r, hr, Or.inr (Or.inr (Or.inl rfl))⟩
    · exact ⟨r, hr, Or.inr (Or.inr (Or.inr rfl))⟩

theorem cS1lang_not {t : Int} {ts : List Int} (h18 : t ≠ 18) (h19 : t ≠ 19) (h8 : t ≠ 8) :
    ¬ ∃ r, SemT r ∧ (t :: ts = 18 :: r ∨ t :: ts = 19 :: r ∨ t :: ts = 8 :: 18 :: r ∨
      t :: ts = 8 :: 19 :: r) := by
  rintro ⟨r, _, heq | heq | heq | heq⟩ <;> injection heq with h1 _
  · exact h18 h1
  · exact h19 h1
  · exact h8 h1
  · exact h8 h1

theorem cS2lang_18 {ts : List Int} :
    (∃ r, SemT r ∧ (18 :: ts = 18 :: r ∨ 18 :: ts = 19 :: r)) ↔ SemT ts := by
  constructor
  · rintro ⟨r, hr, heq | heq⟩ <;> injection heq with h1 h2
    · exact h2 ▸ hr
    · omega
  · intro h
    exact ⟨ts, h, Or.inl rfl⟩

theorem cS2lang_19 {ts : List Int} :
    (∃ r, SemT r ∧ (19 :: ts = 18 :: r ∨ 19 :: ts = 19 :: r)) ↔ SemT ts := by
  constructor
  · rintro ⟨r, hr, heq | heq⟩ <;> injection heq with h1 h2
    · omega
    · exact h2 ▸ hr
  · intro h
    exact ⟨ts, h, Or.inr rfl⟩

theorem cS2lang_not {t : Int} {ts : List Int} (h18 : t ≠ 18) (h19 : t ≠ 19) :
    ¬ ∃ r, SemT r ∧ (t :: ts = 18 :: r ∨ t :: ts = 19 :: r) := by
  rintro ⟨r, _, heq | heq⟩ <;> injection heq with h1 _
  · exact h18 h1
  · exact h19 h1

theorem cB2lang_8 {ts : List Int} :
    (8 :: ts = ([] : List Int) ∨ 8 :: ts = [8]) ↔ ts = [] := by
  constructor
  · rintro (heq | heq)
    · cases heq
    · simpa using heq
  · rintro rfl
    exact Or.inr rfl

theorem cB2lang_del {t : Int} {ts : List Int} (h8 : t ≠ 8) :
    (t :: ts = ([] : List Int) ∨ t :: ts = [8]) ↔ t :: ts = ([] : List Int) := by
  constructor
  · rintro (heq | heq)
    · exact heq
    · injection heq with h1 _
      exact absurd h1 h8
  · exact Or.inl

theorem cB2lang_nil :
    (([] : List Int) = ([] : List Int) ∨ ([] : List Int) = [8]) ↔
      ([] : List Int) = ([] : List Int) := by
  constructor
  · rintro (heq | heq)
    · exact heq
    · cases heq
  · exact Or.inl

/-! ## C8: the terminal (end-of-input) behaviour of the rank-0 classes -/

theorem master_nil (C : PClass) (hok : C.ok) (hC : C.rank = 0) :
    ∃ r : Bool, aRun (aFuel C []) .newstate (mkA C []) = .adone r ∧
      (r = false ↔ C.lang []) := by
  cases C with
  | c0 =>
    refine ⟨true, ?_, ⟨fun h => Bool.noConfusion h, fun h => (gfull_nil h).elim⟩⟩
    exact aRun_finish 5 _ (fun f => step_c0_end f)
      (by simp [aFuel, PClass.spine, PClass.rank])
  | c1 => cases hC
  | cP =>
    refine ⟨false, ?_, ⟨fun _ => semP_nil, fun _ => rfl⟩⟩
    exact aRun_finish 11 _ (fun f => step_p_end f)
      (by simp [aFuel, PClass.spine, PClass.rank])
  | cM =>
    refine ⟨false, ?_, ⟨fun _ => Or.inr semE_nil, fun _ => rfl⟩⟩
    exact aRun_finish 11 _ (fun f => step_m_end f)
      (by simp [aFuel, PClass.spine, PClass.rank])
  | cT =>
    refine ⟨false, ?_, ⟨fun _ => semT_nil, fun _ => rfl⟩⟩
    exact aRun_finish 11 _ (fun f => step_t_end f)
      (by simp [aFuel, PClass.spine, PClass.rank])
  | cTM =>
    refine ⟨true, ?_, ⟨fun h => Bool.noConfusion h, fun h => ?_⟩⟩
    · exact aRun_finish 8 _ (fun f => step_tm_reject_end f)
        (by simp [aFuel, PClass.spine, PClass.rank])
    · rcases h with ⟨r, heq, _⟩ | ⟨r, heq, _⟩ <;> cases heq
  | cTA => cases hC
  | cS1 =>
    refine ⟨true, ?_, ⟨fun h => Bool.noConfusion h, fun h => ?_⟩⟩
    · exact aRun_finish 7 _ (fun f => step_s1_reject_end f)
        (by simp [aFuel, PClass.spine, PClass.rank])
    · obtain ⟨r, _, heq | heq | heq | heq⟩ := h <;> cases heq
  | cS2 =>
    refine ⟨true, ?_, ⟨fun h => Bool.noConfusion h, fun h => ?_⟩⟩
    · exact aRun_finish 8 _ (fun f => step_s2_reject_end f)
        (by simp [aFuel, PClass.spine, PClass.rank])
    · obtain ⟨r, _, heq | heq⟩ := h <;> cases heq
  | cE b n =>
    obtain ⟨u, σ, hsp, hu⟩ := cE_shape b n hok
    have hmk : mkA (.cE b n) [] = ⟨u, u :: σ, none, [], false, 0⟩ := by
      simp only [mkA, PClass.spine, hsp, List.headI]
    refine ⟨false, ?_, ⟨fun _ => semE_nil, fun _ => rfl⟩⟩
    refine aRun_finish (3 * n + 11) _ (fun f => ?_) ?_
    · rw [hmk]
      exact step_ex_end b n u σ f hsp hu
    · simp [aFuel, PClass.spine, PClass.rank, List.length_append, List.length_replicate]
      omega
  | cV b n =>
    refine ⟨true, ?_, ⟨fun h => Bool.noConfusion h, fun h => (semV_nil h).elim⟩⟩
    refine aRun_finish ((20 :: (List.replicate n 10 ++ b.spine)).length + 4) _
      (fun f => ?_) ?_
    · exact step_v_reject_end (20 :: (List.replicate n 10 ++ b.spine)) f
    · simp [aFuel, PClass.spine, PClass.rank, List.length_append, List.length_replicate]
      omega
  | cB1 =>
    refine ⟨true, ?_, ⟨fun h => Bool.noConfusion h, fun h => (gpitch_nil h).elim⟩⟩
    exact aRun_finish 7 _ (fun f => step_b1_reject_end f)
      (by simp [aFuel, PClass.spine, PClass.rank])
  | cB2 => cases hC
  | cAcc =>
    refine ⟨false, ?_, ⟨fun _ => rfl, fun _ => rfl⟩⟩
    exact aRun_finish 2 _ (fun f => step_acc_end [1, 0] f)
      (by simp [aFuel, PClass.spine, PClass.rank])

end Chords
